import Mathlib

/-! Starlocks and the process tags: the wait queue, the fair lock, the service points, the
customer threads, `main`, and the tasklist of `lin_kernel/ptag.c`.

A shallow embedding of `c/starlocks/src` (queue.h, fifo_mutex.h, count.h, server.c,
addict.c, main.c) and of `lin_kernel/ptag.c`.  Pointers are natural-number addresses, `none`
is `NULL`; the C `int` is a mathematical integer reduced to 32 bits after every arithmetic
operation.
-/

namespace Starlocks

/-! ## Machine integers -/

/-- The value of a C `int` holding the mathematical integer `x`: `x` reduced modulo `2^32`
into the range `-2^31 .. 2^31 - 1` (two's complement). -/
def wrap32 (x : Int) : Int := (x + 2147483648) % 4294967296 - 2147483648

/-- The largest `int`. -/
def INT_MAX : Int := 2147483647

/-! ## queue.h -/

/-- The links of `struct node_t`; the payload `data` is kept by whoever owns the node. -/
structure node_t where
  next : Option Nat
  prev : Option Nat
deriving DecidableEq

/-- The `struct queue_t`: `mutex` is the thread that holds the modification mutex, if any. -/
structure queue_t where
  front : Option Nat
  back : Option Nat
  mutex : Option Nat
deriving DecidableEq

/-- A queue head together with the node memory its pointers refer to. -/
structure QMem where
  mem : Nat → node_t
  queue : queue_t

/-- The assignment `p->next = v`. -/
def setNext (m : Nat → node_t) (p : Nat) (v : Option Nat) : Nat → node_t :=
  fun a => if a = p then { m a with next := v } else m a

/-- The assignment `p->prev = v`. -/
def setPrev (m : Nat → node_t) (p : Nat) (v : Option Nat) : Nat → node_t :=
  fun a => if a = p then { m a with prev := v } else m a

/-- The dynamic initializer `init_queue_head`. -/
def init_queue_head (_queue : queue_t) : queue_t :=
  { front := none, back := none, mutex := none }

/-- The test `queue_empty`: `queue->front == NULL`. -/
def queue_empty (queue : queue_t) : Bool := queue.front.isNone

/-- The function `queue_add_tail(new, queue)`, statement by statement. -/
def queue_add_tail (new : Nat) (s : QMem) : QMem :=
  -- new->next = NULL;
  let m1 := setNext s.mem new none
  -- new->prev = queue->back;
  let m2 := setPrev m1 new s.queue.back
  -- if(queue->back) queue->back->next = new;
  let m3 := match s.queue.back with
    | some b => setNext m2 b (some new)
    | none => m2
  -- queue->back = new;
  let q1 : queue_t := { s.queue with back := some new }
  -- if(!queue->front) queue->front = new;
  let q2 : queue_t := match q1.front with
    | none => { q1 with front := some new }
    | some _ => q1
  { mem := m3, queue := q2 }

/-- The function `queue_remove_head(queue)`; `none` when `queue->front` is `NULL`, where the
C code dereferences a null pointer. -/
def queue_remove_head (s : QMem) : Option QMem :=
  match s.queue.front with
  | none => none
  | some f =>
    -- queue->front = queue->front->next;
    let q1 : queue_t := { s.queue with front := (s.mem f).next }
    match q1.front with
    -- if(queue->front) queue->front->prev = NULL;
    | some g => some { mem := setPrev s.mem g none, queue := q1 }
    -- else queue->back = NULL;
    | none => some { mem := s.mem, queue := { q1 with back := none } }

/-- The nodes reachable from `p` by following `next` are exactly `l`, and the walk ends at
`NULL`. -/
def chain (m : Nat → node_t) : Option Nat → List Nat → Prop
  | p, [] => p = none
  | p, a :: l => p = some a ∧ chain m (m a).next l

/-- The queue `s` holds the records `l`, front first: `l` is the walk from `front` along
`next`, and `back` points at its last node. -/
def IsQueue (s : QMem) (l : List Nat) : Prop :=
  chain s.mem s.queue.front l ∧ s.queue.back = l.getLast?

/-- Pop the front `k` times, listing the node found at the front before each pop, the way
`fifo_mutex_unlock` consumes the queue (`node = fm->queue.front; queue_remove_head`). -/
def pops : Nat → QMem → Option (List Nat × QMem)
  | 0, s => some ([], s)
  | k + 1, s =>
    match s.queue.front with
    | none => none
    | some f =>
      match queue_remove_head s with
      | none => none
      | some s1 => (pops k s1).map (fun r => (f :: r.1, r.2))

/-- Append the records `ns` one after the other. -/
def add_all (ns : List Nat) (s : QMem) : QMem :=
  ns.foldl (fun acc n => queue_add_tail n acc) s

/-- The queue states the two operations can produce from an initialised head: any node may be
added, the head is removed only when there is one. -/
inductive QReach (m0 : Nat → node_t) (q0 : queue_t) : QMem → Prop
  | init : QReach m0 q0 { mem := m0, queue := init_queue_head q0 }
  | add (n : Nat) (s : QMem) : QReach m0 q0 s → QReach m0 q0 (queue_add_tail n s)
  | remove (s s1 : QMem) : QReach m0 q0 s → queue_remove_head s = some s1 → QReach m0 q0 s1

/-- The same runs with the records they leave in the queue written next to the state: a record
is added when it is not already linked, and a removal takes the first one away. -/
inductive QRun (m0 : Nat → node_t) (q0 : queue_t) : List Nat → QMem → Prop
  | init : QRun m0 q0 [] { mem := m0, queue := init_queue_head q0 }
  | add (n : Nat) (l : List Nat) (s : QMem) :
      QRun m0 q0 l s → n ∉ l → QRun m0 q0 (l ++ [n]) (queue_add_tail n s)
  | remove (a : Nat) (l : List Nat) (s s1 : QMem) :
      QRun m0 q0 (a :: l) s → queue_remove_head s = some s1 → QRun m0 q0 l s1

/-- The `prev` links along the records `l`: the first record has `prev` equal to `p`, every
other one has `prev` pointing at the record before it. -/
def prevs (m : Nat → node_t) : Option Nat → List Nat → Prop
  | _, [] => True
  | p, a :: l => (m a).prev = p ∧ prevs m (some a) l

/-! ## count.h -/

/-- The `struct count`: the mutex and the condition live in the step relation, where every
operation made under `count_mutex` is one atomic step. -/
structure count_t where
  val : Int
deriving DecidableEq

/-- The static initializer `COUNT_INIT`. -/
def COUNT_INIT : count_t := { val := 0 }

/-- The macro `count_inc(count, i)`: `count.val += i` under the count's mutex. -/
def count_inc (count : count_t) (i : Int) : count_t := { val := wrap32 (count.val + i) }

/-- The macro `count_dec(count, i)`: `count.val -= i` under the count's mutex. -/
def count_dec (count : count_t) (i : Int) : count_t := { val := wrap32 (count.val - i) }

/-- The macro `count_set(count, i)`. -/
def count_set (_count : count_t) (i : Int) : count_t := { val := i }

/-! ## fifo_mutex_types.h, server.h, server.c -/

/-- The `struct fifo_mutex`: the wait queue and the owner of the inner mutex. -/
structure fifo_mutex_t where
  queue : queue_t
  mutex : Option Nat
deriving DecidableEq

/-- The dynamic initializer `fifo_mutex_init`. -/
def fifo_mutex_init (fm : fifo_mutex_t) : fifo_mutex_t :=
  { queue := init_queue_head fm.queue, mutex := none }

/-- The value of an `int` converted to `unsigned int`. -/
def toUnsigned (x : Int) : Nat := (x % 4294967296).toNat

/-- The constant `SEM_VALUE_MAX` of limits.h, the greatest value of a semaphore: `INT_MAX` on
Linux. -/
def SEM_VALUE_MAX : Nat := 2147483647

/-- POSIX `sem_init(sem, 0, value)`: what the semaphore holds after the call, `value` tokens;
`none` for a `value` above `SEM_VALUE_MAX`, where the call fails with `EINVAL` and the
semaphore is not initialised. -/
def sem_init (value : Nat) : Option Nat :=
  if value > SEM_VALUE_MAX then none else some value

/-- POSIX `sem_wait` on an initialised semaphore: takes one token; `none` when there is none,
where the caller blocks. -/
def sem_wait (sem : Nat) : Option Nat := if sem = 0 then none else some (sem - 1)

/-- POSIX `sem_post` on an initialised semaphore: gives one token back. -/
def sem_post (sem : Nat) : Nat := sem + 1

/-- The `struct server` of the fair build (`CHAOS` not defined).  The field `service_sem` is
the number of tokens in the semaphore, `none` for a semaphore that was never initialised. -/
structure server where
  max_service : Int
  service_sem : Option Nat
  lock : fifo_mutex_t
deriving DecidableEq

/-- The function `init_server(max_service)`; `malloc_ok` tells whether `malloc` returns a
block.  The parameter is an `unsigned int`, the field it is stored in an `int`, and
`sem_init` takes the field back as an `unsigned int`.  The value `sem_init` returns is not
looked at: when it fails the server is returned with its semaphore not initialised. -/
def init_server (max_service : Nat) (malloc_ok : Bool) : Option server :=
  -- check(max_service == 0, out);
  if max_service = 0 then none
  -- server = malloc(sizeof(struct server)); check(!server, out);
  else if malloc_ok = false then none
  else
    -- server->max_service = max_service;
    let field : Int := wrap32 max_service
    -- sem_init(&server->service_sem, 0, server->max_service); fifo_mutex_init(&server->lock);
    some { max_service := field,
           service_sem := sem_init (toUnsigned field),
           lock := fifo_mutex_init { queue := { front := none, back := none, mutex := none },
                                     mutex := none } }

/-! ## addict.h, timer.h, addict.c -/

/-- Loop iterations of a simple order, `1<<18`. -/
def ATIME_SIMPLE : Nat := 262144
/-- Loop iterations of a complex order, `1<<19`. -/
def ATIME_COMPLEX : Nat := 524288
/-- Price of a simple order, in cents. -/
def ACOST_SIMPLE : Nat := 200
/-- Price of a complex order, in cents. -/
def ACOST_COMPLEX : Nat := 450

/-- The `struct timeval`. -/
structure timeval where
  tv_sec : Int
  tv_usec : Int
deriving DecidableEq

/-- The `struct addict`; `server` and `next` are addresses of servers. -/
structure addict where
  order_time : Nat
  order_cost : Nat
  caffeinated : Int
  server : Option Nat
  next : Option Nat
  start : timeval
  finish : timeval
deriving DecidableEq

/-- The function `init_addict(time, cost, server, next)`; `malloc_ok` tells whether `malloc`
returns a block.  The two timestamps are not written here. -/
def init_addict (time cost : Nat) (server next : Option Nat) (malloc_ok : Bool) :
    Option addict :=
  if malloc_ok = false then none
  else some { order_time := time, order_cost := cost, caffeinated := 0, server := server,
              next := next, start := ⟨0, 0⟩, finish := ⟨0, 0⟩ }

/-- The function `timer_us(start, end)` of timer.h (`long` arithmetic, C division). -/
def timer_us (start finish : timeval) : Int :=
  let delta := (finish.tv_sec - start.tv_sec) * 1000000 + (finish.tv_usec - start.tv_usec)
  Int.tdiv delta 1000

/-- The function `serve(addict)`: after the busy loop, `addict->caffeinated++`. -/
def serve (a : addict) : addict := { a with caffeinated := wrap32 (a.caffeinated + 1) }

/-- The function `pay(addict)`: after the busy loop, `count_inc(gl_profit, addict->order_cost)`. -/
def pay (a : addict) (gl_profit : count_t) : count_t := count_inc gl_profit a.order_cost

/-- Where a customer thread stands in `get_coffee`: the statement it executes next. -/
inductive cpc
  | lock1      -- fifo_mutex_lock(&addict->server->lock)
  | wait1      -- sem_wait(&addict->server->service_sem)
  | unlock1    -- fifo_mutex_unlock(&addict->server->lock)
  | serve      -- serve(addict)
  | pay1       -- if(!addict->next) pay(addict)
  | post1      -- sem_post(&addict->server->service_sem)
  | lock2      -- if(addict->next) fifo_mutex_lock(&addict->next->lock)
  | wait2      -- sem_wait(&addict->next->service_sem)
  | unlock2    -- fifo_mutex_unlock(&addict->next->lock)
  | pay2       -- pay(addict)
  | post2      -- sem_post(&addict->next->service_sem)
  | record     -- exit: gettimeofday, timer_us, the switch on order_cost
  | dec        -- free(addict); count_dec(running_threads, 1)
  | signal     -- if(running_threads.val == 0) pthread_cond_broadcast
  | exited     -- pthread_exit(NULL)
deriving DecidableEq

/-- What a customer has done: the operations on the semaphores of the service points, the
call of `serve` and the payment.  The list of them is a history kept next to the program
state. -/
inductive op
  | sem_wait (server : Nat)
  | serve
  | sem_post (server : Nat)
  | pay (amount : Nat)
deriving DecidableEq

/-- A customer thread: its control struct, its program point and its history. -/
structure cthread where
  addict : addict
  pc : cpc
  ops : List op
deriving DecidableEq

/-! ## main.c: start_day, start_day_classic, start_day_complex -/

/-- The parameters as the callee names them: `start_day_classic(n_customers, n_barista)` or
`start_day_complex(n_customers, n_selfserve, n_barista, n_cashier)`. -/
structure day_args where
  complex : Bool
  n_customers : Int
  n_selfserve : Int
  n_barista : Int
  n_cashier : Int
deriving DecidableEq

/-- The call `start_day` makes, arguments in the positions the source passes them:
`start_day_classic(n_customers, n_barista)` when `!n_selfserve`, else
`start_day_complex(n_customers, n_barista, n_selfserve, n_cashier)`. -/
def start_day_call (n_customers n_selfserve n_barista n_cashier : Int) : day_args :=
  if n_selfserve = 0 then
    { complex := false, n_customers := n_customers, n_selfserve := 0,
      n_barista := n_barista, n_cashier := 0 }
  else
    { complex := true, n_customers := n_customers, n_selfserve := n_barista,
      n_barista := n_selfserve, n_cashier := n_cashier }

/-- Where the dispatcher stands in `start_day` and the function it calls. -/
inductive dpc
  | set_profit     -- count_set(gl_profit, 0) and the call
  | malloc_threads -- threads = malloc(...); check_pr(!threads, ..., out)
  | mk_server      -- server = init_server(n_barista)
  | mk_selfserve   -- selfserve = init_server(3 * n_selfserve)
  | mk_cashier     -- cashier = init_server(n_cashier); check_pr(...)
  | loop           -- for(i = 0; i < n_customers; i++): rand_range, init_addict, gettimeofday
  | create         -- again: ret = pthread_create(...)
  | inc            -- count_inc(running_threads, 1); i++
  | barrier        -- finish: while(running_threads.val > 0)
  | waiting        -- inside pthread_cond_wait
  | free_threads   -- free_threads: the calls of free
  | ret            -- out: return ret, and the tail of start_day
  | done           -- start_day has returned
deriving DecidableEq

/-- The local variables of the dispatcher. -/
structure dispatcher where
  pc : dpc
  args : day_args
  i : Int
  ret : Int
  server : Option Nat
  selfserve : Option Nat
  cashier : Option Nat
  cur : Option addict
  result : Option Int
deriving DecidableEq

/-- The whole program state from the call of `start_day` on.  The two result tables are kept
as the list of stores made into them, `(index, value)`, oldest first; `woken` says that a
broadcast has reached the dispatcher inside `pthread_cond_wait`. -/
structure sim where
  servers : List server
  threads : List cthread
  gl_profit : count_t
  running_threads : count_t
  simple_count : count_t
  complex_count : count_t
  simple_times : List (Int × Int)
  complex_times : List (Int × Int)
  clock : timeval
  woken : Bool
  disp : dispatcher

/-- What happens next: time passes, the dispatcher runs one step (with the outcome of the
`malloc` of that step, the value `rand_range(2)` returns and the value `pthread_create`
returns), customer thread `i` runs one step, or the dispatcher returns from
`pthread_cond_wait` without a broadcast. -/
inductive event
  | tick (now : timeval)
  | disp (malloc_ok : Bool) (rand : Int) (create_err : Int)
  | cust (i : Nat)
  | spurious
deriving DecidableEq

/-- The state in which `main` calls `start_day`: the counts statically initialised, no
server, no thread. -/
def sim_init (n_customers n_selfserve n_barista n_cashier : Int) : sim :=
  { servers := [], threads := [],
    gl_profit := COUNT_INIT, running_threads := COUNT_INIT,
    simple_count := COUNT_INIT, complex_count := COUNT_INIT,
    simple_times := [], complex_times := [],
    clock := ⟨0, 0⟩, woken := false,
    disp := { pc := dpc.set_profit,
              args := start_day_call n_customers n_selfserve n_barista n_cashier,
              i := 0, ret := 1, server := none, selfserve := none, cashier := none,
              cur := none, result := none } }

/-- Replace customer `i` by `t`. -/
def sim.setThread (s : sim) (i : Nat) (t : cthread) : sim :=
  { s with threads := s.threads.set i t }

/-- One step of `get_coffee` run by customer `i`, whose record is `t`.  The two calls on the
fair lock change neither a semaphore nor a count; they are steps that can always be taken, so
that every schedule the lock admits is a schedule of this relation.  A call of `sem_wait` or
`sem_post` on a semaphore that `sem_init` did not initialise has no defined behaviour: there
is no step. -/
def get_coffee_step (s : sim) (i : Nat) (t : cthread) : Option sim :=
  match t.pc with
  | cpc.lock1 =>
    match t.addict.server with
    | none => none
    | some _ => some (s.setThread i { t with pc := cpc.wait1 })
  | cpc.wait1 =>
    match t.addict.server with
    | none => none
    | some p =>
      match s.servers[p]? with
      | none => none
      | some srv =>
        -- on a semaphore that was never initialised sem_wait has no defined behaviour
        match srv.service_sem with
        | none => none
        | some sem =>
          match sem_wait sem with
          | none => none
          | some v =>
            some { s.setThread i { t with pc := cpc.unlock1, ops := t.ops ++ [op.sem_wait p] }
                   with servers := s.servers.set p { srv with service_sem := some v } }
  | cpc.unlock1 => some (s.setThread i { t with pc := cpc.serve })
  | cpc.serve =>
    some (s.setThread i { t with pc := cpc.pay1, addict := serve t.addict,
                                 ops := t.ops ++ [op.serve] })
  | cpc.pay1 =>
    match t.addict.next with
    | none =>
      some { s.setThread i { t with pc := cpc.post1,
                                    ops := t.ops ++ [op.pay t.addict.order_cost] }
             with gl_profit := pay t.addict s.gl_profit }
    | some _ => some (s.setThread i { t with pc := cpc.post1 })
  | cpc.post1 =>
    match t.addict.server with
    | none => none
    | some p =>
      match s.servers[p]? with
      | none => none
      | some srv =>
        match srv.service_sem with
        | none => none
        | some sem =>
          some { s.setThread i { t with pc := cpc.lock2, ops := t.ops ++ [op.sem_post p] }
                 with servers := s.servers.set p { srv with service_sem := some (sem_post sem) } }
  | cpc.lock2 =>
    match t.addict.next with
    | none => some (s.setThread i { t with pc := cpc.record })
    | some _ => some (s.setThread i { t with pc := cpc.wait2 })
  | cpc.wait2 =>
    match t.addict.next with
    | none => none
    | some q =>
      match s.servers[q]? with
      | none => none
      | some srv =>
        match srv.service_sem with
        | none => none
        | some sem =>
          match sem_wait sem with
          | none => none
          | some v =>
            some { s.setThread i { t with pc := cpc.unlock2, ops := t.ops ++ [op.sem_wait q] }
                   with servers := s.servers.set q { srv with service_sem := some v } }
  | cpc.unlock2 => some (s.setThread i { t with pc := cpc.pay2 })
  | cpc.pay2 =>
    some { s.setThread i { t with pc := cpc.post2,
                                  ops := t.ops ++ [op.pay t.addict.order_cost] }
           with gl_profit := pay t.addict s.gl_profit }
  | cpc.post2 =>
    match t.addict.next with
    | none => none
    | some q =>
      match s.servers[q]? with
      | none => none
      | some srv =>
        match srv.service_sem with
        | none => none
        | some sem =>
          some { s.setThread i { t with pc := cpc.record, ops := t.ops ++ [op.sem_post q] }
                 with servers := s.servers.set q { srv with service_sem := some (sem_post sem) } }
  | cpc.record =>
    -- gettimeofday(&addict->end, NULL); time = timer_us(&addict->start, &addict->end);
    let a : addict := { t.addict with finish := s.clock }
    let time := timer_us a.start a.finish
    let s1 := s.setThread i { t with pc := cpc.dec, addict := a }
    -- switch(addict->order_cost)
    if a.order_cost = ACOST_SIMPLE then
      -- simple_times[simple_count.val++] = time;
      some { s1 with simple_times := s.simple_times ++ [(s.simple_count.val, time)],
                     simple_count := { val := wrap32 (s.simple_count.val + 1) } }
    else if a.order_cost = ACOST_COMPLEX then
      -- complex_times[complex_count.val++] = time;
      some { s1 with complex_times := s.complex_times ++ [(s.complex_count.val, time)],
                     complex_count := { val := wrap32 (s.complex_count.val + 1) } }
    else some s1
  | cpc.dec =>
    some { s.setThread i { t with pc := cpc.signal }
           with running_threads := count_dec s.running_threads 1 }
  | cpc.signal =>
    let s1 := s.setThread i { t with pc := cpc.exited }
    if s.running_threads.val = 0 ∧ s.disp.pc = dpc.waiting then some { s1 with woken := true }
    else some s1
  | cpc.exited => none

/-- The customer the loop body builds for the draw `rand`: `case 0` a simple order, `default`
a complex one; in `start_day_complex` the simple order goes to `selfserve` and both go on to
`cashier`. -/
def spawn_addict (d : dispatcher) (rand : Int) (malloc_ok : Bool) : Option addict :=
  if d.args.complex then
    if rand = 0 then init_addict ATIME_SIMPLE ACOST_SIMPLE d.selfserve d.cashier malloc_ok
    else init_addict ATIME_COMPLEX ACOST_COMPLEX d.server d.cashier malloc_ok
  else
    if rand = 0 then init_addict ATIME_SIMPLE ACOST_SIMPLE d.server none malloc_ok
    else init_addict ATIME_COMPLEX ACOST_COMPLEX d.server none malloc_ok

/-- The pointer `init_server` returns and the servers after the call: a new server gets the
next free address. -/
def alloc_server (servers : List server) (max_service : Nat) (malloc_ok : Bool) :
    Option Nat × List server :=
  match init_server max_service malloc_ok with
  | none => (none, servers)
  | some srv => (some servers.length, servers ++ [srv])

/-- One step of the dispatcher: `start_day` and the `start_day_classic` or
`start_day_complex` it calls. -/
def start_day_step (s : sim) (malloc_ok : Bool) (rand : Int) (create_err : Int) : Option sim :=
  let d := s.disp
  match d.pc with
  | dpc.set_profit =>
    some { s with gl_profit := count_set s.gl_profit 0,
                  disp := { d with pc := dpc.malloc_threads, ret := 1 } }
  | dpc.malloc_threads =>
    if malloc_ok = false then some { s with disp := { d with pc := dpc.ret } }
    else some { s with disp := { d with pc := dpc.mk_server } }
  | dpc.mk_server =>
    let r := alloc_server s.servers (toUnsigned d.args.n_barista) malloc_ok
    if d.args.complex then
      some { s with servers := r.2, disp := { d with pc := dpc.mk_selfserve, server := r.1 } }
    else if r.1 = none then
      some { s with servers := r.2, disp := { d with pc := dpc.free_threads, server := r.1 } }
    else
      some { s with servers := r.2, disp := { d with pc := dpc.loop, server := r.1, i := 0 } }
  | dpc.mk_selfserve =>
    let r := alloc_server s.servers (toUnsigned (wrap32 (3 * d.args.n_selfserve))) malloc_ok
    some { s with servers := r.2, disp := { d with pc := dpc.mk_cashier, selfserve := r.1 } }
  | dpc.mk_cashier =>
    let r := alloc_server s.servers (toUnsigned d.args.n_cashier) malloc_ok
    if r.1 = none ∨ d.server = none ∨ d.selfserve = none then
      some { s with servers := r.2, disp := { d with pc := dpc.free_threads, cashier := r.1 } }
    else
      some { s with servers := r.2, disp := { d with pc := dpc.loop, cashier := r.1, i := 0 } }
  | dpc.loop =>
    if d.i < d.args.n_customers then
      match spawn_addict d rand malloc_ok with
      -- check_pr(!cur, "Out of memory", finish);
      | none => some { s with disp := { d with pc := dpc.barrier, cur := none } }
      -- gettimeofday(&cur->start, NULL);
      | some a =>
        some { s with disp := { d with pc := dpc.create, cur := some { a with start := s.clock } } }
    else
      -- ret = 0;
      some { s with disp := { d with pc := dpc.barrier, ret := 0 } }
  | dpc.create =>
    match d.cur with
    | none => none
    | some a =>
      -- ret = pthread_create(...); if(ret) { sched_yield(); goto again; }
      if create_err ≠ 0 then some { s with disp := { d with ret := create_err } }
      else
        some { s with threads := s.threads ++ [{ addict := a, pc := cpc.lock1, ops := [] }],
                      disp := { d with pc := dpc.inc, ret := 0 } }
  | dpc.inc =>
    some { s with running_threads := count_inc s.running_threads 1,
                  disp := { d with pc := dpc.loop, i := wrap32 (d.i + 1) } }
  | dpc.barrier =>
    if s.running_threads.val > 0 then
      some { s with woken := false, disp := { d with pc := dpc.waiting } }
    else some { s with disp := { d with pc := dpc.free_threads } }
  | dpc.waiting =>
    if s.woken then some { s with woken := false, disp := { d with pc := dpc.barrier } }
    else none
  | dpc.free_threads => some { s with disp := { d with pc := dpc.ret } }
  | dpc.ret =>
    -- if(ret) return -ret;  ret = gl_profit.val; return ret;
    if d.ret ≠ 0 then some { s with disp := { d with pc := dpc.done, result := some (wrap32 (-d.ret)) } }
    else some { s with disp := { d with pc := dpc.done, result := some s.gl_profit.val } }
  | dpc.done => none

/-- One step of the program; `none` when the chosen thread cannot move (it is blocked, it has
finished, or there is no such thread). -/
def step (s : sim) : event → Option sim
  | event.tick now => some { s with clock := now }
  | event.disp malloc_ok rand create_err => start_day_step s malloc_ok rand create_err
  | event.cust i =>
    match s.threads[i]? with
    | none => none
    | some t => get_coffee_step s i t
  | event.spurious =>
    if s.disp.pc = dpc.waiting then
      some { s with woken := false, disp := { s.disp with pc := dpc.barrier } }
    else none

/-- Run a schedule: the events one after the other. -/
def run (s : sim) : List event → Option sim
  | [] => some s
  | e :: es =>
    match step s e with
    | none => none
    | some s1 => run s1 es

/-- The states a run of `start_day` with the given arguments can reach. -/
def Reachable (n_customers n_selfserve n_barista n_cashier : Int) (s : sim) : Prop :=
  ∃ es, run (sim_init n_customers n_selfserve n_barista n_cashier) es = some s

/-! ## The quantities the properties speak of -/

/-- The program points between `sem_wait` and `sem_post` on the primary server. -/
def cpc.in_primary : cpc → Bool
  | cpc.unlock1 | cpc.serve | cpc.pay1 | cpc.post1 => true
  | _ => false

/-- The program points between `sem_wait` and `sem_post` on the secondary server. -/
def cpc.in_secondary : cpc → Bool
  | cpc.unlock2 | cpc.pay2 | cpc.post2 => true
  | _ => false

/-- Thread `t` has passed `sem_wait` on the semaphore of server `j` and has not yet executed
the matching `sem_post`. -/
def holding (j : Nat) (t : cthread) : Bool :=
  (decide (t.addict.server = some j) && t.pc.in_primary) ||
  (decide (t.addict.next = some j) && t.pc.in_secondary)

/-- The capacity of the server: the `max_service` field as `sem_init` reads it, which is the
argument of `init_server`. -/
def capacity (srv : server) : Nat := toUnsigned srv.max_service

/-- The operations `get_coffee` has performed when it stands at a program point, for a
customer whose primary server is `p`, whose secondary server (if any) is `q` and whose order
costs `c`. -/
def ops_at (a : addict) : cpc → List op :=
  let p := a.server.getD 0
  let q := a.next.getD 0
  let c := a.order_cost
  let paid1 : List op := if a.next = none then [op.pay c] else []
  fun pc => match pc with
  | cpc.lock1 | cpc.wait1 => []
  | cpc.unlock1 | cpc.serve => [op.sem_wait p]
  | cpc.pay1 => [op.sem_wait p, op.serve]
  | cpc.post1 => [op.sem_wait p, op.serve] ++ paid1
  | cpc.lock2 => [op.sem_wait p, op.serve] ++ paid1 ++ [op.sem_post p]
  | cpc.wait2 => [op.sem_wait p, op.serve, op.sem_post p]
  | cpc.unlock2 | cpc.pay2 => [op.sem_wait p, op.serve, op.sem_post p, op.sem_wait q]
  | cpc.post2 => [op.sem_wait p, op.serve, op.sem_post p, op.sem_wait q, op.pay c]
  | cpc.record | cpc.dec | cpc.signal | cpc.exited =>
    match a.next with
    | none => [op.sem_wait p, op.serve, op.pay c, op.sem_post p]
    | some _ =>
      [op.sem_wait p, op.serve, op.sem_post p, op.sem_wait q, op.pay c, op.sem_post q]

/-- The amount an operation adds to the revenue. -/
def op.revenue : op → Int
  | op.pay amount => amount
  | _ => 0

/-- The revenue a customer has paid so far. -/
def paid (t : cthread) : Int := (t.ops.map op.revenue).sum

/-- The customers of the simple kind, and of the complex kind. -/
def n_simple (s : sim) : Nat := s.threads.countP (fun t => t.addict.order_cost = ACOST_SIMPLE)

/-- The customers of the complex kind. -/
def n_complex (s : sim) : Nat := s.threads.countP (fun t => t.addict.order_cost = ACOST_COMPLEX)

/-- Every customer created so far has left `get_coffee`. -/
def all_exited (s : sim) : Prop := ∀ t ∈ s.threads, t.pc = cpc.exited

instance all_exited_decidable (s : sim) : Decidable (all_exited s) := by
  unfold all_exited; infer_instance

/-- The program points after the switch that records the elapsed time. -/
def cpc.recorded : cpc → Bool
  | cpc.dec | cpc.signal | cpc.exited => true
  | _ => false

/-- The program points after `count_dec(running_threads, 1)`. -/
def cpc.decremented : cpc → Bool
  | cpc.signal | cpc.exited => true
  | _ => false

/-- The stores into a result table went to the slots `0, 1, 2, ...` in this order, one store
a slot. -/
def slots_in_order (table : List (Int × Int)) : Prop :=
  table.map Prod.fst = (List.range table.length).map Int.ofNat

/-! ## Two concrete schedules -/

/-- The dispatcher event with no failure: `malloc` and `pthread_create` succeed, and
`rand_range(2)` returns `rand`. -/
def ev_ok (rand : Int) : event := event.disp true rand 0

/-- A day in the classic mode with two customers and one barista, up to the point where the
first customer (a simple order) holds the only token and the second one (a complex order)
has been created. -/
def demo_busy : List event :=
  [ev_ok 0, ev_ok 0, ev_ok 0,
   ev_ok 0, ev_ok 0, ev_ok 0, event.cust 0, event.cust 0,
   ev_ok 1, ev_ok 1, ev_ok 1, event.cust 1]

/-- The same day run to its end: the first customer finishes, then the second, then the
dispatcher passes the barrier and `start_day` returns. -/
def demo_day : List event :=
  demo_busy ++
  [event.tick ⟨3, 250000⟩] ++ List.replicate 8 (event.cust 0) ++
  [event.tick ⟨7, 0⟩] ++ List.replicate 9 (event.cust 1) ++
  [ev_ok 0, ev_ok 0, ev_ok 0, ev_ok 0]

/-! ## fifo_mutex.h: the fair lock run by several threads -/

/-- Where a thread stands in `fifo_mutex_lock`, in the critical section, or in
`fifo_mutex_unlock`: the statement it executes next. -/
inductive fpc
  | l_alloc    -- node = node_alloc(fifo_mutex_node_t); check(!node, out); fifo_mutex_node_init(new)
  | l_qlock    -- pthread_mutex_lock(&fm->queue.mutex)
  | l_add      -- queue_add_tail(node, &fm->queue)
  | l_qunlock  -- pthread_mutex_unlock(&fm->queue.mutex)
  | l_nlock    -- pthread_mutex_lock(&new->mutex)
  | l_test     -- if(node->prev) pthread_cond_wait(&new->cond, &new->mutex)
  | l_wait     -- asleep inside pthread_cond_wait, new->mutex released
  | l_reacq    -- woken inside pthread_cond_wait, taking new->mutex back
  | l_nunlock  -- pthread_mutex_unlock(&new->mutex)
  | l_mlock    -- pthread_mutex_lock(&fm->mutex); out: return ret
  | critical   -- between the two calls (in get_coffee: sem_wait)
  | u_qlock    -- pthread_mutex_lock(&fm->queue.mutex)
  | u_front    -- node = fm->queue.front; check(!node, unlock)
  | u_munlock  -- pthread_mutex_unlock(&fm->mutex)
  | u_remove   -- queue_remove_head(&fm->queue)
  | u_next     -- if(node->next) pthread_mutex_lock(&next->mutex)
  | u_bcast    -- pthread_cond_broadcast(&next->cond)
  | u_nunlock  -- pthread_mutex_unlock(&next->mutex)
  | u_free     -- free(node)
  | u_qunlock  -- unlock: pthread_mutex_unlock(&fm->queue.mutex); out: return ret
  | finished   -- fifo_mutex_unlock has returned
deriving DecidableEq

/-- The local variables of a thread: `node` (its own record in `fifo_mutex_lock`, the front
it read in `fifo_mutex_unlock`), `next`, `ret`, and the values the two calls returned. -/
structure fthread where
  pc : fpc
  node : Option Nat
  next : Option Nat
  ret : Int
  lock_ret : Option Int
  unlock_ret : Option Int
deriving DecidableEq

/-- A thread about to call `fifo_mutex_lock`. -/
def fthread.start : fthread :=
  { pc := fpc.l_alloc, node := none, next := none, ret := 1, lock_ret := none,
    unlock_ret := none }

/-- One fair lock, the memory of its wait records and the threads that use it.  `node_mutex a`
is the owner of the mutex of the record at address `a`; `brk` is the address `malloc` returns
next; `enqueued` lists the threads in the order their `queue_add_tail` completed, `entered`
in the order they returned from `fifo_mutex_lock` holding the inner mutex. -/
structure fstate where
  q : QMem
  mutex : Option Nat
  node_mutex : Nat → Option Nat
  brk : Nat
  threads : List fthread
  enqueued : List Nat
  entered : List Nat

/-- What happens next on the lock: thread `i` executes its next statement (`malloc_ok` is the
outcome of its `malloc`, if that is the statement), or thread `i` returns from
`pthread_cond_wait` without a broadcast, which POSIX allows. -/
inductive fevent
  | step (i : Nat) (malloc_ok : Bool)
  | spurious (i : Nat)
deriving DecidableEq

/-- The initial state: `fifo_mutex_init` done, `n` threads about to call `fifo_mutex_lock`. -/
def fstate.init (n : Nat) : fstate :=
  { q := { mem := fun _ => { next := none, prev := none },
           queue := init_queue_head { front := none, back := none, mutex := none } },
    mutex := none, node_mutex := fun _ => none, brk := 1,
    threads := List.replicate n fthread.start, enqueued := [], entered := [] }

/-- Replace thread `i` by `t`. -/
def fstate.setThread (s : fstate) (i : Nat) (t : fthread) : fstate :=
  { s with threads := s.threads.set i t }

/-- The assignment of the owner of the mutex of record `a`. -/
def setOwner (m : Nat → Option Nat) (a : Nat) (v : Option Nat) : Nat → Option Nat :=
  fun b => if b = a then v else m b

/-- One statement of thread `i`, whose record is `t`: `fifo_mutex_lock(fm)`, the critical
section, `fifo_mutex_unlock(fm)`, with `fm` not `NULL`.  The caller goes on to the critical
section whatever `fifo_mutex_lock` returns, as `get_coffee` does.  A lock on a mutex that is
held, and a sleeping thread, give `none`: the thread cannot move. -/
def fifo_step (s : fstate) (i : Nat) (t : fthread) (malloc_ok : Bool) : Option fstate :=
  match t.pc with
  | fpc.l_alloc =>
    if malloc_ok = false then
      -- check(!node, out); out: return ret;
      some (s.setThread i { t with pc := fpc.critical, lock_ret := some t.ret })
    else
      some { s.setThread i { t with pc := fpc.l_qlock, node := some s.brk }
             with brk := s.brk + 1, node_mutex := setOwner s.node_mutex s.brk none }
  | fpc.l_qlock =>
    match s.q.queue.mutex with
    | some _ => none
    | none =>
      some { s.setThread i { t with pc := fpc.l_add }
             with q := { s.q with queue := { s.q.queue with mutex := some i } } }
  | fpc.l_add =>
    match t.node with
    | none => none
    | some a =>
      some { s.setThread i { t with pc := fpc.l_qunlock }
             with q := queue_add_tail a s.q, enqueued := s.enqueued ++ [i] }
  | fpc.l_qunlock =>
    some { s.setThread i { t with pc := fpc.l_nlock }
           with q := { s.q with queue := { s.q.queue with mutex := none } } }
  | fpc.l_nlock =>
    match t.node with
    | none => none
    | some a =>
      match s.node_mutex a with
      | some _ => none
      | none =>
        some { s.setThread i { t with pc := fpc.l_test }
               with node_mutex := setOwner s.node_mutex a (some i) }
  | fpc.l_test =>
    match t.node with
    | none => none
    | some a =>
      match (s.q.mem a).prev with
      | some _ =>
        some { s.setThread i { t with pc := fpc.l_wait }
               with node_mutex := setOwner s.node_mutex a none }
      | none => some (s.setThread i { t with pc := fpc.l_nunlock })
  | fpc.l_wait => none
  | fpc.l_reacq =>
    match t.node with
    | none => none
    | some a =>
      match s.node_mutex a with
      | some _ => none
      | none =>
        some { s.setThread i { t with pc := fpc.l_nunlock }
               with node_mutex := setOwner s.node_mutex a (some i) }
  | fpc.l_nunlock =>
    match t.node with
    | none => none
    | some a =>
      some { s.setThread i { t with pc := fpc.l_mlock }
             with node_mutex := setOwner s.node_mutex a none }
  | fpc.l_mlock =>
    match s.mutex with
    | some _ => none
    | none =>
      some { s.setThread i { t with pc := fpc.critical, lock_ret := some t.ret }
             with mutex := some i, entered := s.entered ++ [i] }
  | fpc.critical => some (s.setThread i { t with pc := fpc.u_qlock, ret := 1 })
  | fpc.u_qlock =>
    match s.q.queue.mutex with
    | some _ => none
    | none =>
      some { s.setThread i { t with pc := fpc.u_front }
             with q := { s.q with queue := { s.q.queue with mutex := some i } } }
  | fpc.u_front =>
    match s.q.queue.front with
    | none => some (s.setThread i { t with pc := fpc.u_qunlock, node := none })
    | some a => some (s.setThread i { t with pc := fpc.u_munlock, node := some a })
  | fpc.u_munlock =>
    some { s.setThread i { t with pc := fpc.u_remove } with mutex := none }
  | fpc.u_remove =>
    match queue_remove_head s.q with
    | none => none
    | some q1 => some { s.setThread i { t with pc := fpc.u_next } with q := q1 }
  | fpc.u_next =>
    match t.node with
    | none => none
    | some a =>
      match (s.q.mem a).next with
      | none => some (s.setThread i { t with pc := fpc.u_free })
      | some b =>
        match s.node_mutex b with
        | some _ => none
        | none =>
          some { s.setThread i { t with pc := fpc.u_bcast, next := some b }
                 with node_mutex := setOwner s.node_mutex b (some i) }
  | fpc.u_bcast =>
    -- every thread asleep on the condition of the record `next` is woken
    let s1 := s.setThread i { t with pc := fpc.u_nunlock }
    some { s1 with threads := s1.threads.map (fun u =>
      if u.pc = fpc.l_wait ∧ u.node = t.next then { u with pc := fpc.l_reacq } else u) }
  | fpc.u_nunlock =>
    match t.next with
    | none => none
    | some b =>
      some { s.setThread i { t with pc := fpc.u_free }
             with node_mutex := setOwner s.node_mutex b none }
  | fpc.u_free => some (s.setThread i { t with pc := fpc.u_qunlock })
  | fpc.u_qunlock =>
    some { s.setThread i { t with pc := fpc.finished, unlock_ret := some t.ret }
           with q := { s.q with queue := { s.q.queue with mutex := none } } }
  | fpc.finished => none

/-- One event on the lock. -/
def fstep (s : fstate) : fevent → Option fstate
  | fevent.step i malloc_ok =>
    match s.threads[i]? with
    | none => none
    | some t => fifo_step s i t malloc_ok
  | fevent.spurious i =>
    match s.threads[i]? with
    | none => none
    | some t =>
      if t.pc = fpc.l_wait then some (s.setThread i { t with pc := fpc.l_reacq }) else none

/-- Run a schedule on the lock. -/
def frun (s : fstate) : List fevent → Option fstate
  | [] => some s
  | e :: es =>
    match fstep s e with
    | none => none
    | some s1 => frun s1 es

/-- Thread `i` executes `k` statements in a row, every `malloc` succeeding. -/
def steps (i k : Nat) : List fevent := List.replicate k (fevent.step i true)

/-- Two threads: thread 0 enqueues first and stops right before `pthread_mutex_lock(&fm->mutex)`;
thread 1 enqueues behind it, goes to sleep, returns from `pthread_cond_wait` without a
broadcast and takes the inner mutex. -/
def overtake : List fevent :=
  steps 0 7 ++ steps 1 6 ++ [fevent.spurious 1] ++ steps 1 3

/-- Three threads: thread 0 takes the lock, threads 1 and 2 enqueue behind it and sleep;
thread 2 returns from `pthread_cond_wait` without a broadcast; thread 0 runs its critical
section and all of `fifo_mutex_unlock`; thread 2 takes the inner mutex. -/
def barge : List fevent :=
  steps 0 8 ++ steps 1 6 ++ steps 2 6 ++ [fevent.spurious 2] ++ steps 2 2 ++
  steps 0 10 ++ steps 2 1

/-- The same three threads with no spurious return: each one runs when its turn comes. -/
def in_turn : List fevent :=
  steps 0 8 ++ steps 1 6 ++ steps 2 6 ++ steps 0 10 ++ steps 1 13 ++ steps 2 11

/-- The states `n` threads using the lock can reach. -/
def FReachable (n : Nat) (s : fstate) : Prop :=
  ∃ es, frun (fstate.init n) es = some s

/-- The dispatcher event at which `malloc` fails. -/
def ev_nomem : event := event.disp false 0 0

/-- A day in the classic mode with two customers: the first one is created and runs to its
end, then `init_addict` returns `NULL` for the second one, and `start_day` runs to its
return. -/
def demo_nomem_second : List event :=
  [ev_ok 0, ev_ok 0, ev_ok 0, ev_ok 0, ev_ok 0, ev_ok 0] ++ List.replicate 10 (event.cust 0) ++
  [ev_nomem, ev_ok 0, ev_ok 0, ev_ok 0]

/-- The same day when `init_addict` returns `NULL` for the first customer already. -/
def demo_nomem_first : List event :=
  [ev_ok 0, ev_ok 0, ev_ok 0, ev_nomem, ev_ok 0, ev_ok 0, ev_ok 0]

/-- The first five steps of `start_day`: the revenue reset, the array of threads and the three
calls of `init_server`. -/
def demo_topology : List event := [ev_ok 0, ev_ok 0, ev_ok 0, ev_ok 0, ev_ok 0]

/-- A day in the two-stage mode, `start_day(1, 1, 1000000000, 1)`: the three servers are
created, the one customer (a complex order) is created, runs `get_coffee` to its end on the
staffed pool and the cashier, and `start_day` returns. -/
def demo_uninit : List event :=
  [ev_ok 1, ev_ok 1, ev_ok 1, ev_ok 1, ev_ok 1, ev_ok 1, ev_ok 1, ev_ok 1] ++
  List.replicate 14 (event.cust 0) ++ [ev_ok 1, ev_ok 1, ev_ok 1, ev_ok 1]

/-! ## main.c: main -/

/-- What one call of `getopt(argc, argv, "s:b:c:q")` returns: an option with the value `atoi`
reads from its argument, the flag `-q`, or an option that is not in the list. -/
inductive getopt_t
  | s (value : Int)
  | b (value : Int)
  | c (value : Int)
  | q
  | unknown
deriving DecidableEq

/-- The variables the option loop of `main` sets: three `unsigned int` and the global
`quiet`. -/
structure main_vars where
  num_selfserve : Nat
  num_barista : Nat
  num_cashier : Nat
  quiet : Bool
deriving DecidableEq

/-- The variables before the first call of `getopt`. -/
def main_vars.init : main_vars :=
  { num_selfserve := 0, num_barista := 0, num_cashier := 0, quiet := false }

/-- The loop `while((opt = getopt(...)) != -1)`; `none` at the `default:` case, which prints
the usage and leaves by `goto out`. -/
def getopt_loop : List getopt_t → main_vars → Option main_vars
  | [], v => some v
  | getopt_t.s value :: rest, v => getopt_loop rest { v with num_selfserve := toUnsigned value }
  | getopt_t.b value :: rest, v => getopt_loop rest { v with num_barista := toUnsigned value }
  | getopt_t.c value :: rest, v => getopt_loop rest { v with num_cashier := toUnsigned value }
  | getopt_t.q :: rest, v => getopt_loop rest { v with quiet := true }
  | getopt_t.unknown :: _, _ => none

/-- How `main` ends: the value of `ret`, the lines `check_pr` printed, and the arguments and
the result of the call of `start_day`, if it was made. -/
structure main_result where
  ret : Int
  errors : List String
  started : Option (Int × Int × Int × Int)
  profit : Option Int
deriving DecidableEq

/-- The function `main`.  `argc` is the argument count, `customers` the value of
`atoi(argv[1])`, `opts` what the calls of `getopt` return, `malloc_simple` and
`malloc_complex` the outcome of the two allocations of the tables, and `start_day` the value
the call of `start_day` returns for its four `int` arguments. -/
def main (argc : Nat) (customers : Int) (opts : List getopt_t)
    (malloc_simple malloc_complex : Bool) (start_day : Int → Int → Int → Int → Int) :
    main_result :=
  -- int opt, ret = -1, profit;
  let out : List String → main_result := fun errors =>
    { ret := -1, errors := errors, started := none, profit := none }
  -- if(argc < 2) { print_usage(argv[0]); goto out; }
  if argc < 2 then out []
  else
    -- num_customers = atoi(argv[1]); check_pr(!num_customers, ..., out);
    let num_customers := toUnsigned customers
    if num_customers = 0 then out ["Need at least one customer"]
    else
      match getopt_loop opts { num_selfserve := 0, num_barista := 0, num_cashier := 0,
                               quiet := false } with
      | none => out []
      | some v =>
        -- if(quiet) { check(!num_barista, out); } else { check_pr(!num_barista, ..., out); }
        if v.num_barista = 0 then
          (if v.quiet then out [] else out ["Need at least one barista"])
        -- if(num_selfserve) { if(quiet) { check(!num_cashier, out); } else { check_pr(...); } }
        else if v.num_selfserve ≠ 0 ∧ v.num_cashier = 0 then
          (if v.quiet then out [] else out ["Need at least one cashier"])
        -- simple_times = malloc(...); check(!simple_times, free_times);
        else if malloc_simple = false then out []
        -- complex_times = malloc(...); check(!complex_times, free_times);
        else if malloc_complex = false then out []
        else
          -- profit = start_day(num_customers, num_selfserve, num_barista, num_cashier);
          let a1 := wrap32 num_customers
          let a2 := wrap32 v.num_selfserve
          let a3 := wrap32 v.num_barista
          let a4 := wrap32 v.num_cashier
          let profit := start_day a1 a2 a3 a4
          -- check_pr(profit < 0, "Simulation Aborted (Out of resources).", out);
          if profit < 0 then
            { ret := -1, errors := ["Simulation Aborted (Out of resources)."],
              started := some (a1, a2, a3, a4), profit := some profit }
          -- ... ret = 0;
          else
            { ret := 0, errors := [], started := some (a1, a2, a3, a4), profit := some profit }

/-! ## timer.h and main.c: the report and `rand_range` -/

/-- The elapsed time from `start` to `finish` in microseconds, as the claim on `timer_us`
writes it. -/
def elapsed_us (start finish : timeval) : Int :=
  (finish.tv_sec - start.tv_sec) * 1000000 + (finish.tv_usec - start.tv_usec)

/-- The function `print_time(time_microsecs)` of main.c: the two numbers it prints as
`%d.%06d`, `seconds` and the remainder (C division and remainder). -/
def print_time (time_microsecs : Int) : Int × Int :=
  -- seconds = time_microsecs / 1000000; milliseconds = time_microsecs % 1000000;
  (Int.tdiv time_microsecs 1000000, Int.tmod time_microsecs 1000000)

/-- The loop `while((ret = rand()) >= end);` of `rand_range`: the value of `ret` when the
loop is left, `rand` being the values the successive calls of `rand()` return; `none` when
these values end before the loop does. -/
def rand_range_loop (endv : Nat) : List Nat → Option Nat
  | [] => none
  | ret :: rest => if ret ≥ endv then rand_range_loop endv rest else some ret

/-- The function `rand_range(n)` of main.c.  `RAND_MAX` is the constant of stdlib.h, `n` the
`unsigned int` argument and `rand` the values the successive calls of `rand()` return.  The
result is `none` when the program has no result: for `n = 0`, a division by zero, and when
the values of `rand()` end before the loop does. -/
def rand_range (RAND_MAX : Nat) (n : Nat) (rand : List Nat) : Option Int :=
  -- if((n-1) == RAND_MAX) { ret = rand(); goto out; }       (n - 1 in unsigned arithmetic)
  if toUnsigned ((n : Int) - 1) = RAND_MAX then rand.head?.map (fun ret => (ret : Int))
  -- end = RAND_MAX / n;
  else if n = 0 then none
  else
    let endv := RAND_MAX / n
    -- check(end <= 0, out);        (ret is still -1)
    if endv ≤ 0 then some (-1)
    -- while((ret = rand()) >= end); ret %= n;
    else (rand_range_loop endv rand).map (fun ret => ((ret % n : Nat) : Int))

/-- The number of values `raw` among the `RAND_MAX + 1` values `0..RAND_MAX` of `rand()`
on which `rand_range(n)` leaves with the result `x` when `rand()` returns `raw`. -/
def hits (RAND_MAX n : Nat) (x : Int) : Nat :=
  Nat.count (fun raw => rand_range RAND_MAX n [raw] = some x) (RAND_MAX + 1)

/-! ## lin_kernel/ptag.c -/

/-- The Linux error number `EINVAL`. -/
def EINVAL : Int := 22
/-- The Linux error number `ENOMEM`. -/
def ENOMEM : Int := 12
/-- The tag length boundary (inclusive), ptag.h. -/
def PTAG_TAG_MAX : Nat := 1023

/-- The `struct ptag_struct`: the tag, a C string, and its length. -/
structure ptag_struct where
  tag : String
  tag_len : Nat
deriving DecidableEq

/-- The `struct ptag_tasks_struct`: the task, known by its `pid`, and the list of its tags,
first the one `list_add` inserted last. -/
structure ptag_tasks_struct where
  pid : Int
  ptags : List ptag_struct
deriving DecidableEq

/-- The function `init_ptag(tag, tag_len)`; `kmalloc_ok` tells whether `kmalloc` returns a
block. -/
def init_ptag (tag : String) (tag_len : Nat) (kmalloc_ok : Bool) : Option ptag_struct :=
  if tag_len > PTAG_TAG_MAX then none
  else if kmalloc_ok = false then none
  else some { tag := tag, tag_len := tag_len }

/-- The function `init_ptag_task(t)`. -/
def init_ptag_task (pid : Int) (kmalloc_ok : Bool) : Option ptag_tasks_struct :=
  if kmalloc_ok = false then none
  else some { pid := pid, ptags := [] }

/-- The loop `ptag_for_each_task(cur)` of `add_ptag_task` and the statement after it: the
return value and the list. -/
def add_ptag_task_loop (task : ptag_tasks_struct) :
    List ptag_tasks_struct → Int × List ptag_tasks_struct
  -- past the last entry: list_add_tail(&task->task_list, &cur->task_list), at the end
  | [] => (0, [task])
  | cur :: rest =>
    -- if(cur->task->pid == task->task->pid) { ret = 1; goto unlock; }
    if cur.pid = task.pid then (1, cur :: rest)
    -- if(cur->task->pid > task->task->pid) { list_add_tail(..., &cur->task_list); goto unlock; }
    else if cur.pid > task.pid then (0, task :: cur :: rest)
    else ((add_ptag_task_loop task rest).1, cur :: (add_ptag_task_loop task rest).2)

/-- The function `add_ptag_task(task)` on the global `ptag_tasklist`. -/
def add_ptag_task (task : ptag_tasks_struct) (ptag_tasklist : List ptag_tasks_struct) :
    Int × List ptag_tasks_struct :=
  -- if(list_empty(&ptag_tasklist)) { list_add(&task->task_list, &ptag_tasklist); goto unlock; }
  if ptag_tasklist.isEmpty then (0, [task])
  else add_ptag_task_loop task ptag_tasklist

/-- The loop of `ptag_get_task(t)`: the position of the entry found, counted from `k`. -/
def ptag_get_task_loop (pid : Int) : List ptag_tasks_struct → Nat → Option Nat
  | [], _ => none
  | cur :: rest, k =>
    -- if(t->pid < cur->task->pid) break;
    if pid < cur.pid then none
    -- if(t->pid == cur->task->pid) { task_tagged = 1; break; }
    else if pid = cur.pid then some k
    else ptag_get_task_loop pid rest (k + 1)

/-- The function `ptag_get_task(t)`: the position in the tasklist of the entry it returns, or
`none` for `NULL`. -/
def ptag_get_task (pid : Int) (ptag_tasklist : List ptag_tasks_struct) : Option Nat :=
  ptag_get_task_loop pid ptag_tasklist 0

/-- The function `ptag_get_tag(task, tag)`: the first tag of the task for which `strcmp`
gives 0. -/
def ptag_get_tag : List ptag_struct → String → Option ptag_struct
  | [], _ => none
  | cur :: rest, tag => if cur.tag = tag then some cur else ptag_get_tag rest tag

/-- The function `_add_ptag(t, tag, tag_len)` on the global tasklist: the return value and the
list.  `kmalloc_ptag` and `kmalloc_task` are the outcomes of the allocations in `init_ptag`
and `init_ptag_task`.  A new entry is linked by `add_ptag_task` and receives the tag right
after; the list is written here with the tag already in the entry. -/
def _add_ptag (pid : Int) (tag : String) (tag_len : Nat) (kmalloc_ptag kmalloc_task : Bool)
    (ptag_tasklist : List ptag_tasks_struct) : Int × List ptag_tasks_struct :=
  -- ret = -EINVAL; if(tag_len > PTAG_TAG_MAX) goto out;
  if tag_len > PTAG_TAG_MAX then (-EINVAL, ptag_tasklist)
  else
    -- ret = -ENOMEM; p_new = init_ptag(tag, tag_len); if(!p_new) goto out;
    match init_ptag tag tag_len kmalloc_ptag with
    | none => (-ENOMEM, ptag_tasklist)
    | some p_new =>
      -- task = ptag_get_task(t);
      match ptag_get_task pid ptag_tasklist with
      | none =>
        -- task = init_ptag_task(t); if(!task) goto free_tag; add_ptag_task(task);
        match init_ptag_task pid kmalloc_task with
        | none => (-ENOMEM, ptag_tasklist)
        | some task =>
          -- list_add(&p_new->ptags, &task->ptags); ret = 0;
          (0, (add_ptag_task { task with ptags := p_new :: task.ptags } ptag_tasklist).2)
      | some k =>
        match ptag_tasklist[k]? with
        | none => (0, ptag_tasklist)
        | some task =>
          -- ret = 0; if(ptag_get_tag(task, tag)) goto free_tag;
          match ptag_get_tag task.ptags tag with
          | some _ => (0, ptag_tasklist)
          | none =>
            -- list_add(&p_new->ptags, &task->ptags); ret = 0;
            (0, ptag_tasklist.set k { task with ptags := p_new :: task.ptags })

/-- The tasklist is in strictly ascending order of PID. -/
def pid_sorted (l : List ptag_tasks_struct) : Prop :=
  l.Pairwise (fun a b => a.pid < b.pid)

/-- The tags of the task `pid`, the latest first; none when the task has no entry. -/
def tags_of (pid : Int) : List ptag_tasks_struct → List String
  | [] => []
  | cur :: rest => if cur.pid = pid then cur.ptags.map (fun p => p.tag) else tags_of pid rest

/-! ## Invariants of the simulation -/

/-- The sum of `f` over a list. -/
def total {α : Type} (f : α → Int) (l : List α) : Int := (l.map f).sum

/-- Bookkeeping of the spawn loop: the parameters never change, `i` counts the threads
created (the one not yet counted at `count_inc` apart), and every customer is of one of the two
kinds. -/
structure InvD (A : day_args) (s : sim) : Prop where
  args : s.disp.args = A
  len : (s.threads.length : Int) = s.disp.i + (if s.disp.pc = dpc.inc then 1 else 0)
  nonneg : 0 ≤ s.disp.i
  pre : (s.disp.pc = dpc.set_profit ∨ s.disp.pc = dpc.malloc_threads ∨ s.disp.pc = dpc.mk_server ∨
    s.disp.pc = dpc.mk_selfserve ∨ s.disp.pc = dpc.mk_cashier) → s.disp.i = 0
  le : s.disp.i ≤ A.n_customers ∨ s.disp.i = 0
  lt : s.disp.pc = dpc.create ∨ s.disp.pc = dpc.inc → s.disp.i < A.n_customers
  cur : s.disp.pc = dpc.create → ∃ a, s.disp.cur = some a ∧
    (a.order_cost = ACOST_SIMPLE ∨ a.order_cost = ACOST_COMPLEX)
  kinds : ∀ t ∈ s.threads,
    t.addict.order_cost = ACOST_SIMPLE ∨ t.addict.order_cost = ACOST_COMPLEX

/-- The indicator of `holding`, for sums. -/
def hold (j : Nat) (t : cthread) : Int := if holding j t then 1 else 0

/-- Every server of a capacity up to `SEM_VALUE_MAX` has its semaphore initialised, and every
server with an initialised semaphore has its capacity in tokens, free or held. -/
def InvSem (s : sim) : Prop :=
  ∀ j srv, s.servers[j]? = some srv →
    (capacity srv ≤ SEM_VALUE_MAX → srv.service_sem ≠ none) ∧
    ∀ v : Nat, srv.service_sem = some v →
      (v : Int) + total (hold j) s.threads = capacity srv

/-- The history of every customer is the one its program point tells, and a customer past
the first lock has a primary server. -/
def InvOps (s : sim) : Prop :=
  ∀ t ∈ s.threads, t.ops = ops_at t.addict t.pc ∧ (t.pc ≠ cpc.lock1 → t.addict.server.isSome)

/-- The revenue is the sum of what the customers have paid, as an `int`. -/
def InvProfit (s : sim) : Prop := s.gl_profit.val = wrap32 (total paid s.threads)

/-- The indicator of a simple customer that has recorded its time. -/
def recS (t : cthread) : Int :=
  if t.addict.order_cost = ACOST_SIMPLE ∧ t.pc.recorded = true then 1 else 0

/-- The indicator of a complex customer that has recorded its time. -/
def recC (t : cthread) : Int :=
  if t.addict.order_cost = ACOST_COMPLEX ∧ t.pc.recorded = true then 1 else 0

/-- Each count is the number of stores into its table, which went to the slots in order, one
for each customer of the kind that has recorded. -/
structure InvTab (s : sim) : Prop where
  sc : s.simple_count.val = s.simple_times.length
  ss : slots_in_order s.simple_times
  sn : (s.simple_times.length : Int) = total recS s.threads
  cc : s.complex_count.val = s.complex_times.length
  cs : slots_in_order s.complex_times
  cn : (s.complex_times.length : Int) = total recC s.threads

/-- The indicator of a customer that has decremented `running_threads`. -/
def decd (t : cthread) : Int := if t.pc.decremented = true then 1 else 0

/-- The count of running threads is the number of increments minus the number of decrements;
the dispatcher is past the barrier only when every customer has decremented; and while it
sleeps in `pthread_cond_wait` with no broadcast delivered, either the count is positive or a
customer is about to test it. -/
structure InvBar (s : sim) : Prop where
  val : s.running_threads.val = s.disp.i - total decd s.threads
  passed : (s.disp.pc = dpc.free_threads ∨ s.disp.pc = dpc.ret ∨ s.disp.pc = dpc.done) →
    ∀ t ∈ s.threads, t.pc.decremented = true
  wake : s.disp.pc = dpc.waiting → s.woken = false →
    0 < s.running_threads.val ∨ ∃ t ∈ s.threads, t.pc = cpc.signal

/-- The invariants of a run of `start_day`. -/
structure Inv (A : day_args) (s : sim) : Prop where
  d : InvD A s
  sem : InvSem s
  ops : InvOps s
  profit : InvProfit s
  tab : InvTab s
  bar : InvBar s

/-- The variable `ret` of both functions is 1 from its initialisation to the `return`. -/
def InvRet (s : fstate) : Prop :=
  ∀ t ∈ s.threads, t.ret = 1 ∧ (t.lock_ret = none ∨ t.lock_ret = some 1) ∧
    (t.unlock_ret = none ∨ t.unlock_ret = some 1)

/-- The topology `start_day_classic` builds for `n_barista = B`: no server before
`init_server`, at most one afterwards, of the capacity `B` read as `unsigned int`; once the
loop runs there is exactly one, at address 0, and every customer, the one being created
included, has it as primary server and has no secondary server. -/
structure InvClassic (B : Int) (s : sim) : Prop where
  args : s.disp.args.complex = false ∧ s.disp.args.n_barista = B
  pcs : s.disp.pc ≠ dpc.mk_selfserve ∧ s.disp.pc ≠ dpc.mk_cashier
  before : (s.disp.pc = dpc.set_profit ∨ s.disp.pc = dpc.malloc_threads ∨
    s.disp.pc = dpc.mk_server) → s.servers = []
  le_one : s.servers.length ≤ 1
  cap : ∀ srv ∈ s.servers, capacity srv = toUnsigned B
  looping : (s.disp.pc = dpc.loop ∨ s.disp.pc = dpc.create ∨ s.disp.pc = dpc.inc) →
    s.servers.length = 1 ∧ s.disp.server = some 0
  cur : s.disp.pc = dpc.create → ∀ a, s.disp.cur = some a → a.server = some 0 ∧ a.next = none
  threads : ∀ t ∈ s.threads,
    t.addict.server = some 0 ∧ t.addict.next = none ∧ s.servers.length = 1

/-- The pointer `server` of `start_day_classic`: it is `NULL` or the address 0, the server is
there when it is not `NULL`, and it is not `NULL` from the spawn loop to the barrier. -/
structure InvCreated (s : sim) : Prop where
  ptr : s.disp.server = none ∨ s.disp.server = some 0
  one : s.disp.server = some 0 → s.servers.length = 1
  past : (s.disp.pc = dpc.loop ∨ s.disp.pc = dpc.create ∨ s.disp.pc = dpc.inc ∨
    s.disp.pc = dpc.barrier ∨ s.disp.pc = dpc.waiting) → s.disp.server = some 0

/-! ## Lemmas on the queue -/

theorem setNext_next (m : Nat → node_t) (p a : Nat) (v : Option Nat) :
    (setNext m p v a).next = if a = p then v else (m a).next := by
  unfold setNext; split <;> rfl

theorem setPrev_next (m : Nat → node_t) (p a : Nat) (v : Option Nat) :
    (setPrev m p v a).next = (m a).next := by
  unfold setPrev; split <;> rfl

theorem chain_congr (m m1 : Nat → node_t) :
    ∀ (l : List Nat) (p : Option Nat), (∀ a ∈ l, (m1 a).next = (m a).next) →
      chain m p l → chain m1 p l := by
  intro l
  induction l with
  | nil => intro p _ h; exact h
  | cons a l ih =>
    intro p hm h
    refine ⟨h.1, ?_⟩
    rw [hm a (List.mem_cons_self a l)]
    exact ih _ (fun b hb => hm b (List.mem_cons_of_mem a hb)) h.2

theorem chain_unique (m : Nat → node_t) :
    ∀ (l l1 : List Nat) (p : Option Nat), chain m p l → chain m p l1 → l = l1 := by
  intro l
  induction l with
  | nil =>
    intro l1 p h h1
    cases l1 with
    | nil => rfl
    | cons b l1 =>
      have h0 : p = none := h
      have h2 : p = some b := h1.1
      rw [h0] at h2; cases h2
  | cons a l ih =>
    intro l1 p h h1
    cases l1 with
    | nil =>
      have h0 : p = none := h1
      have h2 : p = some a := h.1
      rw [h0] at h2; cases h2
    | cons b l1 =>
      have h2 : p = some a := h.1
      have h3 : p = some b := h1.1
      rw [h2] at h3
      cases h3
      rw [ih l1 _ h.2 h1.2]

theorem chain_mem_tail (m : Nat → node_t) :
    ∀ (l : List Nat) (p : Option Nat) (a : Nat), chain m p l → a ∈ l →
      ∃ l2, chain m (m a).next l2 ∧ l2.length < l.length := by
  intro l
  induction l with
  | nil => intro p a _ ha; cases ha
  | cons b l ih =>
    intro p a h ha
    rcases List.mem_cons.1 ha with hab | hal
    · subst hab
      exact ⟨l, h.2, by simp⟩
    · obtain ⟨l2, h2, hlen⟩ := ih _ a h.2 hal
      exact ⟨l2, h2, by simp; omega⟩

theorem chain_nodup (m : Nat → node_t) :
    ∀ (l : List Nat) (p : Option Nat), chain m p l → l.Nodup := by
  intro l
  induction l with
  | nil => intro _ _; exact List.nodup_nil
  | cons a l ih =>
    intro p h
    refine List.nodup_cons.2 ⟨?_, ih _ h.2⟩
    intro ha
    obtain ⟨l2, h2, hlen⟩ := chain_mem_tail m l _ a h.2 ha
    have := chain_unique m l l2 _ h.2 h2
    rw [this] at hlen
    exact absurd hlen (lt_irrefl _)

theorem chain_snoc (m m1 : Nat → node_t) (n b : Nat) :
    ∀ (l : List Nat) (p : Option Nat), chain m p l → l.getLast? = some b → l.Nodup →
      (∀ a ∈ l, a ≠ b → (m1 a).next = (m a).next) → (m1 b).next = some n →
      (m1 n).next = none → chain m1 p (l ++ [n]) := by
  intro l
  induction l with
  | nil => intro p _ hl; simp at hl
  | cons a l ih =>
    intro p h hl hnd hm hb hn
    cases l with
    | nil =>
      simp at hl
      subst hl
      exact ⟨h.1, by rw [hb]; exact ⟨rfl, hn⟩⟩
    | cons c l =>
      have hl1 : (c :: l).getLast? = some b := by
        rw [List.getLast?_cons_cons] at hl; exact hl
      have hab : a ≠ b := by
        intro hab
        have hmem : b ∈ c :: l := List.mem_of_getLast?_eq_some hl1
        rw [← hab] at hmem
        exact (List.nodup_cons.1 hnd).1 hmem
      refine ⟨h.1, ?_⟩
      rw [hm a (List.mem_cons_self _ _) hab]
      exact ih _ h.2 hl1 (List.nodup_cons.1 hnd).2
        (fun x hx => hm x (List.mem_cons_of_mem a hx)) hb hn

theorem IsQueue_add_tail (s : QMem) (l : List Nat) (n : Nat) (h : IsQueue s l)
    (hn : n ∉ l) : IsQueue (queue_add_tail n s) (l ++ [n]) := by
  obtain ⟨hc, hb⟩ := h
  cases l with
  | nil =>
    have hf : s.queue.front = none := hc
    have hb0 : s.queue.back = none := hb
    refine ⟨?_, ?_⟩
    · simp only [queue_add_tail, hf, hb0, List.nil_append]
      refine ⟨rfl, ?_⟩
      show (setPrev (setNext s.mem n none) n none n).next = none
      rw [setPrev_next, setNext_next]; simp
    · simp only [queue_add_tail, hf, hb0]; simp
  | cons a l =>
    have hf : s.queue.front = some a := hc.1
    obtain ⟨b, hlast⟩ : ∃ b, (a :: l).getLast? = some b := by
      cases hx : (a :: l).getLast? with
      | none => simp at hx
      | some b => exact ⟨b, rfl⟩
    have hb0 : s.queue.back = some b := by rw [hb, hlast]
    have hbmem : b ∈ a :: l := List.mem_of_getLast?_eq_some hlast
    have hnb : n ≠ b := fun e => hn (e ▸ hbmem)
    refine ⟨?_, ?_⟩
    · simp only [queue_add_tail, hf, hb0]
      have hc1 : chain s.mem (some a) (a :: l) := by rw [← hf]; exact hc
      refine chain_snoc s.mem _ n b (a :: l) (some a) hc1 hlast
        (chain_nodup s.mem _ _ hc1) ?_ ?_ ?_
      · intro x hx hxb
        have hxn : x ≠ n := fun e => hn (e ▸ hx)
        rw [setNext_next, setPrev_next, setNext_next]; simp [hxb, hxn]
      · rw [setNext_next]; simp
      · rw [setNext_next, setPrev_next, setNext_next]; simp [hnb]
    · have hl2 : (a :: l ++ [n]).getLast? = some n := List.getLast?_concat _
      rw [hl2]
      simp only [queue_add_tail, hf, hb0]

theorem IsQueue_remove_head (s : QMem) (a : Nat) (l : List Nat) (h : IsQueue s (a :: l)) :
    ∃ s1, queue_remove_head s = some s1 ∧ s.queue.front = some a ∧ IsQueue s1 l := by
  obtain ⟨hc, hb⟩ := h
  have hf : s.queue.front = some a := hc.1
  have hc2 : chain s.mem (s.mem a).next l := hc.2
  cases l with
  | nil =>
    have hnx : (s.mem a).next = none := hc2
    refine ⟨_, by simp only [queue_remove_head, hf, hnx]; rfl, hf, ?_⟩
    exact ⟨rfl, rfl⟩
  | cons c l =>
    have hnx : (s.mem a).next = some c := hc2.1
    refine ⟨_, by simp only [queue_remove_head, hf, hnx]; rfl, hf, ?_⟩
    refine ⟨?_, ?_⟩
    · show chain (setPrev s.mem c none) (some c) (c :: l)
      rw [← hnx]
      exact chain_congr s.mem _ _ _ (fun x _ => setPrev_next _ _ _ _) hc2
    · show s.queue.back = (c :: l).getLast?
      rw [hb, List.getLast?_cons_cons]

theorem IsQueue_add_all (ns : List Nat) :
    ∀ (s : QMem) (l : List Nat), IsQueue s l → (l ++ ns).Nodup →
      IsQueue (add_all ns s) (l ++ ns) := by
  induction ns with
  | nil => intro s l h _; simpa [add_all] using h
  | cons n ns ih =>
    intro s l h hnd
    have hn : n ∉ l := by
      intro hmem
      have := List.nodup_append.1 hnd
      exact this.2.2 hmem (List.mem_cons_self _ _)
    have h1 := IsQueue_add_tail s l n h hn
    have h2 := ih (queue_add_tail n s) (l ++ [n]) h1 (by simpa using hnd)
    simpa [add_all] using h2

theorem pops_IsQueue (l : List Nat) :
    ∀ s : QMem, IsQueue s l → ∃ s1, pops l.length s = some (l, s1) ∧ IsQueue s1 [] := by
  induction l with
  | nil => intro s h; exact ⟨s, rfl, h⟩
  | cons a l ih =>
    intro s h
    obtain ⟨s1, hr, hf, hq⟩ := IsQueue_remove_head s a l h
    obtain ⟨s2, hp, hq2⟩ := ih s1 hq
    refine ⟨s2, ?_, hq2⟩
    simp only [List.length_cons, pops, hf, hr, hp, Option.map_some']

theorem QRun_IsQueue (m0 : Nat → node_t) (q0 : queue_t) (l : List Nat) (s : QMem)
    (h : QRun m0 q0 l s) : IsQueue s l := by
  induction h with
  | init => exact ⟨rfl, rfl⟩
  | add n l s _ hn ih => exact IsQueue_add_tail s l n ih hn
  | remove a l s s1 _ hr ih =>
    obtain ⟨s2, hr2, _, hq⟩ := IsQueue_remove_head s a l ih
    rw [hr] at hr2
    cases hr2
    exact hq

theorem QReach_front_back (m0 : Nat → node_t) (q0 : queue_t) (s : QMem)
    (h : QReach m0 q0 s) : s.queue.front = none ↔ s.queue.back = none := by
  induction h with
  | init => simp [init_queue_head]
  | add n s _ ih =>
    simp only [queue_add_tail]
    cases hf : s.queue.front <;> simp
  | remove s s1 _ hr ih =>
    unfold queue_remove_head at hr
    cases hf : s.queue.front with
    | none => rw [hf] at hr; cases hr
    | some f =>
      rw [hf] at hr
      cases hn : (s.mem f).next with
      | none =>
        simp only [hn] at hr
        cases hr
        simp
      | some g =>
        simp only [hn] at hr
        cases hr
        have : s.queue.back ≠ none := fun e => by
          have := ih.2 e
          rw [hf] at this; cases this
        simp [this]

/-! ## Lemmas on machine integers and on sums over the threads -/

theorem wrap32_of_range (x : Int) (h1 : -2147483648 ≤ x) (h2 : x ≤ 2147483647) :
    wrap32 x = x := by
  unfold wrap32; omega

theorem wrap32_add_left (a b : Int) : wrap32 (wrap32 a + b) = wrap32 (a + b) := by
  unfold wrap32; omega

theorem wrap32_range (x : Int) : -2147483648 ≤ wrap32 x ∧ wrap32 x ≤ 2147483647 := by
  unfold wrap32; omega

theorem toUnsigned_wrap32 (n : Nat) (h : n < 4294967296) : toUnsigned (wrap32 n) = n := by
  unfold toUnsigned wrap32; omega

theorem total_nil {α : Type} (f : α → Int) : total f [] = 0 := rfl

theorem total_append {α : Type} (f : α → Int) (l : List α) (t : α) :
    total f (l ++ [t]) = total f l + f t := by
  simp [total]

theorem total_set {α : Type} (f : α → Int) :
    ∀ (l : List α) (i : Nat) (t x : α), l[i]? = some t →
      total f (l.set i x) = total f l - f t + f x := by
  intro l
  induction l with
  | nil => intro i t x h; simp at h
  | cons a l ih =>
    intro i t x h
    cases i with
    | zero =>
      simp at h
      subst h
      simp [total]; ring
    | succ i =>
      simp at h
      have := ih i t x h
      simp [total] at this ⊢
      rw [this]; ring

/-! ## Lemmas on runs -/

theorem run_invariant (P : sim → Prop)
    (hstep : ∀ s e s1, P s → step s e = some s1 → P s1) :
    ∀ (es : List event) (s s1 : sim), P s → run s es = some s1 → P s1 := by
  intro es
  induction es with
  | nil =>
    intro s s1 h hr
    simp only [run, Option.some.injEq] at hr
    exact hr ▸ h
  | cons e es ih =>
    intro s s1 h hr
    unfold run at hr
    cases hs : step s e with
    | none => rw [hs] at hr; cases hr
    | some s2 =>
      rw [hs] at hr
      exact ih s2 s1 (hstep s e s2 h hs) hr

theorem Reachable_invariant (a b c d : Int) (P : sim → Prop) (h0 : P (sim_init a b c d))
    (hstep : ∀ s e s1, P s → step s e = some s1 → P s1) :
    ∀ s, Reachable a b c d s → P s := by
  intro s ⟨es, hr⟩
  exact run_invariant P hstep es _ s h0 hr

/-- What a step of `get_coffee` leaves alone: the dispatcher, and in the stepping thread the
fields of its control struct that `init_addict` set. -/
theorem get_coffee_step_frame (s s1 : sim) (i : Nat) (t : cthread)
    (h : get_coffee_step s i t = some s1) :
    s1.disp = s.disp ∧ ∃ t1, s1.threads = s.threads.set i t1 ∧
      t1.addict.order_cost = t.addict.order_cost ∧ t1.addict.server = t.addict.server ∧
      t1.addict.next = t.addict.next ∧ t1.addict.start = t.addict.start := by
  cases hpc : t.pc <;> simp only [get_coffee_step, hpc] at h <;> (repeat' split at h) <;>
    cases h <;> exact ⟨rfl, _, rfl, rfl, rfl, rfl, rfl⟩

theorem spawn_addict_cost (d : dispatcher) (rand : Int) (ok : Bool) (a : addict)
    (h : spawn_addict d rand ok = some a) :
    a.order_cost = ACOST_SIMPLE ∨ a.order_cost = ACOST_COMPLEX := by
  unfold spawn_addict init_addict at h
  repeat' split at h
  all_goals cases h
  all_goals first | exact Or.inl rfl | exact Or.inr rfl

theorem InvD_init (a b c d : Int) :
    InvD (start_day_call a b c d) (sim_init a b c d) := by
  constructor <;> simp [sim_init]

theorem InvD_step (A : day_args) (hA : A.n_customers ≤ INT_MAX) (s : sim) (e : event)
    (s1 : sim) (hi : InvD A s) (h : step s e = some s1) : InvD A s1 := by
  obtain ⟨h1, h2, h3, h0, h4, h5, h6, h7⟩ := hi
  cases e with
  | tick now =>
    simp only [step, Option.some.injEq] at h
    subst h
    exact ⟨h1, h2, h3, h0, h4, h5, h6, h7⟩
  | spurious =>
    simp only [step] at h
    split at h
    · rename_i hpc
      simp only [Option.some.injEq] at h
      subst h
      refine ⟨h1, ?_, h3, ?_, h4, ?_, ?_, h7⟩
      · simpa [hpc] using h2
      · simp
      · simp
      · simp
    · cases h
  | cust i =>
    simp only [step] at h
    cases ht : s.threads[i]? with
    | none => rw [ht] at h; cases h
    | some t =>
      rw [ht] at h
      obtain ⟨hd, t1, hth, hc, _, _, _⟩ := get_coffee_step_frame s s1 i t h
      refine ⟨by rw [hd]; exact h1, ?_, by rw [hd]; exact h3, by rw [hd]; exact h0,
        by rw [hd]; exact h4, by rw [hd]; exact h5, by rw [hd]; exact h6, ?_⟩
      · rw [hd, hth, List.length_set]; exact h2
      · intro t2 ht2
        rw [hth] at ht2
        rcases List.mem_or_eq_of_mem_set ht2 with hm | he
        · exact h7 t2 hm
        · rw [he, hc]
          exact h7 t (List.getElem?_mem ht)
  | disp ok rand err =>
    simp only [step] at h
    cases hpc : s.disp.pc <;> simp only [start_day_step, hpc] at h <;> (repeat' split at h) <;>
      cases h <;> simp only [hpc] at h2 h5 h6 h0 <;> constructor <;>
      simp_all <;>
      first
      | omega
      | exact spawn_addict_cost _ _ _ _ (by assumption)
      | (rw [wrap32_of_range] <;> unfold INT_MAX at hA <;> omega)
      | (intro t ht
         rcases ht with ht | ht
         · exact h7 t ht
         · subst ht; simpa using h6)

/-! ## The semaphores -/

/-- One step of a customer moves a token between an initialised semaphore and the customer,
or moves none. -/
theorem get_coffee_step_tokens (s s1 : sim) (i : Nat) (t : cthread)
    (h : get_coffee_step s i t = some s1) :
    ∃ t1, s1.threads = s.threads.set i t1 ∧
      ∀ j srv1, s1.servers[j]? = some srv1 → ∃ srv, s.servers[j]? = some srv ∧
        srv1.max_service = srv.max_service ∧
        ((srv1.service_sem = srv.service_sem ∧ hold j t1 = hold j t) ∨
          ∃ v v1 : Nat, srv.service_sem = some v ∧ srv1.service_sem = some v1 ∧
            (v1 : Int) + hold j t1 = v + hold j t) := by
  cases hpc : t.pc <;> simp only [get_coffee_step, hpc] at h <;> (repeat' split at h) <;>
    cases h <;> refine ⟨_, rfl, ?_⟩ <;> intro j srv1 hj <;>
    simp only [sim.setThread] at hj
  all_goals first
    | (refine ⟨srv1, hj, rfl, Or.inl ⟨rfl, ?_⟩⟩
       simp [hold, holding, hpc, cpc.in_primary, cpc.in_secondary, serve])
    | skip
  all_goals
    rw [List.getElem?_set] at hj
    split at hj
    · rename_i hpj
      subst hpj
      split at hj
      · cases hj
        have hs := ‹s.servers[_]? = some _›
        refine ⟨_, hs, rfl, Or.inr ⟨_, _, by assumption, rfl, ?_⟩⟩
        simp_all [hold, holding, cpc.in_primary, cpc.in_secondary, sem_wait, sem_post]
        try omega
      · cases hj
    · rename_i hpj
      refine ⟨srv1, hj, rfl, Or.inl ⟨rfl, ?_⟩⟩
      simp_all [hold, holding, cpc.in_primary, cpc.in_secondary]

theorem init_server_eq (n : Nat) (ok : Bool) :
    init_server n ok =
      if n = 0 then none
      else if ok = false then none
      else some { max_service := wrap32 n, service_sem := sem_init (toUnsigned (wrap32 n)),
                  lock := fifo_mutex_init { queue := { front := none, back := none, mutex := none },
                                            mutex := none } } := rfl

theorem sem_init_of_le (v : Nat) (h : v ≤ SEM_VALUE_MAX) : sem_init v = some v := by
  unfold sem_init
  rw [if_neg (Nat.not_lt.2 h)]

theorem sem_init_of_gt (v : Nat) (h : SEM_VALUE_MAX < v) : sem_init v = none := by
  unfold sem_init
  rw [if_pos h]

theorem sem_init_some (v w : Nat) (h : sem_init v = some w) : w = v := by
  unfold sem_init at h
  split at h
  · exact Option.noConfusion h
  · exact (Option.some.inj h).symm

theorem capacity_mk (a : Int) (b : Option Nat) (c : fifo_mutex_t) :
    capacity { max_service := a, service_sem := b, lock := c } = toUnsigned a := rfl

theorem service_sem_mk (a : Int) (b : Option Nat) (c : fifo_mutex_t) :
    ({ max_service := a, service_sem := b, lock := c } : server).service_sem = b := rfl

/-- The semaphore of a new server is what `sem_init` made of its capacity. -/
theorem init_server_sem (n : Nat) (ok : Bool) (srv : server)
    (h : init_server n ok = some srv) : srv.service_sem = sem_init (capacity srv) := by
  rw [init_server_eq] at h
  by_cases hn : n = 0
  · rw [if_pos hn] at h; exact Option.noConfusion h
  · rw [if_neg hn] at h
    by_cases hok : ok = false
    · rw [if_pos hok] at h; exact Option.noConfusion h
    · rw [if_neg hok] at h
      have h1 := Option.some.inj h
      rw [← h1, capacity_mk, service_sem_mk]

theorem alloc_server_get (l : List server) (n : Nat) (ok : Bool) (j : Nat) (srv : server)
    (h : (alloc_server l n ok).2[j]? = some srv) :
    l[j]? = some srv ∨ srv.service_sem = sem_init (capacity srv) := by
  unfold alloc_server at h
  cases hs : init_server n ok with
  | none => rw [hs] at h; exact Or.inl h
  | some srv0 =>
    rw [hs] at h
    simp only at h
    rw [List.getElem?_append] at h
    split at h
    · exact Or.inl h
    · right
      have hmem : srv ∈ [srv0] := List.getElem?_mem h
      rw [List.mem_singleton] at hmem
      rw [hmem]
      exact init_server_sem n ok srv0 hs

/-- A server fresh from `init_server`, no customer holding a token of it, meets the
invariant of the semaphores. -/
theorem sem_init_inv (srv : server) (h : srv.service_sem = sem_init (capacity srv)) :
    (capacity srv ≤ SEM_VALUE_MAX → srv.service_sem ≠ none) ∧
    ∀ v : Nat, srv.service_sem = some v → (v : Int) + 0 = capacity srv := by
  constructor
  · intro hc
    rw [h, sem_init_of_le _ hc]
    exact Option.some_ne_none _
  · intro v hv
    rw [h] at hv
    rw [sem_init_some _ _ hv]
    simp

theorem InvD_no_threads (A : day_args) (s : sim) (hD : InvD A s)
    (hpc : s.disp.pc = dpc.set_profit ∨ s.disp.pc = dpc.malloc_threads ∨
      s.disp.pc = dpc.mk_server ∨ s.disp.pc = dpc.mk_selfserve ∨ s.disp.pc = dpc.mk_cashier) :
    s.threads = [] := by
  have h0 := hD.pre hpc
  have hl := hD.len
  have hne : s.disp.pc ≠ dpc.inc := by
    rcases hpc with h | h | h | h | h <;> rw [h] <;> decide
  rw [h0, if_neg hne] at hl
  simp at hl
  exact hl

theorem InvSem_init (a b c d : Int) : InvSem (sim_init a b c d) := by
  intro j srv h
  simp [sim_init] at h

theorem InvSem_step (A : day_args) (s : sim) (e : event) (s1 : sim) (hD : InvD A s)
    (hi : InvSem s) (h : step s e = some s1) : InvSem s1 := by
  cases e with
  | tick now =>
    simp only [step, Option.some.injEq] at h
    subst h
    exact hi
  | spurious =>
    simp only [step] at h
    split at h
    · cases h; exact hi
    · cases h
  | cust i =>
    simp only [step] at h
    cases ht : s.threads[i]? with
    | none => rw [ht] at h; cases h
    | some t =>
      rw [ht] at h
      obtain ⟨t1, hth, hsrv⟩ := get_coffee_step_tokens s s1 i t h
      intro j srv1 hj
      obtain ⟨srv, hs, hm, hq⟩ := hsrv j srv1 hj
      obtain ⟨hini, htok⟩ := hi j srv hs
      have hcap : capacity srv1 = capacity srv := by
        unfold capacity
        rw [hm]
      rw [hth, total_set _ _ _ _ _ ht, hcap]
      rcases hq with ⟨hq1, hq2⟩ | ⟨v, v1, hq1, hq2, hq3⟩
      · rw [hq1]
        refine ⟨hini, ?_⟩
        intro w hw
        have := htok w hw
        omega
      · refine ⟨fun _ => by rw [hq2]; exact Option.some_ne_none _, ?_⟩
        intro w hw
        rw [hq2] at hw
        have hw1 : v1 = w := Option.some.inj hw
        have := htok v hq1
        omega
  | disp ok rand err =>
    simp only [step] at h
    cases hpc : s.disp.pc <;> simp only [start_day_step, hpc] at h
    case mk_server =>
      have hnt := InvD_no_threads A s hD (by simp [hpc])
      repeat' split at h
      all_goals
        cases h
        intro j srv hj
        simp only [hnt, total_nil]
        rcases alloc_server_get _ _ _ _ _ hj with h1 | h1
        · have := hi j srv h1
          simpa [hnt, total_nil] using this
        · exact sem_init_inv srv h1
    case mk_selfserve =>
      have hnt := InvD_no_threads A s hD (by simp [hpc])
      cases h
      intro j srv hj
      simp only [hnt, total_nil]
      rcases alloc_server_get _ _ _ _ _ hj with h1 | h1
      · have := hi j srv h1
        simpa [hnt, total_nil] using this
      · exact sem_init_inv srv h1
    case mk_cashier =>
      have hnt := InvD_no_threads A s hD (by simp [hpc])
      repeat' split at h
      all_goals
        cases h
        intro j srv hj
        simp only [hnt, total_nil]
        rcases alloc_server_get _ _ _ _ _ hj with h1 | h1
        · have := hi j srv h1
          simpa [hnt, total_nil] using this
        · exact sem_init_inv srv h1
    case create =>
      repeat' split at h
      all_goals cases h
      · exact hi
      · intro j srv hj
        have := hi j srv hj
        simp only [total_append]
        simpa [hold, holding, cpc.in_primary, cpc.in_secondary] using this
    all_goals
      repeat' split at h
      all_goals cases h
      all_goals exact hi

/-! ## The history of a customer and the revenue -/

theorem get_coffee_step_ops (s s1 : sim) (i : Nat) (t : cthread)
    (h : get_coffee_step s i t = some s1) (h1 : t.ops = ops_at t.addict t.pc)
    (h2 : t.pc ≠ cpc.lock1 → t.addict.server.isSome) :
    ∃ t1, s1.threads = s.threads.set i t1 ∧ t1.ops = ops_at t1.addict t1.pc ∧
      (t1.pc ≠ cpc.lock1 → t1.addict.server.isSome) ∧
      ((s1.gl_profit = s.gl_profit ∧ paid t1 = paid t) ∨
        s1.gl_profit.val = wrap32 (s.gl_profit.val + (paid t1 - paid t))) := by
  cases hpc : t.pc <;> simp only [get_coffee_step, hpc] at h <;> (repeat' split at h) <;>
    cases h <;> rw [hpc] at h1 h2 <;> refine ⟨_, rfl, ?_, ?_, ?_⟩ <;>
    simp_all [ops_at, paid, pay, count_inc, op.revenue, serve, sim.setThread]

/-- What a step of the dispatcher does to the threads and to the four counts other than
`running_threads`: it appends a new thread at `pthread_create`, it resets the revenue at its
first step, and it leaves the rest alone. -/
theorem start_day_step_frame (s s1 : sim) (ok : Bool) (rand err : Int)
    (h : start_day_step s ok rand err = some s1) :
    (s1.threads = s.threads ∨
      (s.disp.pc = dpc.create ∧ ∃ a, s1.threads = s.threads ++ [{ addict := a, pc := cpc.lock1, ops := [] }])) ∧
    (s1.gl_profit = s.gl_profit ∨ (s.disp.pc = dpc.set_profit ∧ s1.gl_profit.val = 0)) ∧
    s1.simple_count = s.simple_count ∧ s1.complex_count = s.complex_count ∧
    s1.simple_times = s.simple_times ∧ s1.complex_times = s.complex_times := by
  cases hpc : s.disp.pc <;> simp only [start_day_step, hpc] at h <;> (repeat' split at h) <;>
    cases h <;> simp [count_set]

theorem InvOps_init (a b c d : Int) : InvOps (sim_init a b c d) := by
  intro t ht
  simp [sim_init] at ht

theorem InvProfit_init (a b c d : Int) : InvProfit (sim_init a b c d) := by
  simp [InvProfit, sim_init, COUNT_INIT, total_nil, wrap32]

theorem InvOps_step (s : sim) (e : event) (s1 : sim) (hi : InvOps s)
    (h : step s e = some s1) : InvOps s1 := by
  cases e with
  | tick now =>
    simp only [step, Option.some.injEq] at h
    subst h
    exact hi
  | spurious =>
    simp only [step] at h
    split at h
    · cases h; exact hi
    · cases h
  | cust i =>
    simp only [step] at h
    cases ht : s.threads[i]? with
    | none => rw [ht] at h; cases h
    | some t =>
      rw [ht] at h
      have hmem := List.getElem?_mem ht
      obtain ⟨t1, hth, ho, hs, _⟩ := get_coffee_step_ops s s1 i t h (hi t hmem).1 (hi t hmem).2
      intro t2 ht2
      rw [hth] at ht2
      rcases List.mem_or_eq_of_mem_set ht2 with hm | he
      · exact hi t2 hm
      · rw [he]; exact ⟨ho, hs⟩
  | disp ok rand err =>
    simp only [step] at h
    obtain ⟨hth, _⟩ := start_day_step_frame s s1 ok rand err h
    rcases hth with hth | ⟨_, a, hth⟩
    · rw [InvOps, hth]; exact hi
    · intro t ht
      rw [hth, List.mem_append, List.mem_singleton] at ht
      rcases ht with hm | he
      · exact hi t hm
      · rw [he]; simp [ops_at]

theorem InvProfit_step (A : day_args) (s : sim) (e : event) (s1 : sim) (hD : InvD A s)
    (ho : InvOps s) (hi : InvProfit s) (h : step s e = some s1) : InvProfit s1 := by
  cases e with
  | tick now =>
    simp only [step, Option.some.injEq] at h
    subst h
    exact hi
  | spurious =>
    simp only [step] at h
    split at h
    · cases h; exact hi
    · cases h
  | cust i =>
    simp only [step] at h
    cases ht : s.threads[i]? with
    | none => rw [ht] at h; cases h
    | some t =>
      rw [ht] at h
      have hmem := List.getElem?_mem ht
      obtain ⟨t1, hth, _, _, hp⟩ := get_coffee_step_ops s s1 i t h (ho t hmem).1 (ho t hmem).2
      unfold InvProfit at hi ⊢
      rw [hth, total_set _ _ _ _ _ ht]
      rcases hp with ⟨hp1, hp2⟩ | hp
      · rw [hp1, hi, hp2]; congr 1; ring
      · rw [hp, hi, wrap32_add_left]; congr 1; ring
  | disp ok rand err =>
    simp only [step] at h
    obtain ⟨hth, hg, _⟩ := start_day_step_frame s s1 ok rand err h
    unfold InvProfit at hi ⊢
    rcases hg with hg | ⟨hpc, hg⟩
    · rcases hth with hth | ⟨_, a, hth⟩
      · rw [hg, hth]; exact hi
      · rw [hg, hth, total_append, hi]; simp [paid]
    · have hnt := InvD_no_threads A s hD (Or.inl hpc)
      rcases hth with hth | ⟨hc, _⟩
      · rw [hg, hth, hnt, total_nil]; simp [wrap32]
      · rw [hpc] at hc; cases hc

/-! ## The result tables -/

theorem total_le_length {α : Type} (f : α → Int) (hf : ∀ t, f t ≤ 1) (l : List α) :
    total f l ≤ l.length := by
  induction l with
  | nil => simp [total]
  | cons a l ih =>
    have h : total f (a :: l) = f a + total f l := by simp [total]
    rw [h]
    have := hf a
    simp only [List.length_cons, Nat.cast_add, Nat.cast_one]
    omega

theorem total_nonneg {α : Type} (f : α → Int) (hf : ∀ t, 0 ≤ f t) (l : List α) :
    0 ≤ total f l := by
  induction l with
  | nil => simp [total]
  | cons a l ih =>
    have h : total f (a :: l) = f a + total f l := by simp [total]
    rw [h]
    have := hf a
    omega

theorem InvD_length_le (A : day_args) (hA : A.n_customers ≤ INT_MAX) (s : sim)
    (hD : InvD A s) : (s.threads.length : Int) ≤ 2147483647 := by
  have h1 := hD.len
  have h2 := hD.le
  have h3 := hD.lt
  unfold INT_MAX at hA
  by_cases hpc : s.disp.pc = dpc.inc
  · have := h3 (Or.inr hpc)
    rw [if_pos hpc] at h1
    omega
  · rw [if_neg hpc] at h1
    omega

theorem slots_in_order_append (table : List (Int × Int)) (v : Int)
    (h : slots_in_order table) : slots_in_order (table ++ [((table.length : Int), v)]) := by
  unfold slots_in_order at h ⊢
  simp [List.range_succ, h]

/-- What one step of a customer does to the counts and the tables of the two kinds. -/
theorem get_coffee_step_tables (s s1 : sim) (i : Nat) (t : cthread)
    (h : get_coffee_step s i t = some s1) :
    ∃ t1, s1.threads = s.threads.set i t1 ∧
      ((s1.simple_count = s.simple_count ∧ s1.simple_times = s.simple_times ∧
          s1.complex_count = s.complex_count ∧ s1.complex_times = s.complex_times ∧
          recS t1 = recS t ∧ recC t1 = recC t ∧
          (t.pc = cpc.record → t.addict.order_cost ≠ ACOST_SIMPLE ∧
            t.addict.order_cost ≠ ACOST_COMPLEX)) ∨
        (t.pc = cpc.record ∧ t.addict.order_cost = ACOST_SIMPLE ∧
          s1.simple_count.val = wrap32 (s.simple_count.val + 1) ∧
          s1.simple_times = s.simple_times ++
            [(s.simple_count.val, timer_us t.addict.start s.clock)] ∧
          s1.complex_count = s.complex_count ∧ s1.complex_times = s.complex_times ∧
          recS t1 = recS t + 1 ∧ recC t1 = recC t) ∨
        (t.pc = cpc.record ∧ t.addict.order_cost = ACOST_COMPLEX ∧
          s1.complex_count.val = wrap32 (s.complex_count.val + 1) ∧
          s1.complex_times = s.complex_times ++
            [(s.complex_count.val, timer_us t.addict.start s.clock)] ∧
          s1.simple_count = s.simple_count ∧ s1.simple_times = s.simple_times ∧
          recC t1 = recC t + 1 ∧ recS t1 = recS t)) := by
  cases hpc : t.pc
  case record =>
    simp only [get_coffee_step, hpc] at h
    split at h
    · rename_i hc
      cases h
      refine ⟨_, rfl, Or.inr (Or.inl ⟨rfl, hc, rfl, rfl, rfl, rfl, ?_, ?_⟩)⟩
      · simp [recS, cpc.recorded, hpc, hc]
      · simp [recC, cpc.recorded, hpc, hc, ACOST_SIMPLE, ACOST_COMPLEX]
    · split at h
      · rename_i hs hc
        cases h
        refine ⟨_, rfl, Or.inr (Or.inr ⟨rfl, hc, rfl, rfl, rfl, rfl, ?_, ?_⟩)⟩
        · simp [recC, cpc.recorded, hpc, hc]
        · simp [recS, cpc.recorded, hpc, hs]
      · rename_i hs hc
        cases h
        refine ⟨_, rfl, Or.inl ⟨rfl, rfl, rfl, rfl, ?_, ?_, fun _ => ⟨hs, hc⟩⟩⟩
        · simp only [recS, hpc]
          rw [if_neg (fun x => hs x.1), if_neg (fun x => hs x.1)]
        · simp only [recC, hpc]
          rw [if_neg (fun x => hc x.1), if_neg (fun x => hc x.1)]
  all_goals
    simp only [get_coffee_step, hpc] at h
    repeat' split at h
    all_goals cases h
    all_goals refine ⟨_, rfl, Or.inl ⟨rfl, rfl, rfl, rfl, ?_, ?_, ?_⟩⟩
    all_goals simp [recS, recC, cpc.recorded, hpc, serve]

theorem recS_le (t : cthread) : recS t ≤ 1 := by
  unfold recS; split <;> decide

theorem recC_le (t : cthread) : recC t ≤ 1 := by
  unfold recC; split <;> decide

theorem InvTab_init (a b c d : Int) : InvTab (sim_init a b c d) := by
  constructor <;> simp [sim_init, COUNT_INIT, slots_in_order, total_nil]

theorem InvTab_step (A : day_args) (hA : A.n_customers ≤ INT_MAX) (s : sim) (e : event)
    (s1 : sim) (hD : InvD A s) (hi : InvTab s) (h : step s e = some s1) : InvTab s1 := by
  obtain ⟨h1, h2, h3, h4, h5, h6⟩ := hi
  cases e with
  | tick now =>
    simp only [step, Option.some.injEq] at h
    subst h
    exact ⟨h1, h2, h3, h4, h5, h6⟩
  | spurious =>
    simp only [step] at h
    split at h
    · cases h; exact ⟨h1, h2, h3, h4, h5, h6⟩
    · cases h
  | cust i =>
    simp only [step] at h
    cases ht : s.threads[i]? with
    | none => rw [ht] at h; cases h
    | some t =>
      rw [ht] at h
      have hlen := InvD_length_le A hA s hD
      obtain ⟨t1, hth, hcase⟩ := get_coffee_step_tables s s1 i t h
      have hS := total_le_length recS recS_le (s.threads.set i t1)
      have hC := total_le_length recC recC_le (s.threads.set i t1)
      rw [total_set _ _ _ _ _ ht, List.length_set] at hS hC
      rcases hcase with ⟨e1, e2, e3, e4, e5, e6, _⟩ | ⟨_, _, e1, e2, e3, e4, e5, e6⟩ |
        ⟨_, _, e1, e2, e3, e4, e5, e6⟩
      · refine ⟨?_, ?_, ?_, ?_, ?_, ?_⟩
        · rw [e1, e2]; exact h1
        · rw [e2]; exact h2
        · rw [e2, hth, total_set _ _ _ _ _ ht, e5]; omega
        · rw [e3, e4]; exact h4
        · rw [e4]; exact h5
        · rw [e4, hth, total_set _ _ _ _ _ ht, e6]; omega
      · refine ⟨?_, ?_, ?_, ?_, ?_, ?_⟩
        · rw [e1, e2, wrap32_of_range] <;>
            (try simp only [List.length_append, List.length_singleton, Nat.cast_add,
              Nat.cast_one]) <;> omega
        · rw [e2, h1]; exact slots_in_order_append _ _ h2
        · rw [e2, hth, total_set _ _ _ _ _ ht, e5]
          simp only [List.length_append, List.length_singleton, Nat.cast_add, Nat.cast_one]
          omega
        · rw [e3, e4]; exact h4
        · rw [e4]; exact h5
        · rw [e4, hth, total_set _ _ _ _ _ ht, e6]; omega
      · refine ⟨?_, ?_, ?_, ?_, ?_, ?_⟩
        · rw [e3, e4]; exact h1
        · rw [e4]; exact h2
        · rw [e4, hth, total_set _ _ _ _ _ ht, e6]; omega
        · rw [e1, e2, wrap32_of_range] <;>
            (try simp only [List.length_append, List.length_singleton, Nat.cast_add,
              Nat.cast_one]) <;> omega
        · rw [e2, h4]; exact slots_in_order_append _ _ h5
        · rw [e2, hth, total_set _ _ _ _ _ ht, e5]
          simp only [List.length_append, List.length_singleton, Nat.cast_add, Nat.cast_one]
          omega
  | disp ok rand err =>
    simp only [step] at h
    obtain ⟨hth, _, e1, e2, e3, e4⟩ := start_day_step_frame s s1 ok rand err h
    rcases hth with hth | ⟨_, a, hth⟩
    · exact ⟨by rw [e1, e3]; exact h1, by rw [e3]; exact h2, by rw [e3, hth]; exact h3,
        by rw [e2, e4]; exact h4, by rw [e4]; exact h5, by rw [e4, hth]; exact h6⟩
    · refine ⟨by rw [e1, e3]; exact h1, by rw [e3]; exact h2, ?_,
        by rw [e2, e4]; exact h4, by rw [e4]; exact h5, ?_⟩
      · rw [e3, hth, total_append, h3]; simp [recS, cpc.recorded]
      · rw [e4, hth, total_append, h6]; simp [recC, cpc.recorded]

/-! ## The completion barrier -/

theorem decd_le (t : cthread) : decd t ≤ 1 := by
  unfold decd; split <;> decide

theorem decd_nonneg (t : cthread) : 0 ≤ decd t := by
  unfold decd; split <;> decide

theorem decd_all (l : List cthread) (h : (l.length : Int) ≤ total decd l) :
    ∀ t ∈ l, t.pc.decremented = true := by
  induction l with
  | nil => intro t ht; cases ht
  | cons a l ih =>
    have h1 : total decd (a :: l) = decd a + total decd l := by simp [total]
    have h2 := total_le_length decd decd_le l
    have h3 := decd_le a
    rw [h1] at h
    simp only [List.length_cons, Nat.cast_add, Nat.cast_one] at h
    intro t ht
    rcases List.mem_cons.1 ht with e | hm
    · rw [e]
      by_contra hn
      have : decd a = 0 := by unfold decd; rw [if_neg hn]
      omega
    · exact ih (by omega) t hm

theorem total_decd_of_all (l : List cthread) (h : ∀ t ∈ l, t.pc.decremented = true) :
    total decd l = l.length := by
  induction l with
  | nil => rfl
  | cons a l ih =>
    have h1 : total decd (a :: l) = decd a + total decd l := by simp [total]
    have h2 : decd a = 1 := by
      unfold decd; rw [if_pos (h a (List.mem_cons_self _ _))]
    rw [h1, h2, ih (fun t ht => h t (List.mem_cons_of_mem _ ht))]
    simp only [List.length_cons, Nat.cast_add, Nat.cast_one]
    ring

theorem mem_set_of_ne {α : Type} (l : List α) (i : Nat) (t x y : α) (h : l[i]? = some t)
    (hy : y ∈ l) (hne : y ≠ t) : y ∈ l.set i x := by
  obtain ⟨k, hk⟩ := List.mem_iff_getElem?.1 hy
  have hki : i ≠ k := by
    intro e
    rw [e] at h
    rw [h] at hk
    exact hne (Option.some.inj hk).symm
  exact List.mem_iff_getElem?.2 ⟨k, by rw [List.getElem?_set, if_neg hki]; exact hk⟩

theorem mem_set_self {α : Type} (l : List α) (i : Nat) (t x : α) (h : l[i]? = some t) :
    x ∈ l.set i x := by
  have hi : i < l.length := by
    rcases List.getElem?_eq_some.1 h with ⟨hi, _⟩
    exact hi
  exact List.mem_iff_getElem?.2 ⟨i, by rw [List.getElem?_set, if_pos rfl, if_pos hi]⟩

/-- What one step of a customer does to the count of running threads and to the pending
wake-up. -/
theorem get_coffee_step_barrier (s s1 : sim) (i : Nat) (t : cthread)
    (h : get_coffee_step s i t = some s1) :
    ∃ t1, s1.threads = s.threads.set i t1 ∧
      ((t.pc ≠ cpc.signal ∧ t1.pc ≠ cpc.signal ∧ decd t = 0 ∧ decd t1 = 0 ∧
          s1.running_threads = s.running_threads ∧ s1.woken = s.woken) ∨
        (t.pc = cpc.dec ∧ t1.pc = cpc.signal ∧ decd t = 0 ∧ decd t1 = 1 ∧
          s1.running_threads.val = wrap32 (s.running_threads.val - 1) ∧ s1.woken = s.woken) ∨
        (t.pc = cpc.signal ∧ t1.pc = cpc.exited ∧ decd t = 1 ∧ decd t1 = 1 ∧
          s1.running_threads = s.running_threads ∧
          (s.running_threads.val = 0 ∧ s.disp.pc = dpc.waiting → s1.woken = true) ∧
          (¬(s.running_threads.val = 0 ∧ s.disp.pc = dpc.waiting) → s1.woken = s.woken))) := by
  cases hpc : t.pc
  case dec =>
    simp only [get_coffee_step, hpc] at h
    cases h
    exact ⟨_, rfl, Or.inr (Or.inl ⟨rfl, rfl, by simp [decd, cpc.decremented, hpc],
      by simp [decd, cpc.decremented], rfl, rfl⟩)⟩
  case signal =>
    simp only [get_coffee_step, hpc] at h
    split at h
    · rename_i hc
      cases h
      exact ⟨_, rfl, Or.inr (Or.inr ⟨rfl, rfl, by simp [decd, cpc.decremented, hpc],
        by simp [decd, cpc.decremented], rfl, fun _ => rfl, fun hn => absurd hc hn⟩)⟩
    · rename_i hc
      cases h
      exact ⟨_, rfl, Or.inr (Or.inr ⟨rfl, rfl, by simp [decd, cpc.decremented, hpc],
        by simp [decd, cpc.decremented], rfl, fun hn => absurd hn hc, fun _ => rfl⟩)⟩
  all_goals
    simp only [get_coffee_step, hpc] at h
    repeat' split at h
    all_goals cases h
    all_goals refine ⟨_, rfl, Or.inl ⟨by simp, ?_, ?_, ?_, rfl, rfl⟩⟩
    all_goals simp [decd, cpc.decremented, hpc]

theorem decd_of_decremented (t : cthread) (h : t.pc.decremented = true) : decd t = 1 := by
  unfold decd; rw [if_pos h]

theorem InvBar_init (a b c d : Int) : InvBar (sim_init a b c d) := by
  constructor <;> simp [sim_init, COUNT_INIT, total_nil]

theorem InvBar_step (A : day_args) (hA : A.n_customers ≤ INT_MAX) (s : sim) (e : event)
    (s1 : sim) (hD : InvD A s) (hi : InvBar s) (h : step s e = some s1) : InvBar s1 := by
  obtain ⟨h1, h2, h3⟩ := hi
  have hlen := InvD_length_le A hA s hD
  have hdl := total_le_length decd decd_le s.threads
  have hd0 := total_nonneg decd decd_nonneg s.threads
  have hDlen := hD.len
  have hDnn := hD.nonneg
  have hDle := hD.le
  have hDlt := hD.lt
  have hDpre := hD.pre
  unfold INT_MAX at hA
  cases e with
  | tick now =>
    simp only [step, Option.some.injEq] at h
    subst h
    exact ⟨h1, h2, h3⟩
  | spurious =>
    simp only [step] at h
    split at h
    · rename_i hpc
      cases h
      refine ⟨h1, ?_, ?_⟩
      · intro hp; simp at hp
      · intro hp; simp at hp
    · cases h
  | cust i =>
    simp only [step] at h
    cases ht : s.threads[i]? with
    | none => rw [ht] at h; cases h
    | some t =>
      rw [ht] at h
      have hmem := List.getElem?_mem ht
      obtain ⟨hd, _⟩ := get_coffee_step_frame s s1 i t h
      obtain ⟨t1, hth, hcase⟩ := get_coffee_step_barrier s s1 i t h
      rcases hcase with ⟨e1, e2, e3, e4, e5, e6⟩ | ⟨e1, e2, e3, e4, e5, e6⟩ |
        ⟨e1, e2, e3, e4, e5, e6, e7⟩
      · refine ⟨?_, ?_, ?_⟩
        · rw [e5, hd, hth, total_set _ _ _ _ _ ht, h1]; omega
        · rw [hd]
          intro hp
          have := decd_of_decremented t (h2 hp t hmem)
          omega
        · rw [hd, e6, e5, hth]
          intro hp hw
          rcases h3 hp hw with hv | ⟨t2, ht2, hs2⟩
          · exact Or.inl hv
          · exact Or.inr ⟨t2, mem_set_of_ne _ _ _ _ _ ht ht2
              (fun e => e1 (e ▸ hs2)), hs2⟩
      · refine ⟨?_, ?_, ?_⟩
        · rw [e5, hd, hth, total_set _ _ _ _ _ ht, wrap32_of_range] <;> omega
        · rw [hd]
          intro hp
          have := decd_of_decremented t (h2 hp t hmem)
          omega
        · rw [hd, e6, hth]
          intro hp hw
          exact Or.inr ⟨t1, mem_set_self _ _ _ _ ht, e2⟩
      · refine ⟨?_, ?_, ?_⟩
        · rw [e5, hd, hth, total_set _ _ _ _ _ ht, h1]; omega
        · rw [hd, hth]
          intro hp t2 ht2
          rcases List.mem_or_eq_of_mem_set ht2 with hm | he
          · exact h2 hp t2 hm
          · rw [he, e2]; rfl
        · rw [hd, e5, hth]
          intro hp hw
          left
          by_cases hv : s.running_threads.val = 0
          · rw [e6 ⟨hv, hp⟩] at hw; cases hw
          · rw [hp] at hDlen
            simp only [reduceCtorEq, if_false, add_zero] at hDlen
            omega
  | disp ok rand err =>
    simp only [step] at h
    cases hpc : s.disp.pc <;> simp only [start_day_step, hpc] at h <;> (repeat' split at h) <;>
      cases h <;> simp only [hpc] at h2 h3 hDlen hDlt hDpre <;> refine ⟨?_, ?_, ?_⟩ <;>
      simp_all <;>
      first
      | (rw [total_append]; simp [decd, cpc.decremented])
      | (simp only [count_inc]; rw [wrap32_of_range, wrap32_of_range] <;> omega)
      | exact decd_all _ (by omega)

/-! ## All the invariants together -/

theorem start_day_call_n_customers (a b c d : Int) :
    (start_day_call a b c d).n_customers = a := by
  unfold start_day_call; split <;> rfl

theorem Inv_of_Reachable (a b c d : Int) (ha : a ≤ INT_MAX) (s : sim)
    (hr : Reachable a b c d s) : Inv (start_day_call a b c d) s := by
  have hA : (start_day_call a b c d).n_customers ≤ INT_MAX := by
    rw [start_day_call_n_customers]; exact ha
  refine Reachable_invariant a b c d (Inv (start_day_call a b c d)) ?_ ?_ s hr
  · exact ⟨InvD_init a b c d, InvSem_init a b c d, InvOps_init a b c d, InvProfit_init a b c d,
      InvTab_init a b c d, InvBar_init a b c d⟩
  · intro s e s1 hi h
    exact ⟨InvD_step _ hA s e s1 hi.d h, InvSem_step _ s e s1 hi.d hi.sem h,
      InvOps_step s e s1 hi.ops h, InvProfit_step _ s e s1 hi.d hi.ops hi.profit h,
      InvTab_step _ hA s e s1 hi.d hi.tab h, InvBar_step _ hA s e s1 hi.d hi.bar h⟩

theorem capacity_of_init_server (C : Nat) (ok : Bool) (srv : server) (hC : C < 4294967296)
    (h : init_server C ok = some srv) :
    1 ≤ C ∧ capacity srv = C ∧ (C ≤ SEM_VALUE_MAX → srv.service_sem = some C) ∧
      (SEM_VALUE_MAX < C → srv.service_sem = none) := by
  have hsem := init_server_sem C ok srv h
  rw [init_server_eq] at h
  by_cases hn : C = 0
  · rw [if_pos hn] at h; exact Option.noConfusion h
  · rw [if_neg hn] at h
    by_cases hok : ok = false
    · rw [if_pos hok] at h; exact Option.noConfusion h
    · rw [if_neg hok] at h
      have h1 := Option.some.inj h
      have hcap : capacity srv = C := by
        rw [← h1, capacity_mk, toUnsigned_wrap32 C hC]
      refine ⟨Nat.one_le_iff_ne_zero.2 hn, hcap, ?_, ?_⟩
      · intro hle
        rw [hsem, hcap]
        exact sem_init_of_le C hle
      · intro hgt
        rw [hsem, hcap]
        exact sem_init_of_gt C hgt

/-! ## The claims on the service points and the customers -/

theorem paid_of_ops_exited (t : cthread) (h : t.ops = ops_at t.addict cpc.exited) :
    paid t = t.addict.order_cost := by
  unfold paid
  rw [h]
  cases hn : t.addict.next <;> simp [ops_at, hn, op.revenue]

theorem total_paid_by_kind (l : List cthread)
    (h : ∀ t ∈ l, paid t = t.addict.order_cost ∧
      (t.addict.order_cost = ACOST_SIMPLE ∨ t.addict.order_cost = ACOST_COMPLEX)) :
    total paid l = 200 * (l.countP (fun t => t.addict.order_cost = ACOST_SIMPLE) : Int) +
      450 * (l.countP (fun t => t.addict.order_cost = ACOST_COMPLEX) : Int) := by
  induction l with
  | nil => simp [total]
  | cons a l ih =>
    have h1 : total paid (a :: l) = paid a + total paid l := by simp [total]
    have ha := h a (List.mem_cons_self _ _)
    rw [h1, ih (fun t ht => h t (List.mem_cons_of_mem _ ht)), ha.1, List.countP_cons,
      List.countP_cons]
    rcases ha.2 with hc | hc <;> rw [hc] <;> simp [ACOST_SIMPLE, ACOST_COMPLEX] <;> ring

theorem count_pay_exited (t : cthread) (h : t.ops = ops_at t.addict cpc.exited) :
    t.ops.count (op.pay t.addict.order_cost) = 1 ∧
      ∀ amount, op.pay amount ∈ t.ops → amount = t.addict.order_cost := by
  rw [h]
  cases hn : t.addict.next <;> simp [ops_at, hn, List.count_cons]

/-- C5, revenue conservation, as the code has it.  In every state a run of `start_day` reaches
(both topologies, `n_customers` being an `int`) in which all the customers created have left
`get_coffee`: every customer has paid exactly once, the amount being its `order_cost`; and
`gl_profit.val` is `200 * (simple customers) + 450 * (complex customers)` reduced to an `int`,
hence equal to that sum when the sum is at most `INT_MAX`. -/
theorem revenue_conservation (n_customers n_selfserve n_barista n_cashier : Int) (s : sim)
    (hN : n_customers ≤ INT_MAX)
    (hr : Reachable n_customers n_selfserve n_barista n_cashier s) (hx : all_exited s) :
    (∀ t ∈ s.threads, t.ops.count (op.pay t.addict.order_cost) = 1 ∧
      ∀ amount, op.pay amount ∈ t.ops → amount = t.addict.order_cost) ∧
    s.gl_profit.val = wrap32 (200 * (n_simple s : Int) + 450 * (n_complex s : Int)) ∧
    (200 * (n_simple s : Int) + 450 * (n_complex s : Int) ≤ INT_MAX →
      s.gl_profit.val = 200 * (n_simple s : Int) + 450 * (n_complex s : Int)) := by
  have hi := Inv_of_Reachable _ _ _ _ hN s hr
  have hops : ∀ t ∈ s.threads, t.ops = ops_at t.addict cpc.exited := by
    intro t ht
    have := (hi.ops t ht).1
    rw [hx t ht] at this
    exact this
  have htot := total_paid_by_kind s.threads
    (fun t ht => ⟨paid_of_ops_exited t (hops t ht), hi.d.kinds t ht⟩)
  have hp : s.gl_profit.val = wrap32 (200 * (n_simple s : Int) + 450 * (n_complex s : Int)) := by
    have := hi.profit
    unfold InvProfit at this
    rw [this, htot]
    rfl
  refine ⟨fun t ht => count_pay_exited t (hops t ht), hp, ?_⟩
  intro hle
  rw [hp]
  unfold INT_MAX at hle
  apply wrap32_of_range
  · have h1 : (0 : Int) ≤ (n_simple s : Int) := Int.ofNat_nonneg _
    have h2 : (0 : Int) ≤ (n_complex s : Int) := Int.ofNat_nonneg _
    omega
  · exact hle

/-- The day `demo_day`, one simple and one complex customer served by one barista, ends with
a revenue of 650 cents. -/
theorem revenue_conservation_witness :
    ∃ s, run (sim_init 2 0 1 0) demo_day = some s ∧ all_exited s ∧
      n_simple s = 1 ∧ n_complex s = 1 ∧ s.gl_profit.val = 650 ∧
      s.disp.result = some 650 ∧
      s.gl_profit.val = wrap32 (200 * (n_simple s : Int) + 450 * (n_complex s : Int)) :=
  ⟨_, rfl, by decide, by decide, by decide, by decide, by decide,
    (revenue_conservation 2 0 1 0 _ (by decide) ⟨demo_day, rfl⟩ (by decide)).2.1⟩

/-- The revenue is an `int`: a payment of 450 cents on a revenue of 2147483250 cents (what
4772185 complex orders leave in `gl_profit`) does not add 450, the sum 2147483700 does not fit
and `gl_profit.val` becomes negative. -/
theorem revenue_conservation_counterexample :
    (pay { order_time := ATIME_COMPLEX, order_cost := ACOST_COMPLEX, caffeinated := 1,
           server := some 0, next := none, start := ⟨0, 0⟩, finish := ⟨0, 0⟩ }
        { val := 450 * 4772185 }).val = -2147483596 ∧
    (-2147483596 : Int) ≠ 450 * 4772185 + 450 := by
  decide

theorem total_eq_zero {α : Type} (f : α → Int) (l : List α) (h : ∀ t ∈ l, f t = 0) :
    total f l = 0 := by
  induction l with
  | nil => rfl
  | cons a l ih =>
    have h1 : total f (a :: l) = f a + total f l := by simp [total]
    rw [h1, h a (List.mem_cons_self _ _), ih (fun t ht => h t (List.mem_cons_of_mem _ ht))]
    rfl

theorem count_sem_exited (t : cthread) (p : Nat) (hp : t.addict.server = some p)
    (h : t.ops = ops_at t.addict cpc.exited) (j : Nat) :
    t.ops.count (op.sem_post j) = t.ops.count (op.sem_wait j) ∧
      t.ops.count (op.sem_wait j) =
        (if j = p then 1 else 0) + (if t.addict.next = some j then 1 else 0) := by
  rw [h]
  cases hn : t.addict.next with
  | none =>
    simp only [ops_at, hn, hp, Option.getD_some]
    by_cases hj : j = p
    · subst hj; simp [List.count_cons]
    · have hj2 : p ≠ j := fun e => hj e.symm
      simp [List.count_cons, hj, hj2]
  | some q =>
    simp only [ops_at, hn, hp, Option.getD_some]
    by_cases hj : j = p <;> by_cases hq : j = q
    · subst hj; subst hq; simp [List.count_cons]
    · subst hj
      have hq2 : q ≠ j := fun e => hq e.symm
      simp [List.count_cons, hq, hq2]
    · subst hq
      have hj2 : p ≠ j := fun e => hj e.symm
      simp [List.count_cons, hj, hj2]
    · have hj2 : p ≠ j := fun e => hj e.symm
      have hq2 : q ≠ j := fun e => hq e.symm
      simp [List.count_cons, hj, hj2, hq, hq2]

/-- C8, token conservation, as the code has it.  In every state a run of `start_day` reaches
(`n_customers` being an `int`): a customer that has left `get_coffee` has performed, on every
server, as many `sem_post` as `sem_wait`, namely one of each on its primary server, one of
each on its secondary server when it has one, and none on any other server; and once all the
customers created have left `get_coffee`, the semaphore of every server of a capacity up to
`SEM_VALUE_MAX` is back at its capacity. -/
theorem token_conservation (n_customers n_selfserve n_barista n_cashier : Int) (s : sim)
    (hN : n_customers ≤ INT_MAX)
    (hr : Reachable n_customers n_selfserve n_barista n_cashier s) :
    (∀ t ∈ s.threads, t.pc = cpc.exited → ∃ p, t.addict.server = some p ∧ ∀ j,
      t.ops.count (op.sem_post j) = t.ops.count (op.sem_wait j) ∧
      t.ops.count (op.sem_wait j) =
        (if j = p then 1 else 0) + (if t.addict.next = some j then 1 else 0)) ∧
    (all_exited s → ∀ (j : Nat) (srv : server), s.servers[j]? = some srv →
      capacity srv ≤ SEM_VALUE_MAX → srv.service_sem = some (capacity srv)) := by
  have hi := Inv_of_Reachable _ _ _ _ hN s hr
  constructor
  · intro t ht hx
    obtain ⟨ho, hs⟩ := hi.ops t ht
    rw [hx] at ho
    have hsome := hs (by rw [hx]; decide)
    obtain ⟨p, hp⟩ := Option.isSome_iff_exists.1 hsome
    exact ⟨p, hp, fun j => count_sem_exited t p hp ho j⟩
  · intro hx j srv hj hc
    obtain ⟨hini, htok⟩ := hi.sem j srv hj
    have h2 : total (hold j) s.threads = 0 := by
      apply total_eq_zero
      intro t ht
      simp [hold, holding, hx t ht, cpc.in_primary, cpc.in_secondary]
    cases hv : srv.service_sem with
    | none => exact absurd hv (hini hc)
    | some v =>
      have h1 := htok v hv
      rw [h2] at h1
      have h3 : v = capacity srv := by omega
      rw [h3]

/-- In the day `demo_day` both customers end with one `sem_wait` and one `sem_post` on
server 0, and the semaphore of server 0 ends at its capacity, one. -/
theorem token_conservation_witness :
    ∃ s srv, run (sim_init 2 0 1 0) demo_day = some s ∧ s.servers[0]? = some srv ∧
      all_exited s ∧ srv.service_sem = some 1 ∧ srv.service_sem = some (capacity srv) ∧
      (∀ t ∈ s.threads, t.ops.count (op.sem_wait 0) = 1 ∧ t.ops.count (op.sem_post 0) = 1) :=
  ⟨_, _, rfl, rfl, by decide, rfl,
    (token_conservation 2 0 1 0 _ (by decide) ⟨demo_day, rfl⟩).2 (by decide) 0 _ rfl
      (by decide),
    by decide⟩

/-- C8, the claim as written fails: in the day `demo_uninit`, `start_day(1, 1, 1000000000,
1)`, the self-serve pool is created by `init_server(3000000000)`, for which `sem_init` fails;
the one customer runs `get_coffee` to its end and `start_day` returns, and the semaphore of
the self-serve pool, of capacity 3000000000, has no value: its token count is not its
capacity. -/
theorem token_conservation_counterexample :
    ∃ s srv, run (sim_init 1 1 1000000000 1) demo_uninit = some s ∧
      s.disp.pc = dpc.done ∧ s.threads.length = 1 ∧ all_exited s ∧
      s.servers[1]? = some srv ∧ s.disp.selfserve = some 1 ∧
      capacity srv = 3000000000 ∧ srv.service_sem = none ∧
      srv.service_sem ≠ some (capacity srv) :=
  ⟨_, _, rfl, rfl, rfl, by decide, rfl, rfl, by decide, rfl, by decide⟩

theorem total_indicator (p : cthread → Bool) (f : cthread → Int) (l : List cthread)
    (hf : ∀ t ∈ l, f t = if p t = true then 1 else 0) : total f l = l.countP p := by
  induction l with
  | nil => rfl
  | cons a l ih =>
    have h : total f (a :: l) = f a + total f l := by simp [total]
    rw [h, ih (fun t ht => hf t (List.mem_cons_of_mem _ ht)), hf a (List.mem_cons_self _ _),
      List.countP_cons]
    split <;> simp_all <;> ring

theorem InvD_length_le_n (A : day_args) (s : sim) (hD : InvD A s) :
    (s.threads.length : Int) ≤ A.n_customers ∨ s.threads.length = 0 := by
  have h1 := hD.len
  have h2 := hD.le
  have h3 := hD.lt
  by_cases hpc : s.disp.pc = dpc.inc
  · have := h3 (Or.inr hpc)
    rw [if_pos hpc] at h1
    left; omega
  · rw [if_neg hpc] at h1
    omega

theorem slots_in_order_bound (table : List (Int × Int)) (h : slots_in_order table) :
    ∀ e ∈ table, 0 ≤ e.1 ∧ e.1 < table.length := by
  intro e he
  have h1 : e.1 ∈ table.map Prod.fst := List.mem_map_of_mem _ he
  rw [h] at h1
  obtain ⟨k, hk, hke⟩ := List.mem_map.1 h1
  rw [List.mem_range] at hk
  rw [← hke]
  exact ⟨Int.ofNat_nonneg k, Int.ofNat_lt.2 hk⟩

theorem wrap32_pos_eq (n : Nat) (hn : n < 4294967296) (h : 0 < wrap32 n) : wrap32 n = n := by
  unfold wrap32 at h ⊢; omega

/-- C6, result completeness.  In every state a run reaches when `main` calls `start_day` with
the arrival count `num_customers` (an `unsigned int`, the length of both tables): once all the
customers created have left `get_coffee`, each count is the number of customers of its kind;
at any time the stores into each table went to the slots `0 .. count - 1`, one store a slot, in
this order, and every index is below `num_customers`; and the recording step of a customer
appends its elapsed time at the index its kind's count had before the increment, and leaves
the table and the count of the other kind unchanged. -/
theorem result_completeness (num_customers : Nat) (n_selfserve n_barista n_cashier : Int)
    (s : sim) (hn : num_customers < 4294967296)
    (hr : Reachable (wrap32 num_customers) n_selfserve n_barista n_cashier s) :
    (all_exited s → s.simple_count.val = n_simple s ∧ s.complex_count.val = n_complex s) ∧
    (slots_in_order s.simple_times ∧ (s.simple_times.length : Int) = s.simple_count.val) ∧
    (slots_in_order s.complex_times ∧ (s.complex_times.length : Int) = s.complex_count.val) ∧
    (∀ e ∈ s.simple_times ++ s.complex_times, 0 ≤ e.1 ∧ e.1 < num_customers) ∧
    (∀ (i : Nat) (t : cthread) (s1 : sim), s.threads[i]? = some t → t.pc = cpc.record →
      step s (event.cust i) = some s1 →
      (t.addict.order_cost = ACOST_SIMPLE →
        s1.simple_times = s.simple_times ++
          [(s.simple_count.val, timer_us t.addict.start s.clock)] ∧
        s1.simple_count.val = s.simple_count.val + 1 ∧
        s1.complex_times = s.complex_times ∧ s1.complex_count = s.complex_count) ∧
      (t.addict.order_cost = ACOST_COMPLEX →
        s1.complex_times = s.complex_times ++
          [(s.complex_count.val, timer_us t.addict.start s.clock)] ∧
        s1.complex_count.val = s.complex_count.val + 1 ∧
        s1.simple_times = s.simple_times ∧ s1.simple_count = s.simple_count)) := by
  have hN : wrap32 num_customers ≤ INT_MAX := (wrap32_range _).2
  have hi := Inv_of_Reachable _ _ _ _ hN s hr
  have hA : (start_day_call (wrap32 num_customers) n_selfserve n_barista n_cashier).n_customers
      ≤ INT_MAX := by rw [start_day_call_n_customers]; exact hN
  have hlen := InvD_length_le_n _ s hi.d
  rw [start_day_call_n_customers] at hlen
  have hS := total_le_length recS recS_le s.threads
  have hC := total_le_length recC recC_le s.threads
  have hsn := hi.tab.sn
  have hcn := hi.tab.cn
  refine ⟨?_, ⟨hi.tab.ss, hi.tab.sc.symm⟩, ⟨hi.tab.cs, hi.tab.cc.symm⟩, ?_, ?_⟩
  · intro hx
    constructor
    · rw [hi.tab.sc, hsn]
      exact total_indicator (fun t => t.addict.order_cost = ACOST_SIMPLE) recS s.threads
        (fun t ht => by simp [recS, hx t ht, cpc.recorded])
    · rw [hi.tab.cc, hcn]
      exact total_indicator (fun t => t.addict.order_cost = ACOST_COMPLEX) recC s.threads
        (fun t ht => by simp [recC, hx t ht, cpc.recorded])
  · intro e he
    have hb : 0 ≤ e.1 ∧ (e.1 < s.simple_times.length ∨ e.1 < s.complex_times.length) := by
      rcases List.mem_append.1 he with h1 | h1
      · have := slots_in_order_bound _ hi.tab.ss e h1
        exact ⟨this.1, Or.inl this.2⟩
      · have := slots_in_order_bound _ hi.tab.cs e h1
        exact ⟨this.1, Or.inr this.2⟩
    have hpos : 0 < wrap32 num_customers := by
      rcases hlen with h1 | h1
      · omega
      · rw [h1] at hS hC; simp only [Nat.cast_zero] at hS hC; omega
    have heq := wrap32_pos_eq num_customers hn hpos
    rcases hlen with h1 | h1
    · omega
    · rw [h1] at hS hC; simp only [Nat.cast_zero] at hS hC; omega
  · intro i t s1 ht hpc hstep
    have hi1 := InvTab_step _ hA s (event.cust i) s1 hi.d hi.tab hstep
    simp only [step, ht] at hstep
    obtain ⟨t1, _, hcase⟩ := get_coffee_step_tables s s1 i t hstep
    have hne : ACOST_SIMPLE ≠ ACOST_COMPLEX := by decide
    have hsc := hi.tab.sc
    have hcc := hi.tab.cc
    have hsc1 := hi1.sc
    have hcc1 := hi1.cc
    rcases hcase with ⟨_, _, _, _, _, _, e7⟩ | ⟨_, ec, e1, e2, e3, e4, e5, e6⟩ |
      ⟨_, ec, e1, e2, e3, e4, e5, e6⟩
    · exact ⟨fun h2 => absurd h2 (e7 hpc).1, fun h2 => absurd h2 (e7 hpc).2⟩
    · refine ⟨fun _ => ⟨e2, ?_, e4, e3⟩, fun h2 => absurd (ec.symm.trans h2) hne⟩
      rw [hsc1, e2, hsc]
      simp only [List.length_append, List.length_singleton, Nat.cast_add, Nat.cast_one]
    · refine ⟨fun h2 => absurd (h2.symm.trans ec) hne, fun _ => ⟨e2, ?_, e4, e3⟩⟩
      rw [hcc1, e2, hcc]
      simp only [List.length_append, List.length_singleton, Nat.cast_add, Nat.cast_one]

/-- In the day `demo_day`, started with the arrival count 2, the simple customer stored the
value `timer_us` gives for its 3.25 s into slot 0 of `simple_times` and the complex one the
value for its 7 s into slot 0 of `complex_times`; both counts end at one. -/
theorem result_completeness_witness :
    ∃ s, run (sim_init (wrap32 (2 : Nat)) 0 1 0) demo_day = some s ∧ all_exited s ∧
      s.simple_times = [(0, 3250)] ∧ s.complex_times = [(0, 7000)] ∧
      s.simple_count.val = n_simple s ∧ s.complex_count.val = n_complex s ∧
      (∀ e ∈ s.simple_times ++ s.complex_times, 0 ≤ e.1 ∧ e.1 < ((2 : Nat) : Int)) :=
  ⟨_, rfl, by decide, by decide, by decide,
    ((result_completeness 2 0 1 0 _ (by decide) ⟨demo_day, rfl⟩).1 (by decide)).1,
    ((result_completeness 2 0 1 0 _ (by decide) ⟨demo_day, rfl⟩).1 (by decide)).2,
    (result_completeness 2 0 1 0 _ (by decide) ⟨demo_day, rfl⟩).2.2.2.1⟩

/-- C7, barrier correctness.  In every state a run of `start_day` reaches (`n_customers` being
an `int`): the dispatcher is past the loop `while(running_threads.val > 0)` only if every
customer thread created has executed its `count_dec`; when it stands at the test of that loop
and every customer has decremented, the count is zero and its next step leaves the loop; and
when it sleeps in `pthread_cond_wait` and every customer has decremented, the count is zero
and either the broadcast has reached it, so that its next step goes back to the test, or a
customer is about to test the count, and that step delivers the broadcast. -/
theorem barrier_correctness (n_customers n_selfserve n_barista n_cashier : Int) (s : sim)
    (hN : n_customers ≤ INT_MAX)
    (hr : Reachable n_customers n_selfserve n_barista n_cashier s) :
    ((s.disp.pc = dpc.free_threads ∨ s.disp.pc = dpc.ret ∨ s.disp.pc = dpc.done) →
      ∀ t ∈ s.threads, t.pc.decremented = true) ∧
    (s.disp.pc = dpc.barrier → (∀ t ∈ s.threads, t.pc.decremented = true) →
      s.running_threads.val = 0 ∧
      ∀ ok rand err, ∃ s1, step s (event.disp ok rand err) = some s1 ∧
        s1.disp.pc = dpc.free_threads) ∧
    (s.disp.pc = dpc.waiting → (∀ t ∈ s.threads, t.pc.decremented = true) →
      s.running_threads.val = 0 ∧
      ((s.woken = true ∧ ∀ ok rand err, ∃ s1, step s (event.disp ok rand err) = some s1 ∧
          s1.disp.pc = dpc.barrier) ∨
        ∃ i t, s.threads[i]? = some t ∧ t.pc = cpc.signal ∧
          ∃ s1, step s (event.cust i) = some s1 ∧ s1.woken = true)) := by
  have hi := Inv_of_Reachable _ _ _ _ hN s hr
  have hlen := hi.d.len
  have hval := hi.bar.val
  refine ⟨hi.bar.passed, ?_, ?_⟩
  · intro hpc hall
    have h0 : s.running_threads.val = 0 := by
      rw [hpc] at hlen
      simp only [reduceCtorEq, if_false, add_zero] at hlen
      rw [hval, total_decd_of_all _ hall]
      omega
    refine ⟨h0, fun ok rand err => ?_⟩
    simp only [step, start_day_step, hpc, h0]
    exact ⟨_, rfl, rfl⟩
  · intro hpc hall
    have h0 : s.running_threads.val = 0 := by
      rw [hpc] at hlen
      simp only [reduceCtorEq, if_false, add_zero] at hlen
      rw [hval, total_decd_of_all _ hall]
      omega
    refine ⟨h0, ?_⟩
    cases hw : s.woken with
    | true =>
      left
      refine ⟨rfl, fun ok rand err => ?_⟩
      simp only [step, start_day_step, hpc, hw]
      exact ⟨_, rfl, rfl⟩
    | false =>
      right
      rcases hi.bar.wake hpc hw with hv | ⟨t, ht, hs⟩
      · omega
      · obtain ⟨i, hi2⟩ := List.mem_iff_getElem?.1 ht
        refine ⟨i, t, hi2, hs, ?_⟩
        simp only [step, hi2, get_coffee_step, hs, h0, hpc]
        exact ⟨_, rfl, rfl⟩

/-- In the day `demo_day` the dispatcher has passed the barrier and both customers have
decremented the count, which is back at zero. -/
theorem barrier_correctness_witness :
    ∃ s, run (sim_init 2 0 1 0) demo_day = some s ∧ s.disp.pc = dpc.done ∧
      s.threads.length = 2 ∧ s.running_threads.val = 0 ∧
      ∀ t ∈ s.threads, t.pc.decremented = true :=
  ⟨_, rfl, rfl, rfl, rfl,
    (barrier_correctness 2 0 1 0 _ (by decide) ⟨demo_day, rfl⟩).1 (Or.inr (Or.inr rfl))⟩

/-! ## The claims on the wait queue and on `init_server` -/

theorem chain_nil_iff (m : Nat → node_t) (p : Option Nat) (l : List Nat) (h : chain m p l) :
    p = none ↔ l = [] := by
  cases l with
  | nil => exact ⟨fun _ => rfl, fun _ => h⟩
  | cons a l =>
    have h1 : p = some a := h.1
    constructor
    · intro h2; rw [h2] at h1; cases h1
    · intro h2; cases h2

/-- C9, the wait queue is a FIFO.  With the queue read as the sequence of nodes reached from
`front` along `next` (and `back` its last node): `queue_add_tail(n, q)`, for a record `n` not
already linked in the queue, appends `n` at the end of the sequence; `queue_remove_head(q)` on
a non-empty queue removes exactly the first element; hence, from an initialised head, after
any sequence of distinct records has been appended, popping the front as many times yields the
records in the order they were appended and leaves the queue empty. -/
theorem queue_fifo :
    (∀ (s : QMem) (l : List Nat) (n : Nat), IsQueue s l → n ∉ l →
      IsQueue (queue_add_tail n s) (l ++ [n])) ∧
    (∀ (s : QMem) (a : Nat) (l : List Nat), IsQueue s (a :: l) →
      ∃ s1, queue_remove_head s = some s1 ∧ s.queue.front = some a ∧ IsQueue s1 l) ∧
    (∀ (m : Nat → node_t) (q : queue_t) (ns : List Nat), ns.Nodup →
      ∃ s1, pops ns.length (add_all ns { mem := m, queue := init_queue_head q }) = some (ns, s1) ∧
        IsQueue s1 []) := by
  refine ⟨IsQueue_add_tail, IsQueue_remove_head, ?_⟩
  intro m q ns hnd
  have h0 : IsQueue { mem := m, queue := init_queue_head q } [] := ⟨rfl, rfl⟩
  have h1 := IsQueue_add_all ns _ [] h0 (by simpa using hnd)
  simp only [List.nil_append] at h1
  exact pops_IsQueue ns _ h1

/-- The records 5, 2 and 9 appended in this order to an initialised head come out in this
order. -/
theorem queue_fifo_witness :
    ∃ s1, pops 3 (add_all [5, 2, 9]
        { mem := fun _ => { next := none, prev := none },
          queue := init_queue_head { front := some 1, back := none, mutex := none } }) =
      some ([5, 2, 9], s1) ∧ IsQueue s1 [] :=
  queue_fifo.2.2 _ _ [5, 2, 9] (by decide)

/-- C10, queue emptiness invariant.  In every queue state reached from `init_queue_head` by
`queue_add_tail` (of any node) and `queue_remove_head` (on a queue with a front), `front` is
`NULL` if and only if `back` is `NULL`, which is when `queue_empty` answers yes; and when the
records added were not already linked, `front` is `NULL`, and `back` is `NULL`, if and only if
the queue holds no record. -/
theorem queue_emptiness_invariant (m0 : Nat → node_t) (q0 : queue_t) :
    (∀ s, QReach m0 q0 s → (s.queue.front = none ↔ s.queue.back = none) ∧
      (queue_empty s.queue = true ↔ s.queue.front = none)) ∧
    (∀ l s, QRun m0 q0 l s → (s.queue.front = none ↔ l = []) ∧ (s.queue.back = none ↔ l = [])) := by
  constructor
  · intro s h
    refine ⟨QReach_front_back m0 q0 s h, ?_⟩
    unfold queue_empty
    cases s.queue.front <;> simp
  · intro l s h
    obtain ⟨hc, hb⟩ := QRun_IsQueue m0 q0 l s h
    refine ⟨chain_nil_iff _ _ _ hc, ?_⟩
    rw [hb]
    exact List.getLast?_eq_none_iff

/-- After the records 1 and 2 are added and the head is removed once, the queue holds the
record 2 and neither `front` nor `back` is `NULL`. -/
theorem queue_emptiness_invariant_witness :
    ∃ s, queue_remove_head (queue_add_tail 2 (queue_add_tail 1
        { mem := fun _ => { next := none, prev := none },
          queue := init_queue_head { front := none, back := none, mutex := none } })) = some s ∧
      s.queue.front = some 2 ∧ s.queue.back = some 2 ∧
      ((s.queue.front = none ↔ [2] = []) ∧ (s.queue.back = none ↔ [2] = [])) :=
  ⟨_, rfl, rfl, rfl,
    (queue_emptiness_invariant (fun _ => { next := none, prev := none })
      { front := none, back := none, mutex := none }).2 [2] _
      (QRun.remove 1 [2] _ _
        (QRun.add 2 [1] _ (QRun.add 1 [] _ QRun.init (by decide)) (by decide)) rfl)⟩

theorem server_mk_fields (a : Int) (b : Option Nat) (c : fifo_mutex_t) :
    ({ max_service := a, service_sem := b, lock := c } : server).max_service = a ∧
    ({ max_service := a, service_sem := b, lock := c } : server).service_sem = b :=
  ⟨rfl, rfl⟩

/-- C4, zero-capacity rejection, as the code has it.  The call `init_server(0)` returns `NULL`;
and for every `max_service` from 1 to `INT_MAX`, when the allocation succeeds, `init_server`
returns a server whose `max_service` is the argument and whose semaphore starts with exactly
`max_service` tokens. -/
theorem init_server_capacity :
    (∀ ok, init_server 0 ok = none) ∧
    (∀ max_service : Nat, 1 ≤ max_service → (max_service : Int) ≤ INT_MAX →
      ∃ srv, init_server max_service true = some srv ∧ srv.max_service = max_service ∧
        srv.service_sem = some max_service) := by
  constructor
  · intro ok
    rw [init_server_eq, if_pos rfl]
  · intro n h1 h2
    unfold INT_MAX at h2
    have hn : n ≠ 0 := by omega
    refine ⟨_, by rw [init_server_eq, if_neg hn, if_neg (by decide)], ?_, ?_⟩
    · rw [(server_mk_fields _ _ _).1]
      exact wrap32_of_range _ (by omega) h2
    · rw [(server_mk_fields _ _ _).2, toUnsigned_wrap32 n (by omega)]
      exact sem_init_of_le n (by unfold SEM_VALUE_MAX; omega)

/-- The call `init_server(3)` makes a server with `max_service` 3 and three tokens. -/
theorem init_server_capacity_witness :
    ∃ srv, init_server 3 true = some srv ∧ srv.max_service = ((3 : Nat) : Int) ∧
      srv.service_sem = some 3 :=
  init_server_capacity.2 3 (by decide) (by decide)

/-- The argument is an `unsigned int` and the field an `int`: `init_server(2147483648)`
succeeds and stores `-2147483648` in `max_service`. -/
theorem init_server_capacity_counterexample :
    ∃ srv, init_server 2147483648 true = some srv ∧ srv.max_service = -2147483648 ∧
      srv.max_service ≠ ((2147483648 : Nat) : Int) :=
  ⟨_, rfl, by decide, by decide⟩

/-! ## The claims on the fair lock -/

/-- C1, evaluated on the schedule `overtake`: the two `queue_add_tail` complete in the order
thread 0, thread 1, and thread 1 is the first, and so far the only one, to return from
`fifo_mutex_lock` holding the inner mutex.  Thread 1 slept in `pthread_cond_wait` under
`if(node->prev)` and returned from it without a broadcast. -/
theorem fifo_fairness_overtaken :
    ∃ s, frun (fstate.init 2) overtake = some s ∧ s.enqueued = [0, 1] ∧ s.entered = [1] ∧
      s.mutex = some 1 ∧ s.threads.map (fun t => t.pc) = [fpc.l_mlock, fpc.critical] :=
  ⟨_, rfl, rfl, rfl, rfl, rfl⟩

/-- C2, evaluated on the schedule `barge`: thread 2 holds the inner mutex, inside its critical
section, while the front of the queue is the record of thread 1 (address 2) and the record of
thread 2 (address 3) is behind it.  Thread 2 returned from `pthread_cond_wait` without a
broadcast and took the mutex that thread 0 released. -/
theorem fifo_holder_not_front :
    ∃ s, frun (fstate.init 3) barge = some s ∧ s.mutex = some 2 ∧
      s.q.queue.front = some 2 ∧
      s.threads.map (fun t => t.node) = [some 1, some 2, some 3] ∧
      s.threads.map (fun t => t.pc) = [fpc.finished, fpc.l_reacq, fpc.critical] ∧
      s.enqueued = [0, 1, 2] ∧ s.entered = [0, 2] :=
  ⟨_, rfl, rfl, rfl, rfl, rfl, rfl, rfl⟩

/-- With no return from `pthread_cond_wait` other than on a broadcast, the schedule
`in_turn` serves the three threads in their order of arrival and leaves the queue empty. -/
theorem fifo_in_turn :
    ∃ s, frun (fstate.init 3) in_turn = some s ∧ s.enqueued = [0, 1, 2] ∧
      s.entered = [0, 1, 2] ∧ s.mutex = none ∧ s.q.queue.front = none ∧
      s.q.queue.back = none :=
  ⟨_, rfl, rfl, rfl, rfl, rfl, rfl⟩

theorem frun_invariant (P : fstate → Prop)
    (hstep : ∀ s e s1, P s → fstep s e = some s1 → P s1) :
    ∀ (es : List fevent) (s s1 : fstate), P s → frun s es = some s1 → P s1 := by
  intro es
  induction es with
  | nil =>
    intro s s1 h hr
    simp only [frun, Option.some.injEq] at hr
    exact hr ▸ h
  | cons e es ih =>
    intro s s1 h hr
    unfold frun at hr
    cases hs : fstep s e with
    | none => rw [hs] at hr; cases hr
    | some s2 =>
      rw [hs] at hr
      exact ih s2 s1 (hstep s e s2 h hs) hr

theorem InvRet_set (s : fstate) (i : Nat) (t1 : fthread) (hi : InvRet s)
    (h1 : t1.ret = 1 ∧ (t1.lock_ret = none ∨ t1.lock_ret = some 1) ∧
      (t1.unlock_ret = none ∨ t1.unlock_ret = some 1)) :
    ∀ t ∈ s.threads.set i t1, t.ret = 1 ∧ (t.lock_ret = none ∨ t.lock_ret = some 1) ∧
      (t.unlock_ret = none ∨ t.unlock_ret = some 1) := by
  intro t ht
  rcases List.mem_or_eq_of_mem_set ht with hm | he
  · exact hi t hm
  · rw [he]; exact h1

theorem InvRet_step (s : fstate) (e : fevent) (s1 : fstate) (hi : InvRet s)
    (h : fstep s e = some s1) : InvRet s1 := by
  cases e with
  | spurious i =>
    simp only [fstep] at h
    cases ht : s.threads[i]? with
    | none => rw [ht] at h; cases h
    | some t =>
      rw [ht] at h
      have h0 := hi t (List.getElem?_mem ht)
      simp only at h
      split at h
      · cases h
        exact InvRet_set s i _ hi h0
      · cases h
  | step i ok =>
    simp only [fstep] at h
    cases ht : s.threads[i]? with
    | none => rw [ht] at h; cases h
    | some t =>
      rw [ht] at h
      have h0 := hi t (List.getElem?_mem ht)
      cases hpc : t.pc
      case u_bcast =>
        simp only [fifo_step, hpc] at h
        cases h
        intro u hu
        simp only [fstate.setThread, List.mem_map] at hu
        obtain ⟨v, hv, hvu⟩ := hu
        have hv1 := InvRet_set s i { t with pc := fpc.u_nunlock } hi h0 v hv
        rw [← hvu]
        split
        · exact hv1
        · exact hv1
      all_goals
        simp only [fifo_step, hpc] at h
        repeat' split at h
        all_goals cases h
        all_goals
          refine InvRet_set s i _ hi ?_
          obtain ⟨r1, r2, r3⟩ := h0
          simp [r1, r2, r3]

/-- C13, as the code has it: in every state the threads reach, a call of `fifo_mutex_lock`
that has returned has returned 1, and so has a call of `fifo_mutex_unlock`; `ret` is set to 1
at the start and never again. -/
theorem fifo_mutex_returns_one (n : Nat) (s : fstate) (hr : FReachable n s) :
    ∀ t ∈ s.threads, (∀ r, t.lock_ret = some r → r = 1) ∧
      (∀ r, t.unlock_ret = some r → r = 1) := by
  obtain ⟨es, hes⟩ := hr
  have h0 : InvRet (fstate.init n) := by
    intro t ht
    simp only [fstate.init, List.mem_replicate] at ht
    rw [ht.2]
    simp [fthread.start]
  have hi := frun_invariant InvRet InvRet_step es _ s h0 hes
  intro t ht
  obtain ⟨_, h2, h3⟩ := hi t ht
  constructor
  · intro r hr
    rcases h2 with h | h <;> rw [h] at hr <;> cases hr
    rfl
  · intro r hr
    rcases h3 with h | h <;> rw [h] at hr <;> cases hr
    rfl

/-- In the schedule `in_turn` every thread acquires the lock and releases it, and all six
calls return 1. -/
theorem fifo_mutex_returns_one_witness :
    ∃ s, frun (fstate.init 3) in_turn = some s ∧ s.entered = [0, 1, 2] ∧
      s.threads.map (fun t => t.lock_ret) = [some 1, some 1, some 1] ∧
      s.threads.map (fun t => t.unlock_ret) = [some 1, some 1, some 1] ∧
      ∀ t ∈ s.threads, (∀ r, t.lock_ret = some r → r = 1) ∧
        (∀ r, t.unlock_ret = some r → r = 1) :=
  ⟨_, rfl, rfl, rfl, rfl, fifo_mutex_returns_one 3 _ ⟨in_turn, rfl⟩⟩

/-- C14, atomicity of a failed acquire.  In every state the threads reach, when the `malloc`
of a thread entering `fifo_mutex_lock` fails, the call returns 1, the documented failure
value, and nothing else has changed: the queue and the memory of its records, the inner
mutex, the mutexes of the records and the other threads are as before. -/
theorem failed_acquire_atomic (n : Nat) (s : fstate) (i : Nat) (t : fthread)
    (hr : FReachable n s) (ht : s.threads[i]? = some t) (hpc : t.pc = fpc.l_alloc) :
    ∃ s1, fstep s (fevent.step i false) = some s1 ∧
      s1.q = s.q ∧ s1.mutex = s.mutex ∧ s1.node_mutex = s.node_mutex ∧ s1.brk = s.brk ∧
      s1.enqueued = s.enqueued ∧ s1.entered = s.entered ∧
      s1.threads = s.threads.set i { t with pc := fpc.critical, lock_ret := some 1 } := by
  obtain ⟨es, hes⟩ := hr
  have h0 : InvRet (fstate.init n) := by
    intro t ht
    simp only [fstate.init, List.mem_replicate] at ht
    rw [ht.2]
    simp [fthread.start]
  have hi := frun_invariant InvRet InvRet_step es _ s h0 hes
  have hret := (hi t (List.getElem?_mem ht)).1
  refine ⟨s.setThread i { t with pc := fpc.critical, lock_ret := some t.ret }, ?_,
    rfl, rfl, rfl, rfl, rfl, rfl, ?_⟩
  · simp only [fstep, ht, fifo_step, hpc]
    rfl
  · simp only [fstate.setThread, hret]

/-- After the eight statements that give thread 0 the lock, with its record (address 1) at
the front, the failing call of thread 1 returns 1 and leaves the queue, the memory and the
inner mutex as they were. -/
theorem failed_acquire_atomic_witness :
    ∃ s, frun (fstate.init 2) (steps 0 8) = some s ∧ s.mutex = some 0 ∧
      s.q.queue.front = some 1 ∧ s.q.queue.back = some 1 ∧
      ∃ s1, fstep s (fevent.step 1 false) = some s1 ∧
        s1.q = s.q ∧ s1.mutex = s.mutex ∧ s1.node_mutex = s.node_mutex ∧ s1.brk = s.brk ∧
        s1.enqueued = s.enqueued ∧ s1.entered = s.entered ∧
        s1.threads = s.threads.set 1
          { fthread.start with pc := fpc.critical, lock_ret := some 1 } :=
  ⟨_, rfl, rfl, rfl, rfl,
    failed_acquire_atomic 2 _ 1 fthread.start ⟨steps 0 8, rfl⟩ rfl rfl⟩

/-! ## The order of the steps of a customer -/

/-- C11, evaluated on `start_day(1, 1, 2, 1)`, one self-serve station, two baristas and one
cashier: after the three calls of `init_server` the staffed pool `server` has one token, the
self-serve pool `selfserve` has six and the cashier pool one.  The call passes `n_barista` in
the place of the parameter `n_selfserve` and `n_selfserve` in the place of `n_barista`. -/
theorem complex_topology_swapped :
    ∃ s, run (sim_init 1 1 2 1) demo_topology = some s ∧ s.disp.pc = dpc.loop ∧
      s.disp.server = some 0 ∧ s.disp.selfserve = some 1 ∧ s.disp.cashier = some 2 ∧
      s.servers.map capacity = [1, 6, 1] ∧
      s.servers.map (fun srv => srv.service_sem) = [some 1, some 6, some 1] :=
  ⟨_, rfl, rfl, rfl, rfl, rfl, by decide, rfl⟩

/-- C15, evaluated on a day with two customers.  When `init_addict` returns `NULL` for the
second customer, after the first `pthread_create` has stored 0 in `ret`, `start_day_classic`
returns 0 and `start_day` returns the revenue 200, not a negative value; the count of running
threads was incremented once, for the customer that ran.  When `init_addict` returns `NULL`
for the first customer, `ret` is still 1 and `start_day` returns -1. -/
theorem mid_run_failure_unreported :
    (∃ s, run (sim_init 2 0 1 0) demo_nomem_second = some s ∧ s.disp.pc = dpc.done ∧
      s.threads.length = 1 ∧ s.disp.i = 1 ∧ s.running_threads.val = 0 ∧
      s.disp.ret = 0 ∧ s.disp.result = some 200) ∧
    (∃ s, run (sim_init 2 0 1 0) demo_nomem_first = some s ∧ s.disp.pc = dpc.done ∧
      s.threads.length = 0 ∧ s.running_threads.val = 0 ∧
      s.disp.ret = 1 ∧ s.disp.result = some (-1)) :=
  ⟨⟨_, rfl, rfl, rfl, rfl, rfl, rfl, rfl⟩, ⟨_, rfl, rfl, rfl, rfl, rfl, rfl⟩⟩

theorem alloc_server_classic (n : Nat) (ok : Bool) :
    ((alloc_server [] n ok).1 = none ∧ (alloc_server [] n ok).2 = []) ∨
    ((alloc_server [] n ok).1 = some 0 ∧
      ∃ srv, (alloc_server [] n ok).2 = [srv] ∧ init_server n ok = some srv) := by
  unfold alloc_server
  cases h : init_server n ok with
  | none => left; exact ⟨rfl, rfl⟩
  | some srv => right; exact ⟨rfl, srv, rfl, rfl⟩

theorem capacity_init_server_toUnsigned (x : Int) (ok : Bool) (srv : server)
    (h : init_server (toUnsigned x) ok = some srv) : capacity srv = toUnsigned x := by
  have hlt : toUnsigned x < 4294967296 := by unfold toUnsigned; omega
  exact (capacity_of_init_server _ ok srv hlt h).2.1

theorem spawn_addict_classic (d : dispatcher) (rand : Int) (ok : Bool) (a : addict)
    (hc : d.args.complex = false) (h : spawn_addict d rand ok = some a) :
    a.server = d.server ∧ a.next = none := by
  unfold spawn_addict init_addict at h
  rw [hc] at h
  simp only [Bool.false_eq_true, if_false] at h
  repeat' split at h
  all_goals cases h
  all_goals exact ⟨rfl, rfl⟩

theorem InvClassic_step (B : Int) (s : sim) (e : event) (s1 : sim) (hi : InvClassic B s)
    (h : step s e = some s1) : InvClassic B s1 := by
  obtain ⟨⟨h1, h1b⟩, ⟨h2a, h2b⟩, h3, h4, h5, h6, h7, h8⟩ := hi
  cases e with
  | tick now =>
    simp only [step, Option.some.injEq] at h
    subst h
    exact ⟨⟨h1, h1b⟩, ⟨h2a, h2b⟩, h3, h4, h5, h6, h7, h8⟩
  | spurious =>
    simp only [step] at h
    split at h
    · rename_i hpc
      cases h
      refine ⟨⟨h1, h1b⟩, ⟨by simp, by simp⟩, ?_, h4, h5, ?_, ?_, h8⟩ <;> simp
    · cases h
  | cust i =>
    simp only [step] at h
    cases ht : s.threads[i]? with
    | none => rw [ht] at h; cases h
    | some t =>
      rw [ht] at h
      have hmem := List.getElem?_mem ht
      obtain ⟨hd, t1, hth, _, hsv, hnx, _⟩ := get_coffee_step_frame s s1 i t h
      obtain ⟨_, _, htok⟩ := get_coffee_step_tokens s s1 i t h
      have hlen : s1.servers.length = s.servers.length := by
        cases hpc : t.pc <;> simp only [get_coffee_step, hpc] at h <;> (repeat' split at h) <;>
          cases h <;> simp [sim.setThread]
      have hcap : ∀ srv ∈ s1.servers, capacity srv = toUnsigned B := by
        intro srv hsrv
        obtain ⟨j, hj⟩ := List.mem_iff_getElem?.1 hsrv
        obtain ⟨srv0, hs0, hm, _⟩ := htok j srv hj
        have := h5 srv0 (List.getElem?_mem hs0)
        unfold capacity at this ⊢
        rw [hm]; exact this
      refine ⟨by rw [hd]; exact ⟨h1, h1b⟩, by rw [hd]; exact ⟨h2a, h2b⟩, ?_, by rw [hlen]; exact h4,
        hcap, by rw [hd, hlen]; exact h6, by rw [hd]; exact h7, ?_⟩
      · rw [hd]
        intro hp
        have := h3 hp
        rw [this] at hlen
        exact List.length_eq_zero.1 hlen
      · intro t2 ht2
        rw [hth] at ht2
        rw [hlen]
        rcases List.mem_or_eq_of_mem_set ht2 with hm | he
        · exact h8 t2 hm
        · rw [he, hsv, hnx]; exact h8 t hmem
  | disp ok rand err =>
    simp only [step] at h
    cases hpc : s.disp.pc
    case mk_server =>
      simp only [start_day_step, hpc, h1, h1b] at h
      have hs0 := h3 (Or.inr (Or.inr hpc))
      rw [hs0] at h
      have hnt : s.threads = [] := by
        cases hth : s.threads with
        | nil => rfl
        | cons t l =>
          have := (h8 t (by rw [hth]; exact List.mem_cons_self _ _)).2.2
          rw [hs0] at this; cases this
      rcases alloc_server_classic (toUnsigned B) ok with ⟨e1, e2⟩ | ⟨e1, srv, e2, e3⟩
      · simp only [Bool.false_eq_true, if_false, e1, e2, if_true] at h
        cases h
        refine ⟨⟨h1, h1b⟩, ⟨by simp, by simp⟩, by simp, by simp, by simp, by simp, by simp, ?_⟩
        intro t ht
        rw [hnt] at ht; cases ht
      · simp only [Bool.false_eq_true, if_false, e1, e2, reduceCtorEq] at h
        cases h
        refine ⟨⟨h1, h1b⟩, ⟨by simp, by simp⟩, by simp, by simp, ?_, by simp, by simp, ?_⟩
        · intro srv1 hs1
          simp only [List.mem_singleton] at hs1
          rw [hs1]
          exact capacity_init_server_toUnsigned B ok srv e3
        · intro t ht
          rw [hnt] at ht; cases ht
    case mk_selfserve => exact absurd hpc h2a
    case mk_cashier => exact absurd hpc h2b
    case loop =>
      have h6l := h6 (Or.inl hpc)
      simp only [start_day_step, hpc] at h
      split at h
      · split at h
        · cases h
          refine ⟨⟨h1, h1b⟩, ⟨by simp, by simp⟩, by simp, h4, h5, by simp, by simp, h8⟩
        · rename_i a hsp
          cases h
          refine ⟨⟨h1, h1b⟩, ⟨by simp, by simp⟩, by simp, h4, h5, ?_, ?_, h8⟩
          · intro _; exact h6l
          · intro _ a1 ha1
            simp only [Option.some.injEq] at ha1
            rw [← ha1]
            have := spawn_addict_classic s.disp rand ok a h1 hsp
            exact ⟨this.1.trans h6l.2, this.2⟩
      · cases h
        refine ⟨⟨h1, h1b⟩, ⟨by simp, by simp⟩, by simp, h4, h5, by simp, by simp, h8⟩
    case create =>
      have h6l := h6 (Or.inr (Or.inl hpc))
      have h7l := h7 hpc
      simp only [start_day_step, hpc] at h
      split at h
      · cases h
      · rename_i a ha
        split at h
        · cases h
          refine ⟨⟨h1, h1b⟩, ⟨by simp [hpc], by simp [hpc]⟩, by simp [hpc], h4, h5, ?_, ?_, h8⟩
          · intro _; exact h6l
          · intro _ a1 ha1; exact h7l a1 ha1
        · cases h
          refine ⟨⟨h1, h1b⟩, ⟨by simp, by simp⟩, by simp, h4, h5, ?_, by simp, ?_⟩
          · intro _; exact h6l
          · intro t ht
            simp only [List.mem_append, List.mem_singleton] at ht
            rcases ht with hm | he
            · exact h8 t hm
            · rw [he]
              exact ⟨(h7l a ha).1, (h7l a ha).2, h6l.1⟩
    all_goals
      have h6l := h6
      simp only [hpc] at h3 h6l
      simp only [start_day_step, hpc] at h
      repeat' split at h
      all_goals cases h
      all_goals
        refine ⟨⟨h1, h1b⟩, ⟨by simp, by simp⟩, ?_, h4, h5, ?_, by simp, h8⟩ <;> simp_all

theorem start_day_call_classic (n B C : Int) :
    start_day_call n 0 B C =
      { complex := false, n_customers := n, n_selfserve := 0, n_barista := B, n_cashier := 0 } := by
  unfold start_day_call
  rw [if_pos rfl]

theorem InvClassic_init (n B C : Int) : InvClassic B (sim_init n 0 B C) := by
  constructor <;> simp [sim_init, start_day_call_classic]

theorem toUnsigned_of_nonneg (x : Int) (h0 : 0 ≤ x) (h1 : x ≤ INT_MAX) :
    (toUnsigned x : Int) = x := by
  unfold INT_MAX at h1
  unfold toUnsigned
  omega

theorem InvCreated_init (n B C : Int) : InvCreated (sim_init n 0 B C) := by
  constructor <;> simp [sim_init]

theorem InvCreated_step (B : Int) (s : sim) (e : event) (s1 : sim) (hc : InvClassic B s)
    (hi : InvCreated s) (h : step s e = some s1) : InvCreated s1 := by
  obtain ⟨h1, h2, h3⟩ := hi
  cases e with
  | tick now =>
    simp only [step, Option.some.injEq] at h
    subst h
    exact ⟨h1, h2, h3⟩
  | spurious =>
    simp only [step] at h
    split at h
    · rename_i hpc
      cases h
      exact ⟨h1, h2, fun _ => h3 (Or.inr (Or.inr (Or.inr (Or.inr hpc))))⟩
    · cases h
  | cust i =>
    simp only [step] at h
    cases ht : s.threads[i]? with
    | none => rw [ht] at h; cases h
    | some t =>
      rw [ht] at h
      obtain ⟨hd, _⟩ := get_coffee_step_frame s s1 i t h
      have hlen : s1.servers.length = s.servers.length := by
        cases hpc : t.pc <;> simp only [get_coffee_step, hpc] at h <;> (repeat' split at h) <;>
          cases h <;> simp [sim.setThread]
      exact ⟨by rw [hd]; exact h1, by rw [hd, hlen]; exact h2, by rw [hd]; exact h3⟩
  | disp ok rand err =>
    simp only [step] at h
    cases hpc : s.disp.pc
    case mk_server =>
      simp only [start_day_step, hpc, hc.args.1, hc.args.2] at h
      have hs0 := hc.before (Or.inr (Or.inr hpc))
      rw [hs0] at h
      rcases alloc_server_classic (toUnsigned B) ok with ⟨e1, e2⟩ | ⟨e1, srv, e2, _⟩
      · simp only [Bool.false_eq_true, if_false, e1, e2, if_true] at h
        cases h
        exact ⟨Or.inl rfl, by simp, by simp⟩
      · simp only [Bool.false_eq_true, if_false, e1, e2, reduceCtorEq] at h
        cases h
        exact ⟨Or.inr rfl, by simp, by simp⟩
    case mk_selfserve => exact absurd hpc hc.pcs.1
    case mk_cashier => exact absurd hpc hc.pcs.2
    all_goals
      simp only [hpc] at h3
      simp only [start_day_step, hpc] at h
      repeat' split at h
      all_goals cases h
      all_goals
        refine ⟨h1, ?_, ?_⟩ <;> simp_all

/-- C12, single-stage fallback.  When `start_day` is called with the self-serve count 0, for
every arrival count `n`, staffed count `B` and cashier count `C`: the state it starts from,
hence everything that follows, is the same for every `C`; it runs `start_day_classic`, and
with the array of threads allocated it comes to the call `init_server(n_barista)`; there, for
`B` not 0 and the allocation succeeding, the call creates the one server, of capacity `B`
(read as `unsigned int`, which is `B` for `0 <= B <= INT_MAX`), and the spawn loop begins; no
state has more than one server; from the spawn loop to the barrier, and as long as the
pointer `server` is not `NULL`, there is exactly one; and every customer has it as its primary
server and has no secondary server. -/
theorem single_stage_fallback (n B C : Int) :
    (∀ C1, sim_init n 0 B C = sim_init n 0 B C1) ∧
    (∀ r1 e1 r2 e2, ∃ s,
      run (sim_init n 0 B C) [event.disp true r1 e1, event.disp true r2 e2] = some s ∧
        s.disp.pc = dpc.mk_server) ∧
    (∀ s, Reachable n 0 B C s →
      s.disp.args.complex = false ∧ s.servers.length ≤ 1 ∧
      (∀ srv ∈ s.servers, capacity srv = toUnsigned B ∧
        (0 ≤ B → B ≤ INT_MAX → (capacity srv : Int) = B)) ∧
      (s.disp.pc = dpc.mk_server → toUnsigned B ≠ 0 → ∀ rand err, ∃ s1 srv,
        step s (event.disp true rand err) = some s1 ∧ s1.servers = [srv] ∧
          init_server (toUnsigned B) true = some srv ∧ capacity srv = toUnsigned B ∧
          s1.disp.pc = dpc.loop ∧ s1.disp.server = some 0) ∧
      ((s.disp.pc = dpc.loop ∨ s.disp.pc = dpc.create ∨ s.disp.pc = dpc.inc ∨
          s.disp.pc = dpc.barrier ∨ s.disp.pc = dpc.waiting ∨ s.disp.server ≠ none) →
        s.servers.length = 1) ∧
      (∀ t ∈ s.threads, t.addict.server = some 0 ∧ t.addict.next = none ∧
        s.servers.length = 1)) := by
  refine ⟨?_, ?_, ?_⟩
  · intro C1
    simp only [sim_init, start_day_call_classic]
  · intro r1 e1 r2 e2
    exact ⟨_, rfl, rfl⟩
  · intro s hr
    have hboth := Reachable_invariant n 0 B C (fun s => InvClassic B s ∧ InvCreated s)
      ⟨InvClassic_init n B C, InvCreated_init n B C⟩
      (fun s e s1 hi h => ⟨InvClassic_step B s e s1 hi.1 h, InvCreated_step B s e s1 hi.1 hi.2 h⟩)
      s hr
    obtain ⟨hi, hcr⟩ := hboth
    refine ⟨hi.args.1, hi.le_one, ?_, ?_, ?_, hi.threads⟩
    · intro srv hsrv
      have hc := hi.cap srv hsrv
      refine ⟨hc, fun h0 h1 => ?_⟩
      rw [hc]
      exact toUnsigned_of_nonneg B h0 h1
    · intro hpc hB rand err
      have hs0 := hi.before (Or.inr (Or.inr hpc))
      obtain ⟨srv, hsrv⟩ : ∃ srv, init_server (toUnsigned B) true = some srv :=
        ⟨_, by rw [init_server_eq, if_neg hB, if_neg (by decide)]⟩
      refine ⟨{ s with servers := [srv],
                       disp := { s.disp with pc := dpc.loop, server := some 0, i := 0 } },
        srv, ?_, rfl, hsrv, capacity_init_server_toUnsigned B true srv hsrv, rfl, rfl⟩
      simp [step, start_day_step, hpc, hi.args.1, hi.args.2, hs0, alloc_server, hsrv]
    · intro hp
      have hsome : s.disp.server = some 0 := by
        rcases hp with h | h | h | h | h | h
        · exact hcr.past (Or.inl h)
        · exact hcr.past (Or.inr (Or.inl h))
        · exact hcr.past (Or.inr (Or.inr (Or.inl h)))
        · exact hcr.past (Or.inr (Or.inr (Or.inr (Or.inl h))))
        · exact hcr.past (Or.inr (Or.inr (Or.inr (Or.inr h))))
        · rcases hcr.ptr with h0 | h0
          · exact absurd h0 h
          · exact h0
      exact hcr.one hsome

/-- The day `demo_day`, called with the cashier count 5: the third step of `start_day`
creates the server, of capacity one; it is the only server at the end of the day, the primary
server of both customers, neither of which has a secondary server. -/
theorem single_stage_fallback_witness :
    ∃ s, run (sim_init 2 0 1 5) demo_day = some s ∧ s.servers.map capacity = [1] ∧
      s.threads.map (fun t => (t.addict.server, t.addict.next)) =
        [(some 0, none), (some 0, none)] ∧
      sim_init 2 0 1 5 = sim_init 2 0 1 0 ∧
      (∃ s1, run (sim_init 2 0 1 5) [ev_ok 0, ev_ok 0, ev_ok 0] = some s1 ∧
        s1.servers.map capacity = [1] ∧ s1.disp.pc = dpc.loop) ∧
      (∀ t ∈ s.threads, t.addict.server = some 0 ∧ t.addict.next = none ∧
        s.servers.length = 1) :=
  ⟨_, rfl, by decide, rfl, (single_stage_fallback 2 1 5).1 0, ⟨_, rfl, by decide, rfl⟩,
    ((single_stage_fallback 2 1 5).2.2 _ ⟨demo_day, rfl⟩).2.2.2.2.2⟩

/-! ## The claims on `main` -/

/-- C17, argument preconditions, as the code has them.  The function `main` calls `start_day`
exactly when there are at least two arguments, the arrival count is not 0, every option is a
known one, the barista count is not 0, the cashier count is not 0 whenever the self-serve
count is not 0, and both tables of waiting times were allocated.  The flag `-q` has no part
in it. -/
theorem main_starts_iff (argc : Nat) (customers : Int) (opts : List getopt_t)
    (malloc_simple malloc_complex : Bool) (start_day : Int → Int → Int → Int → Int) :
    ((main argc customers opts malloc_simple malloc_complex start_day).started.isSome = true ↔
      2 ≤ argc ∧ toUnsigned customers ≠ 0 ∧
      ∃ v, getopt_loop opts main_vars.init = some v ∧ v.num_barista ≠ 0 ∧
        (v.num_selfserve ≠ 0 → v.num_cashier ≠ 0) ∧
        malloc_simple = true ∧ malloc_complex = true) := by
  unfold main main_vars.init
  by_cases h1 : argc < 2
  · simp [h1]
  · by_cases h2 : toUnsigned customers = 0
    · simp [h1, h2]
    · cases h3 : getopt_loop opts
        { num_selfserve := 0, num_barista := 0, num_cashier := 0, quiet := false } with
      | none => simp [h1, h2]
      | some v =>
        have h1b : 2 ≤ argc := by omega
        simp only [h1, h2, if_false, h1b, true_and, ne_eq, not_false_eq_true,
          Option.some.injEq, exists_eq_left']
        by_cases h4 : v.num_barista = 0
        · cases hq : v.quiet <;> simp [h4, hq]
        · by_cases h5 : v.num_selfserve ≠ 0 ∧ v.num_cashier = 0
          · cases hq : v.quiet <;> simp [h4, h5, hq]
          · have h6 : ¬v.num_selfserve = 0 → ¬v.num_cashier = 0 := fun a b => h5 ⟨a, b⟩
            cases malloc_simple <;> cases malloc_complex <;>
              simp only [h4, h5, if_false, not_false_eq_true, true_and, Bool.true_eq_false,
                Bool.false_eq_true, and_false, and_true, and_self, if_true, reduceCtorEq] <;>
              first
              | simp
              | (split <;> simp <;> exact h6)

/-- C17, the claim as written fails: in quiet mode with no barista, and in quiet mode with a
self-serve station and no cashier, `main` does not call `start_day`. -/
theorem main_starts_iff_counterexample :
    getopt_loop [getopt_t.q] main_vars.init =
      some { num_selfserve := 0, num_barista := 0, num_cashier := 0, quiet := true } ∧
    main 2 5 [getopt_t.q] true true (fun _ _ _ _ => 0) =
      { ret := -1, errors := [], started := none, profit := none } ∧
    getopt_loop [getopt_t.q, getopt_t.s 1, getopt_t.b 1] main_vars.init =
      some { num_selfserve := 1, num_barista := 1, num_cashier := 0, quiet := true } ∧
    main 2 5 [getopt_t.q, getopt_t.s 1, getopt_t.b 1] true true (fun _ _ _ _ => 0) =
      { ret := -1, errors := [], started := none, profit := none } :=
  ⟨by decide, by decide, by decide, by decide⟩

/-- C16, exit status, as the code has it.  The value of `ret` at the end of `main` is 0 or -1,
and it is 0 exactly when `start_day` was called and returned a value that is not negative. -/
theorem main_ret (argc : Nat) (customers : Int) (opts : List getopt_t)
    (malloc_simple malloc_complex : Bool) (start_day : Int → Int → Int → Int → Int) :
    ((main argc customers opts malloc_simple malloc_complex start_day).ret = 0 ∨
      (main argc customers opts malloc_simple malloc_complex start_day).ret = -1) ∧
    ((main argc customers opts malloc_simple malloc_complex start_day).ret = 0 ↔
      ∃ p, (main argc customers opts malloc_simple malloc_complex start_day).profit = some p ∧
        0 ≤ p) := by
  unfold main
  by_cases h1 : argc < 2
  · simp [h1]
  · by_cases h2 : toUnsigned customers = 0
    · simp [h1, h2]
    · cases h3 : getopt_loop opts
        { num_selfserve := 0, num_barista := 0, num_cashier := 0, quiet := false } with
      | none => simp [h1, h2]
      | some v =>
        simp only [h1, h2, if_false]
        by_cases h4 : v.num_barista = 0
        · cases hq : v.quiet <;> simp [h4, hq]
        · by_cases h5 : v.num_selfserve ≠ 0 ∧ v.num_cashier = 0
          · cases hq : v.quiet <;> simp [h4, h5, hq]
          · cases malloc_simple <;> cases malloc_complex <;>
              simp only [h4, h5, if_false, not_false_eq_true, true_and, Bool.true_eq_false,
                Bool.false_eq_true, and_false, and_true, and_self, if_true, reduceCtorEq] <;>
              first
              | simp
              | (split <;> simp <;> omega)

/-- C16, the claim as written fails: an arrival count of 0, a rejected argument, and a day
that `start_day` aborts for want of resources, or a table that cannot be allocated, end with
the same value -1. -/
theorem main_ret_counterexample :
    (main 2 0 [getopt_t.b 1] true true (fun _ _ _ _ => 0)).ret = -1 ∧
    (main 2 0 [getopt_t.b 1] true true (fun _ _ _ _ => 0)).errors =
      ["Need at least one customer"] ∧
    (main 2 5 [getopt_t.b 1] true true (fun _ _ _ _ => -1)).ret = -1 ∧
    (main 2 5 [getopt_t.b 1] true true (fun _ _ _ _ => -1)).errors =
      ["Simulation Aborted (Out of resources)."] ∧
    (main 2 5 [getopt_t.b 1] false true (fun _ _ _ _ => 0)).ret = -1 :=
  ⟨by decide, by decide, by decide, by decide, by decide⟩

/-! ## The process tags -/

theorem add_ptag_task_eq_loop (task : ptag_tasks_struct) (l : List ptag_tasks_struct) :
    add_ptag_task task l = add_ptag_task_loop task l := by
  cases l <;> simp [add_ptag_task, add_ptag_task_loop]

theorem add_ptag_task_loop_present (task : ptag_tasks_struct) (l : List ptag_tasks_struct)
    (hs : pid_sorted l) (h : ∃ e ∈ l, e.pid = task.pid) :
    add_ptag_task_loop task l = (1, l) := by
  induction l with
  | nil => simp at h
  | cons cur rest ih =>
    have hs2 := List.pairwise_cons.mp hs
    by_cases h1 : cur.pid = task.pid
    · simp [add_ptag_task_loop, h1]
    · have h2 : ∃ e ∈ rest, e.pid = task.pid := by
        obtain ⟨e, he, hp⟩ := h
        rcases List.mem_cons.mp he with rfl | he
        · exact absurd hp h1
        · exact ⟨e, he, hp⟩
      have h3 : ¬ cur.pid > task.pid := by
        obtain ⟨e, he, hp⟩ := h2
        have := hs2.1 e he
        omega
      simp [add_ptag_task_loop, h1, h3, ih hs2.2 h2]

theorem add_ptag_task_loop_absent (task : ptag_tasks_struct) (l : List ptag_tasks_struct)
    (h : ∀ e ∈ l, e.pid ≠ task.pid) :
    ∃ l1 l2, l = l1 ++ l2 ∧ add_ptag_task_loop task l = (0, l1 ++ task :: l2) ∧
      (∀ e ∈ l1, e.pid < task.pid) ∧ (∀ e, l2.head? = some e → task.pid < e.pid) := by
  induction l with
  | nil => exact ⟨[], [], rfl, rfl, by simp, by simp⟩
  | cons cur rest ih =>
    have h1 : cur.pid ≠ task.pid := h cur (List.mem_cons_self _ _)
    by_cases h3 : cur.pid > task.pid
    · refine ⟨[], cur :: rest, rfl, by simp [add_ptag_task_loop, h1, h3], by simp, ?_⟩
      intro e he
      simp at he
      subst he
      exact h3
    · obtain ⟨l1, l2, e1, e2, e3, e4⟩ := ih (fun e he => h e (List.mem_cons_of_mem _ he))
      refine ⟨cur :: l1, l2, by simp [e1], by simp [add_ptag_task_loop, h1, h3, e2], ?_, e4⟩
      intro e he
      rcases List.mem_cons.mp he with rfl | he
      · omega
      · exact e3 e he

theorem pid_sorted_head (l2 : List ptag_tasks_struct) (p : Int) (hs : pid_sorted l2)
    (h : ∀ e, l2.head? = some e → p < e.pid) : ∀ e ∈ l2, p < e.pid := by
  cases l2 with
  | nil => simp
  | cons a r =>
    intro e he
    have ha := h a rfl
    rcases List.mem_cons.mp he with rfl | he
    · exact ha
    · have := (List.pairwise_cons.mp hs).1 e he
      omega

theorem pid_sorted_insert (l1 l2 : List ptag_tasks_struct) (task : ptag_tasks_struct)
    (hs : pid_sorted (l1 ++ l2)) (h1 : ∀ e ∈ l1, e.pid < task.pid)
    (h2 : ∀ e ∈ l2, task.pid < e.pid) : pid_sorted (l1 ++ task :: l2) := by
  unfold pid_sorted at *
  rw [List.pairwise_append] at hs ⊢
  refine ⟨hs.1, List.pairwise_cons.mpr ⟨h2, hs.2.1⟩, ?_⟩
  intro a ha b hb
  rcases List.mem_cons.mp hb with rfl | hb
  · exact h1 a ha
  · exact hs.2.2 a ha b hb

theorem pid_sorted_replace (l1 l2 : List ptag_tasks_struct) (e e2 : ptag_tasks_struct)
    (hs : pid_sorted (l1 ++ e :: l2)) (hp : e2.pid = e.pid) :
    pid_sorted (l1 ++ e2 :: l2) := by
  unfold pid_sorted at *
  rw [List.pairwise_append, List.pairwise_cons] at hs ⊢
  refine ⟨hs.1, ⟨fun a ha => by rw [hp]; exact hs.2.1.1 a ha, hs.2.1.2⟩, ?_⟩
  intro a ha b hb
  rcases List.mem_cons.mp hb with rfl | hb
  · rw [hp]; exact hs.2.2 a ha e (List.mem_cons_self _ _)
  · exact hs.2.2 a ha b (List.mem_cons_of_mem _ hb)

theorem ptag_get_task_loop_some (pid : Int) (l : List ptag_tasks_struct) (k j : Nat)
    (h : ptag_get_task_loop pid l k = some j) :
    ∃ l1 e l2, l = l1 ++ e :: l2 ∧ j = k + l1.length ∧ e.pid = pid ∧
      ∀ x ∈ l1, x.pid < pid := by
  induction l generalizing k with
  | nil => simp [ptag_get_task_loop] at h
  | cons cur rest ih =>
    simp only [ptag_get_task_loop] at h
    split at h
    · cases h
    · split at h
      · cases h
        exact ⟨[], cur, rest, rfl, rfl, by omega, by simp⟩
      · obtain ⟨l1, e, l2, e1, e2, e3, e4⟩ := ih _ h
        refine ⟨cur :: l1, e, l2, by simp [e1], by simp [e2]; omega, e3, ?_⟩
        intro x hx
        rcases List.mem_cons.mp hx with rfl | hx
        · omega
        · exact e4 x hx

theorem ptag_get_task_loop_none (pid : Int) (l : List ptag_tasks_struct) (k : Nat)
    (hs : pid_sorted l) (h : ptag_get_task_loop pid l k = none) :
    ∀ e ∈ l, e.pid ≠ pid := by
  induction l generalizing k with
  | nil => simp
  | cons cur rest ih =>
    have hs2 := List.pairwise_cons.mp hs
    simp only [ptag_get_task_loop] at h
    intro e he
    split at h
    · rcases List.mem_cons.mp he with rfl | he
      · omega
      · have := hs2.1 e he
        omega
    · split at h
      · cases h
      · rcases List.mem_cons.mp he with rfl | he
        · omega
        · exact ih _ hs2.2 h e he

theorem ptag_get_tag_none (ps : List ptag_struct) (tag : String) :
    ptag_get_tag ps tag = none ↔ tag ∉ ps.map (fun p => p.tag) := by
  induction ps with
  | nil => simp [ptag_get_tag]
  | cons cur rest ih =>
    by_cases h : cur.tag = tag
    · simp [ptag_get_tag, h]
    · simp only [ptag_get_tag, h, if_false, ih, List.map_cons, List.mem_cons, not_or]
      constructor
      · intro h2
        exact ⟨fun h3 => h h3.symm, h2⟩
      · intro h2
        exact h2.2

theorem tags_of_append (q : Int) (l1 r : List ptag_tasks_struct)
    (h : ∀ x ∈ l1, x.pid ≠ q) : tags_of q (l1 ++ r) = tags_of q r := by
  induction l1 with
  | nil => rfl
  | cons a l1 ih =>
    have ha := h a (List.mem_cons_self _ _)
    simp [tags_of, ha, ih (fun x hx => h x (List.mem_cons_of_mem _ hx))]

theorem tags_of_append_cons_ne (q : Int) (l1 l2 : List ptag_tasks_struct)
    (e : ptag_tasks_struct) (h : e.pid ≠ q) :
    tags_of q (l1 ++ e :: l2) = tags_of q (l1 ++ l2) := by
  induction l1 with
  | nil => simp [tags_of, h]
  | cons a l1 ih =>
    by_cases ha : a.pid = q
    · simp [tags_of, ha]
    · simp [tags_of, ha, ih]

theorem tags_of_absent (q : Int) (l : List ptag_tasks_struct) (h : ∀ x ∈ l, x.pid ≠ q) :
    tags_of q l = [] := by
  have := tags_of_append q l [] h
  simpa [tags_of] using this

/-- The outcome of `_add_ptag` when the first allocation succeeds, case by case. -/
theorem _add_ptag_spec (pid : Int) (tag : String) (tag_len : Nat) (kmalloc_task : Bool)
    (l : List ptag_tasks_struct) (hs : pid_sorted l) (hl : tag_len ≤ PTAG_TAG_MAX) :
    (tag ∈ tags_of pid l → _add_ptag pid tag tag_len true kmalloc_task l = (0, l)) ∧
    (tag ∉ tags_of pid l → ((∃ e ∈ l, e.pid = pid) ∨ kmalloc_task = true) →
      (_add_ptag pid tag tag_len true kmalloc_task l).1 = 0 ∧
      tags_of pid (_add_ptag pid tag tag_len true kmalloc_task l).2 = tag :: tags_of pid l ∧
      (∀ q, q ≠ pid →
        tags_of q (_add_ptag pid tag tag_len true kmalloc_task l).2 = tags_of q l) ∧
      pid_sorted (_add_ptag pid tag tag_len true kmalloc_task l).2 ∧
      ∃ e ∈ (_add_ptag pid tag tag_len true kmalloc_task l).2, e.pid = pid) := by
  have hl2 : ¬ tag_len > PTAG_TAG_MAX := by omega
  cases hg : ptag_get_task pid l with
  | none =>
    have habs := ptag_get_task_loop_none pid l 0 hs hg
    have ht := tags_of_absent pid l habs
    refine ⟨fun h => by simp [ht] at h, ?_⟩
    intro _ hk
    have hk2 : kmalloc_task = true := by
      rcases hk with ⟨e, he, hp⟩ | hk
      · exact absurd hp (habs e he)
      · exact hk
    subst hk2
    obtain ⟨l1, l2, e1, e2, e3, e4⟩ :=
      add_ptag_task_loop_absent { pid := pid, ptags := [{ tag := tag, tag_len := tag_len }] } l
        habs
    have e5 := pid_sorted_head l2 pid (by
      rw [e1] at hs
      exact (List.pairwise_append.mp hs).2.1) e4
    have hres : _add_ptag pid tag tag_len true true l =
        (0, l1 ++ { pid := pid, ptags := [{ tag := tag, tag_len := tag_len }] } :: l2) := by
      simp [_add_ptag, init_ptag, init_ptag_task, hl2, hg, add_ptag_task_eq_loop, e2]
    rw [hres]
    refine ⟨rfl, ?_, ?_, ?_, ?_⟩
    · rw [ht]
      show tags_of pid (l1 ++ _ :: l2) = _
      rw [tags_of_append pid l1 _ (fun x hx => by have := e3 x hx; simp at this; omega)]
      simp [tags_of]
    · intro q hq
      show tags_of q (l1 ++ _ :: l2) = _
      rw [tags_of_append_cons_ne q l1 l2 _ (by simpa using fun h => hq h.symm), e1]
    · exact pid_sorted_insert l1 l2 _ (by rw [← e1]; exact hs) e3 e5
    · exact ⟨{ pid := pid, ptags := [{ tag := tag, tag_len := tag_len }] }, by simp, rfl⟩
  | some k =>
    obtain ⟨l1, e, l2, e1, e2, e3, e4⟩ := ptag_get_task_loop_some pid l 0 k hg
    have hk : l[k]? = some e := by
      rw [e1, e2, Nat.zero_add, List.getElem?_append_right (le_refl _)]
      simp
    have ht : tags_of pid l = e.ptags.map (fun p => p.tag) := by
      rw [e1, tags_of_append pid l1 _ (fun x hx => by have := e4 x hx; omega)]
      simp [tags_of, e3]
    constructor
    · intro hin
      rw [ht] at hin
      cases hgt : ptag_get_tag e.ptags tag with
      | none => exact absurd hin ((ptag_get_tag_none _ _).mp hgt)
      | some p => simp [_add_ptag, init_ptag, hl2, hg, hk, hgt]
    · intro hnin _
      rw [ht] at hnin
      have hgt := (ptag_get_tag_none _ _).mpr hnin
      have hset : l.set k { e with ptags := { tag := tag, tag_len := tag_len } :: e.ptags } =
          l1 ++ { e with ptags := { tag := tag, tag_len := tag_len } :: e.ptags } :: l2 := by
        rw [e1, e2]
        simp
      have hres : _add_ptag pid tag tag_len true kmalloc_task l =
          (0, l1 ++ { e with ptags := { tag := tag, tag_len := tag_len } :: e.ptags } :: l2) := by
        simp [_add_ptag, init_ptag, hl2, hg, hk, hgt, hset]
      rw [hres]
      refine ⟨rfl, ?_, ?_, ?_, ?_⟩
      · rw [ht]
        show tags_of pid (l1 ++ _ :: l2) = _
        rw [tags_of_append pid l1 _ (fun x hx => by have := e4 x hx; omega)]
        simp [tags_of, e3]
      · intro q hq
        show tags_of q (l1 ++ _ :: l2) = _
        rw [tags_of_append_cons_ne q l1 l2 _ (by simpa [e3] using fun h => hq h.symm), e1,
          tags_of_append_cons_ne q l1 l2 e (by simpa [e3] using fun h => hq h.symm)]
      · exact pid_sorted_replace l1 l2 e _ (by rw [← e1]; exact hs) rfl
      · exact ⟨{ e with ptags := { tag := tag, tag_len := tag_len } :: e.ptags }, by simp, e3⟩

/-- C18, the tasklist stays ordered by PID.  A tasklist in strictly ascending order of PID is
in strictly ascending order after `add_ptag_task(task)`; when no entry has the PID of the task
the call returns 0 and the entry stands after all entries of a smaller PID and before all
entries of a greater one, and when an entry has that PID the call returns 1 and the list is
the same. -/
theorem add_ptag_task_sorted (task : ptag_tasks_struct) (l : List ptag_tasks_struct)
    (hs : pid_sorted l) :
    pid_sorted (add_ptag_task task l).2 ∧
    ((∀ e ∈ l, e.pid ≠ task.pid) →
      (add_ptag_task task l).1 = 0 ∧
      ∃ l1 l2, l = l1 ++ l2 ∧ (add_ptag_task task l).2 = l1 ++ task :: l2 ∧
        (∀ e ∈ l1, e.pid < task.pid) ∧ (∀ e ∈ l2, task.pid < e.pid)) ∧
    ((∃ e ∈ l, e.pid = task.pid) → add_ptag_task task l = (1, l)) := by
  have habs : (∀ e ∈ l, e.pid ≠ task.pid) →
      (add_ptag_task task l).1 = 0 ∧
      ∃ l1 l2, l = l1 ++ l2 ∧ (add_ptag_task task l).2 = l1 ++ task :: l2 ∧
        (∀ e ∈ l1, e.pid < task.pid) ∧ (∀ e ∈ l2, task.pid < e.pid) := by
    intro h
    obtain ⟨l1, l2, e1, e2, e3, e4⟩ := add_ptag_task_loop_absent task l h
    rw [add_ptag_task_eq_loop, e2]
    refine ⟨rfl, l1, l2, e1, rfl, e3, ?_⟩
    exact pid_sorted_head l2 task.pid (by
      rw [e1] at hs
      exact (List.pairwise_append.mp hs).2.1) e4
  have hpre : (∃ e ∈ l, e.pid = task.pid) → add_ptag_task task l = (1, l) := by
    intro h
    rw [add_ptag_task_eq_loop]
    exact add_ptag_task_loop_present task l hs h
  refine ⟨?_, habs, hpre⟩
  by_cases h : ∃ e ∈ l, e.pid = task.pid
  · rw [hpre h]
    exact hs
  · have h2 : ∀ e ∈ l, e.pid ≠ task.pid := fun e he hp => h ⟨e, he, hp⟩
    obtain ⟨_, l1, l2, e1, e2, e3, e4⟩ := habs h2
    rw [e2]
    exact pid_sorted_insert l1 l2 task (by rw [← e1]; exact hs) e3 e4

theorem add_ptag_task_sorted_witness :
    pid_sorted [⟨3, []⟩, ⟨9, []⟩] ∧
    add_ptag_task ⟨5, []⟩ [⟨3, []⟩, ⟨9, []⟩] = (0, [⟨3, []⟩, ⟨5, []⟩, ⟨9, []⟩]) ∧
    add_ptag_task ⟨9, []⟩ [⟨3, []⟩, ⟨9, []⟩] = (1, [⟨3, []⟩, ⟨9, []⟩]) ∧
    pid_sorted (add_ptag_task ⟨5, []⟩ [⟨3, []⟩, ⟨9, []⟩]).2 :=
  ⟨by simp [pid_sorted], by decide, by decide,
    (add_ptag_task_sorted ⟨5, []⟩ [⟨3, []⟩, ⟨9, []⟩] (by simp [pid_sorted])).1⟩

/-- C19, a process's tags are unique, as the code has it.  On a tasklist in ascending order of
PID, for every task and every tag of a length up to `PTAG_TAG_MAX`.  With the allocation of
the new tag object succeeding: when the task has the tag, `_add_ptag` returns 0 and the
tasklist is the same; when it has not (the task having an entry, or the allocation of one
succeeding), `_add_ptag` returns 0, the tags of the task are the given tag followed by the
former ones, the task has an entry, the tags of every other task are the same and the list is
still in order.  With the allocation of the new tag object failing, `_add_ptag` returns
`-ENOMEM` and the tasklist is the same, whether the task has the tag or not.  In every case a
list of tags without repetition stays one. -/
theorem add_ptag_unique (pid : Int) (tag : String) (tag_len : Nat) (kmalloc_task : Bool)
    (l : List ptag_tasks_struct) (hs : pid_sorted l) (hl : tag_len ≤ PTAG_TAG_MAX) :
    (tag ∈ tags_of pid l → _add_ptag pid tag tag_len true kmalloc_task l = (0, l)) ∧
    (tag ∉ tags_of pid l → ((∃ e ∈ l, e.pid = pid) ∨ kmalloc_task = true) →
      (_add_ptag pid tag tag_len true kmalloc_task l).1 = 0 ∧
      tags_of pid (_add_ptag pid tag tag_len true kmalloc_task l).2 = tag :: tags_of pid l ∧
      (∀ q, q ≠ pid →
        tags_of q (_add_ptag pid tag tag_len true kmalloc_task l).2 = tags_of q l) ∧
      pid_sorted (_add_ptag pid tag tag_len true kmalloc_task l).2 ∧
      ∃ e ∈ (_add_ptag pid tag tag_len true kmalloc_task l).2, e.pid = pid) ∧
    (_add_ptag pid tag tag_len false kmalloc_task l = (-ENOMEM, l)) ∧
    (∀ kmalloc_ptag, (tags_of pid l).Nodup →
      (tags_of pid (_add_ptag pid tag tag_len kmalloc_ptag kmalloc_task l).2).Nodup) := by
  have h := _add_ptag_spec pid tag tag_len kmalloc_task l hs hl
  have hfail : _add_ptag pid tag tag_len false kmalloc_task l = (-ENOMEM, l) := by
    have hl2 : ¬ tag_len > PTAG_TAG_MAX := by omega
    simp [_add_ptag, init_ptag, hl2]
  refine ⟨h.1, h.2, hfail, ?_⟩
  intro kmalloc_ptag hn
  cases kmalloc_ptag
  · rw [hfail]
    exact hn
  by_cases hin : tag ∈ tags_of pid l
  · rw [h.1 hin]
    exact hn
  · by_cases hk : (∃ e ∈ l, e.pid = pid) ∨ kmalloc_task = true
    · rw [(h.2 hin hk).2.1]
      exact List.nodup_cons.mpr ⟨hin, hn⟩
    · have hk1 : ∀ e ∈ l, e.pid ≠ pid := fun e he hp => hk (Or.inl ⟨e, he, hp⟩)
      have hk2 : kmalloc_task = false := by
        cases kmalloc_task
        · rfl
        · exact absurd (Or.inr rfl) hk
      subst hk2
      have hl2 : ¬ tag_len > PTAG_TAG_MAX := by omega
      have hg : ptag_get_task pid l = none := by
        cases hg : ptag_get_task pid l with
        | none => rfl
        | some k =>
          obtain ⟨l1, e, l2, e1, _, e3, _⟩ := ptag_get_task_loop_some pid l 0 k hg
          exact absurd e3 (hk1 e (by rw [e1]; simp))
      have : _add_ptag pid tag tag_len true false l = (-ENOMEM, l) := by
        simp [_add_ptag, init_ptag, init_ptag_task, hl2, hg]
      rw [this]
      exact hn

theorem add_ptag_unique_witness :
    pid_sorted [⟨7, [⟨"a", 1⟩]⟩] ∧ 1 ≤ PTAG_TAG_MAX ∧
    _add_ptag 7 "a" 1 true true [⟨7, [⟨"a", 1⟩]⟩] = (0, [⟨7, [⟨"a", 1⟩]⟩]) ∧
    _add_ptag 7 "b" 1 true true [⟨7, [⟨"a", 1⟩]⟩] = (0, [⟨7, [⟨"b", 1⟩, ⟨"a", 1⟩]⟩]) ∧
    _add_ptag 4 "b" 1 true true [⟨7, [⟨"a", 1⟩]⟩] =
      (0, [⟨4, [⟨"b", 1⟩]⟩, ⟨7, [⟨"a", 1⟩]⟩]) ∧
    ("a" ∈ tags_of 7 [⟨7, [⟨"a", 1⟩]⟩] →
      _add_ptag 7 "a" 1 true true [⟨7, [⟨"a", 1⟩]⟩] = (0, [⟨7, [⟨"a", 1⟩]⟩])) ∧
    _add_ptag 7 "b" 1 false true [⟨7, [⟨"a", 1⟩]⟩] = (-ENOMEM, [⟨7, [⟨"a", 1⟩]⟩]) :=
  ⟨by simp [pid_sorted], by decide, by decide, by decide, by decide,
    (add_ptag_unique 7 "a" 1 true [⟨7, [⟨"a", 1⟩]⟩] (by simp [pid_sorted]) (by decide)).1,
    (add_ptag_unique 7 "b" 1 true [⟨7, [⟨"a", 1⟩]⟩] (by simp [pid_sorted])
      (by decide)).2.2.1⟩

/-- C19, the claim as written fails: the task 7 has the tag "a" and the allocation of the new
tag object, which `_add_ptag` makes before it looks the tag up, fails; the call returns
`-ENOMEM`, not 0. -/
theorem add_ptag_unique_counterexample :
    "a" ∈ tags_of 7 [⟨7, [⟨"a", 1⟩]⟩] ∧ 1 ≤ PTAG_TAG_MAX ∧
    _add_ptag 7 "a" 1 false true [⟨7, [⟨"a", 1⟩]⟩] = (-ENOMEM, [⟨7, [⟨"a", 1⟩]⟩]) ∧
    (_add_ptag 7 "a" 1 false true [⟨7, [⟨"a", 1⟩]⟩]).1 ≠ 0 :=
  ⟨by decide, by decide, by decide, by decide⟩

/-! ## The claim on the predecessor links of the queue -/

theorem setNext_prev (m : Nat → node_t) (p a : Nat) (v : Option Nat) :
    (setNext m p v a).prev = (m a).prev := by
  unfold setNext; split <;> rfl

theorem setPrev_prev (m : Nat → node_t) (p a : Nat) (v : Option Nat) :
    (setPrev m p v a).prev = if a = p then v else (m a).prev := by
  unfold setPrev; split <;> rfl

theorem prevs_congr (m m1 : Nat → node_t) :
    ∀ (l : List Nat) (p : Option Nat), (∀ a ∈ l, (m1 a).prev = (m a).prev) →
      prevs m p l → prevs m1 p l := by
  intro l
  induction l with
  | nil => intro _ _ _; trivial
  | cons a l ih =>
    intro p hm h
    refine ⟨?_, ih _ (fun b hb => hm b (List.mem_cons_of_mem a hb)) h.2⟩
    rw [hm a (List.mem_cons_self a l)]
    exact h.1

theorem prevs_snoc (m : Nat → node_t) (n : Nat) :
    ∀ (l : List Nat) (p : Option Nat), prevs m p l →
      (m n).prev = (match l.getLast? with | some b => some b | none => p) →
      prevs m p (l ++ [n]) := by
  intro l
  induction l with
  | nil =>
    intro p _ hn
    exact ⟨hn, trivial⟩
  | cons a l ih =>
    intro p h hn
    refine ⟨h.1, ih _ h.2 ?_⟩
    cases l with
    | nil => simpa using hn
    | cons c l =>
      rw [List.getLast?_cons_cons] at hn
      cases hx : (c :: l).getLast? with
      | none => simp at hx
      | some b => rw [hx] at hn; exact hn

theorem prevs_ne_none (m : Nat → node_t) :
    ∀ (l : List Nat) (p : Option Nat), p ≠ none → prevs m p l → ∀ a ∈ l, (m a).prev ≠ none := by
  intro l
  induction l with
  | nil => intro _ _ _ a ha; cases ha
  | cons b l ih =>
    intro p hp h a ha
    rcases List.mem_cons.1 ha with hab | hal
    · subst hab
      rw [h.1]
      exact hp
    · exact ih (some b) (by simp) h.2 a hal

theorem QRun_prevs (m0 : Nat → node_t) (q0 : queue_t) (l : List Nat) (s : QMem)
    (h : QRun m0 q0 l s) : prevs s.mem none l := by
  induction h with
  | init => trivial
  | add n l s hrun hn ih =>
    have hq := QRun_IsQueue m0 q0 l s hrun
    have hb : s.queue.back = l.getLast? := hq.2
    have hkeep : ∀ a ∈ l, ((queue_add_tail n s).mem a).prev = (s.mem a).prev := by
      intro a ha
      have han : a ≠ n := fun e => hn (e ▸ ha)
      simp only [queue_add_tail]
      cases hbk : s.queue.back with
      | none => simp only [setPrev_prev, setNext_prev, han, if_false]
      | some b => simp only [setPrev_prev, setNext_prev, han, if_false]
    have hnew : ((queue_add_tail n s).mem n).prev = s.queue.back := by
      simp only [queue_add_tail]
      cases hbk : s.queue.back with
      | none => simp only [setPrev_prev, setNext_prev, if_true]
      | some b => simp only [setPrev_prev, setNext_prev, if_true]
    refine prevs_snoc _ n l none (prevs_congr s.mem _ l none hkeep ih) ?_
    rw [hnew, hb]
    cases l.getLast? <;> rfl
  | remove a l s s1 hrun hr ih =>
    have hq := QRun_IsQueue m0 q0 (a :: l) s hrun
    have hf : s.queue.front = some a := hq.1.1
    have hc2 : chain s.mem (s.mem a).next l := hq.1.2
    have hnd : (a :: l).Nodup := chain_nodup s.mem _ _ hq.1
    cases l with
    | nil => trivial
    | cons c l =>
      have hnx : (s.mem a).next = some c := hc2.1
      have hs1 : s1 = { mem := setPrev s.mem c none,
                        queue := { s.queue with front := some c } } := by
        simp only [queue_remove_head, hf, hnx] at hr
        exact (Option.some.inj hr).symm
      subst hs1
      have hcl : c ∉ l := (List.nodup_cons.1 (List.nodup_cons.1 hnd).2).1
      refine ⟨by simp [setPrev_prev], ?_⟩
      refine prevs_congr s.mem _ l (some c) ?_ ih.2.2
      intro x hx
      have hxc : x ≠ c := fun e => hcl (e ▸ hx)
      simp [setPrev_prev, hxc]

/-- C21, only the front has no predecessor.  In every state reached from an initialised head
by `queue_add_tail` of records not already linked and by `queue_remove_head` on a queue with
a front, `l` being the records the queue holds: a record of the queue has `prev == NULL` if
and only if it is `front`; a record appended to the empty queue has `prev == NULL`, a record
appended to a queue that is not empty has `prev` equal to the `back` of before, the last
record; and after a pop, the new `front`, if there is one, has `prev == NULL`. -/
theorem front_only_no_prev (m0 : Nat → node_t) (q0 : queue_t) (l : List Nat) (s : QMem)
    (h : QRun m0 q0 l s) :
    (∀ a ∈ l, (s.mem a).prev = none ↔ s.queue.front = some a) ∧
    (∀ n, (l = [] → ((queue_add_tail n s).mem n).prev = none) ∧
      (l ≠ [] → ∃ b, l.getLast? = some b ∧ s.queue.back = some b ∧
        ((queue_add_tail n s).mem n).prev = some b)) ∧
    (∀ s1 g, queue_remove_head s = some s1 → s1.queue.front = some g →
      (s1.mem g).prev = none) := by
  have hq := QRun_IsQueue m0 q0 l s h
  have hp := QRun_prevs m0 q0 l s h
  have hnew : ∀ n, ((queue_add_tail n s).mem n).prev = s.queue.back := by
    intro n
    simp only [queue_add_tail]
    cases hbk : s.queue.back with
    | none => simp only [setPrev_prev, setNext_prev, if_true]
    | some b => simp only [setPrev_prev, setNext_prev, if_true]
  refine ⟨?_, ?_, ?_⟩
  · intro a ha
    cases l with
    | nil => cases ha
    | cons c l =>
      have hf : s.queue.front = some c := hq.1.1
      have hnd : (c :: l).Nodup := chain_nodup s.mem _ _ hq.1
      rw [hf]
      constructor
      · intro hpa
        rcases List.mem_cons.1 ha with hac | hal
        · rw [hac]
        · exact absurd hpa (prevs_ne_none s.mem l (some c) (by simp) hp.2 a hal)
      · intro hca
        cases hca
        exact hp.1
  · intro n
    rw [hnew n, hq.2]
    constructor
    · intro hl
      rw [hl]
      rfl
    · intro hl
      cases hx : l.getLast? with
      | none => exact absurd (List.getLast?_eq_none_iff.1 hx) hl
      | some b => exact ⟨b, rfl, rfl, rfl⟩
  · intro s1 g hr hg
    unfold queue_remove_head at hr
    cases hf : s.queue.front with
    | none => rw [hf] at hr; cases hr
    | some f =>
      rw [hf] at hr
      cases hn : (s.mem f).next with
      | none =>
        simp only [hn] at hr
        have := Option.some.inj hr
        subst this
        simp at hg
      | some c =>
        simp only [hn] at hr
        have := Option.some.inj hr
        subst this
        simp only at hg
        cases hg
        simp [setPrev_prev]

/-- After the records 1, 2 and 3 are added and the head is removed once, the queue holds 2
and 3: the record 2 is `front` and has `prev == NULL`, the record 3 has `prev` pointing
at 2. -/
theorem front_only_no_prev_witness :
    ∃ s, queue_remove_head (queue_add_tail 3 (queue_add_tail 2 (queue_add_tail 1
        { mem := fun _ => { next := none, prev := none },
          queue := init_queue_head { front := none, back := none, mutex := none } }))) =
        some s ∧
      s.queue.front = some 2 ∧ (s.mem 2).prev = none ∧ (s.mem 3).prev = some 2 ∧
      (∀ a ∈ [2, 3], (s.mem a).prev = none ↔ s.queue.front = some a) :=
  ⟨_, rfl, rfl, rfl, rfl,
    (front_only_no_prev (fun _ => { next := none, prev := none })
      { front := none, back := none, mutex := none } [2, 3] _
      (QRun.remove 1 [2, 3] _ _
        (QRun.add 3 [1, 2] _
          (QRun.add 2 [1] _ (QRun.add 1 [] _ QRun.init (by decide)) (by decide))
          (by decide)) rfl)).1⟩

/-! ## The claims on `timer_us` and `rand_range` -/

theorem tdiv_1000_eq_self (d : Int) : Int.tdiv d 1000 = d ↔ d = 0 := by
  constructor
  · intro h
    rcases le_total 0 d with h0 | h0
    · rw [Int.tdiv_eq_ediv h0 (by decide)] at h
      omega
    · have h2 : Int.tdiv (-d) 1000 = -d / 1000 := Int.tdiv_eq_ediv (by omega) (by decide)
      have h1 : Int.tdiv d 1000 = -(Int.tdiv (-d) 1000) := by
        rw [Int.neg_tdiv, neg_neg]
      rw [h1, h2] at h
      omega
  · intro h
    rw [h]
    rfl

/-- C22, evaluated on a customer that starts at 10 s and ends at 13.25 s: the elapsed time is
3250000 microseconds and `timer_us` returns 3250, which `print_time` prints as 0.003250.
`timer_us` divides the difference in microseconds by 1000; its value is the elapsed time in
microseconds only when that time is 0. -/
theorem timer_us_thousandth :
    elapsed_us ⟨10, 0⟩ ⟨13, 250000⟩ = 3250000 ∧
    timer_us ⟨10, 0⟩ ⟨13, 250000⟩ = 3250 ∧
    print_time (timer_us ⟨10, 0⟩ ⟨13, 250000⟩) = (0, 3250) ∧
    (∀ start finish : timeval,
      timer_us start finish = Int.tdiv (elapsed_us start finish) 1000 ∧
      (timer_us start finish = elapsed_us start finish ↔ elapsed_us start finish = 0)) := by
  refine ⟨by decide, by decide, by decide, ?_⟩
  intro start finish
  exact ⟨rfl, tdiv_1000_eq_self _⟩

theorem toUnsigned_pred (n : Nat) (hn : 1 ≤ n) (hn32 : n < 4294967296) :
    toUnsigned ((n : Int) - 1) = n - 1 := by
  unfold toUnsigned
  omega

theorem rand_range_loop_some (endv : Nat) (rand : List Nat) (h : ∃ v ∈ rand, v < endv) :
    ∃ ret, rand_range_loop endv rand = some ret ∧ ret < endv ∧ ret ∈ rand := by
  induction rand with
  | nil => simp at h
  | cons a rest ih =>
    by_cases ha : a ≥ endv
    · have h2 : ∃ v ∈ rest, v < endv := by
        obtain ⟨v, hv, hlt⟩ := h
        rcases List.mem_cons.1 hv with rfl | hv
        · omega
        · exact ⟨v, hv, hlt⟩
      obtain ⟨ret, e1, e2, e3⟩ := ih h2
      exact ⟨ret, by simp [rand_range_loop, ha, e1], e2, List.mem_cons_of_mem _ e3⟩
    · exact ⟨a, by simp [rand_range_loop, ha], by omega, List.mem_cons_self _ _⟩

/-- C23, range of `rand_range`.  For every `n >= 1` and all values of `rand()`, each at most
`RAND_MAX`, on which the call comes to an end (one value when `n - 1 == RAND_MAX`, a value
below `RAND_MAX / n` in the loop, none needed when `n > RAND_MAX + 1`): `rand_range(n)`
returns -1 or a value `x` with `0 <= x < n`; it returns -1 exactly when `n > RAND_MAX + 1`;
and `rand_range(2)` returns 0 or 1. -/
theorem rand_range_range (RAND_MAX n : Nat) (rand : List Nat)
    (hn : 1 ≤ n) (hn32 : n < 4294967296) (hr : ∀ v ∈ rand, v ≤ RAND_MAX)
    (hterm : (n = RAND_MAX + 1 ∧ rand ≠ []) ∨ (∃ v ∈ rand, v < RAND_MAX / n) ∨
      RAND_MAX + 1 < n) :
    ∃ x, rand_range RAND_MAX n rand = some x ∧
      (x = -1 ∨ (0 ≤ x ∧ x < n)) ∧ (x = -1 ↔ RAND_MAX + 1 < n) ∧
      (n = 2 → 1 ≤ RAND_MAX → x = 0 ∨ x = 1) := by
  have hu := toUnsigned_pred n hn hn32
  by_cases h1 : n - 1 = RAND_MAX
  · have hne : rand ≠ [] := by
      rcases hterm with h | h | h
      · exact h.2
      · obtain ⟨v, hv, _⟩ := h
        intro e
        rw [e] at hv
        cases hv
      · omega
    cases rand with
    | nil => exact absurd rfl hne
    | cons a rest =>
      have ha := hr a (List.mem_cons_self _ _)
      have hres : rand_range RAND_MAX n (a :: rest) = some (a : Int) := by
        simp [rand_range, hu, h1]
      refine ⟨(a : Int), hres, ?_, ?_, ?_⟩
      · right; omega
      · constructor
        · intro h; omega
        · intro h; omega
      · intro _ _; omega
  · by_cases h2 : RAND_MAX / n ≤ 0
    · clear hterm
      have h3 : RAND_MAX / n = 0 := Nat.le_zero.1 h2
      have h4 : RAND_MAX < n := (Nat.div_eq_zero_iff (by omega)).1 h3
      refine ⟨-1, ?_, Or.inl rfl, ?_, ?_⟩
      · have hn0 : n ≠ 0 := by omega
        simp [rand_range, hu, h1, hn0, h3]
      · constructor
        · intro _; omega
        · intro _; rfl
      · intro _ _; omega
    · have h4 : n ≤ RAND_MAX := by
        by_contra hc
        have : RAND_MAX / n = 0 := Nat.div_eq_of_lt (Nat.lt_of_not_le hc)
        exact h2 (Nat.le_of_eq this)
      have hex : ∃ v ∈ rand, v < RAND_MAX / n := by
        rcases hterm with h | h | h
        · exact absurd h.1 (by omega)
        · exact h
        · exact absurd h (by omega)
      obtain ⟨ret, e1, _, _⟩ := rand_range_loop_some _ rand hex
      clear hterm hex
      have hn0 : n ≠ 0 := by omega
      have hmod : ret % n < n := Nat.mod_lt _ (by omega)
      refine ⟨((ret % n : Nat) : Int), ?_, ?_, ?_, ?_⟩
      · simp [rand_range, hu, h1, hn0, h2, e1]
      · right; omega
      · constructor
        · intro h; omega
        · intro h; omega
      · intro _ _; omega

/-- With glibc's `RAND_MAX`, `rand_range(2)` rejects the first value of `rand()`, which is not
below `RAND_MAX / 2`, and returns the second one modulo 2. -/
theorem rand_range_range_witness :
    rand_range 2147483647 2 [1500000000, 7] = some 1 ∧
    ∃ x, rand_range 2147483647 2 [1500000000, 7] = some x ∧
      (x = -1 ∨ (0 ≤ x ∧ x < (2 : Nat))) ∧ (x = -1 ↔ 2147483647 + 1 < 2) ∧
      ((2 : Nat) = 2 → 1 ≤ 2147483647 → x = 0 ∨ x = 1) :=
  ⟨by decide, rand_range_range 2147483647 2 [1500000000, 7] (by decide) (by decide)
    (by decide) (Or.inr (Or.inl ⟨7, by decide, by decide⟩))⟩

theorem count_lt_and (p : Nat → Prop) [DecidablePred p] (e : Nat) :
    ∀ N, e ≤ N → Nat.count (fun k => k < e ∧ p k) N = Nat.count p e := by
  have hbase : ∀ m, m ≤ e → Nat.count (fun k => k < e ∧ p k) m = Nat.count p m := by
    intro m
    induction m with
    | zero => intro _; simp
    | succ m ih =>
      intro hm
      have hlt : m < e := by omega
      rw [Nat.count_succ, Nat.count_succ, ih (by omega)]
      simp [hlt]
  intro N hN
  induction N with
  | zero =>
    have : e = 0 := by omega
    subst this
    simp
  | succ N ih =>
    by_cases h : e = N + 1
    · rw [← h]
      exact hbase e (le_refl _)
    · have hlt : ¬ N < e := by omega
      rw [Nat.count_succ, ih (by omega)]
      simp [hlt]

theorem rand_range_one (RAND_MAX n raw x : Nat) (hn : 1 ≤ n) (hn32 : n < 4294967296)
    (hR : n ≤ RAND_MAX) (hx : x < n) :
    rand_range RAND_MAX n [raw] = some (x : Int) ↔ raw < RAND_MAX / n ∧ raw ≡ x [MOD n] := by
  have hu := toUnsigned_pred n hn hn32
  have h1 : ¬ n - 1 = RAND_MAX := by omega
  have hn0 : n ≠ 0 := by omega
  have h2 : ¬ RAND_MAX / n ≤ 0 := by
    have : 0 < RAND_MAX / n := Nat.div_pos hR (by omega)
    omega
  have hxm : x % n = x := Nat.mod_eq_of_lt hx
  unfold Nat.ModEq
  rw [hxm]
  by_cases h3 : raw ≥ RAND_MAX / n
  · have : ¬ raw < RAND_MAX / n := by omega
    simp [rand_range, hu, h1, hn0, h2, rand_range_loop, h3, this]
  · have : raw < RAND_MAX / n := by omega
    simp only [rand_range, hu, h1, hn0, h2, rand_range_loop, h3, this, if_false,
      Option.map_some', Option.some.injEq, true_and]
    constructor <;> intro h <;> exact_mod_cast h

/-- The number of values of `rand()` that give `x`, for `n` up to `RAND_MAX`: the values
below `RAND_MAX / n` that are congruent to `x`. -/
theorem hits_eq (RAND_MAX n x : Nat) (hn : 1 ≤ n) (hn32 : n < 4294967296)
    (hR : n ≤ RAND_MAX) (hx : x < n) :
    hits RAND_MAX n (x : Int) =
      RAND_MAX / n / n + if x % n < RAND_MAX / n % n then 1 else 0 := by
  unfold hits
  have h1 : (fun raw => rand_range RAND_MAX n [raw] = some (x : Int)) =
      (fun raw => raw < RAND_MAX / n ∧ raw ≡ x [MOD n]) := by
    funext raw
    exact propext (rand_range_one RAND_MAX n raw x hn hn32 hR hx)
  have hle : RAND_MAX / n ≤ RAND_MAX + 1 := by
    have := Nat.div_le_self RAND_MAX n
    omega
  simp only [h1]
  rw [count_lt_and _ _ _ hle]
  exact Nat.count_modEq_card (RAND_MAX / n) (by omega) x

/-- C24, evaluated with glibc's `RAND_MAX = 2147483647`.  For `n = 2` the loop of `rand_range`
accepts the 1073741823 values below `RAND_MAX / 2`, an odd number of them: 536870912 give 0
and 536870911 give 1.  For `n = 100000` it accepts the 21474 values below `RAND_MAX / n`: one
value gives 0 and none gives 99999.  The same with the least `RAND_MAX` the C standard
allows, 32767: 8192 values give 0 and 8191 give 1. -/
theorem rand_range_not_uniform :
    hits 2147483647 2 0 = 536870912 ∧ hits 2147483647 2 1 = 536870911 ∧
    hits 2147483647 100000 0 = 1 ∧ hits 2147483647 100000 99999 = 0 ∧
    hits 32767 2 0 = 8192 ∧ hits 32767 2 1 = 8191 := by
  refine ⟨?_, ?_, ?_, ?_, ?_, ?_⟩
  · exact (hits_eq 2147483647 2 0 (by decide) (by decide) (by decide) (by decide)).trans
      (by decide)
  · exact (hits_eq 2147483647 2 1 (by decide) (by decide) (by decide) (by decide)).trans
      (by decide)
  · exact (hits_eq 2147483647 100000 0 (by decide) (by decide) (by decide) (by decide)).trans
      (by decide)
  · exact (hits_eq 2147483647 100000 99999 (by decide) (by decide) (by decide)
      (by decide)).trans (by decide)
  · exact (hits_eq 32767 2 0 (by decide) (by decide) (by decide) (by decide)).trans
      (by decide)
  · exact (hits_eq 32767 2 1 (by decide) (by decide) (by decide) (by decide)).trans
      (by decide)
end Starlocks
